import Mathlib

/-!
# Verification of the chess engine core (dbittman/chess)

Shallow embedding of the decision-engine core: geometry (squares, ranks,
files, directions), 64-bit bitboards (modelled as `Nat` with explicit
64-bit masking where the Rust `u64` semantics matter), the `Board`
position type, pseudo-legal move generation (`piecemoves.rs`,
`moves.rs`), the attack / pin / legality engine (`legal.rs`), move
application (`moves.rs`), the FEN semantic mapping (`board.rs`), and the
alpha-beta search (`ab.rs`, `chess/ab.rs`).

Squares are integers 0-63 (file = sq % 8, rank = sq / 8 + 1), embedded
as plain `Nat`; ranks are their 1-8 values, files their 0-7 enum
discriminants (A = 0 .. H = 7).
-/

namespace Chess

/-- `Side`: White or Black (`side.rs`). -/
inductive Side where
  | White
  | Black
deriving DecidableEq, Repr

/-- `Side::other` (`side.rs`). -/
def Side.other : Side → Side
  | .White => .Black
  | .Black => .White

/-- `Piece` (`piece.rs`); discriminants Pawn = 0 .. King = 5. -/
inductive Piece where
  | Pawn
  | Bishop
  | Knight
  | Rook
  | Queen
  | King
deriving DecidableEq, Repr

/-- `ALL_PIECES` (`piece.rs`): the order matters for `check_piece`. -/
def ALL_PIECES : List Piece :=
  [.Pawn, .Knight, .Bishop, .Rook, .Queen, .King]

/-- `Direction` (`direction.rs`). -/
inductive Direction where
  | Up
  | UpRight
  | Right
  | DownRight
  | Down
  | DownLeft
  | Left
  | UpLeft
deriving DecidableEq, Repr

/-- `Direction::is_diag` (`direction.rs`). -/
def Direction.is_diag : Direction → Bool
  | .Up => false
  | .Right => false
  | .Down => false
  | .Left => false
  | _ => true

/-- `ALL_DIRS` (`direction.rs`). -/
def ALL_DIRS : List Direction :=
  [.Up, .UpRight, .Right, .DownRight, .Down, .DownLeft, .Left, .UpLeft]

/-- A rank is its 1-8 value (`Rank(pub u8)` in `square.rs`). -/
abbrev Rank := Nat

/-- A file is its 0-7 discriminant, A = 0 .. H = 7 (`square.rs`). -/
abbrev File := Nat

/-- A square is its 0-63 index (`Square(pub u8)` in `square.rs`). -/
abbrev Square := Nat

namespace FileV

def A : File := 0
def B : File := 1
def C : File := 2
def D : File := 3
def E : File := 4
def F : File := 5
def G : File := 6
def H : File := 7

end FileV

/-- `Rank::prev` (`square.rs`). -/
def Rank.prev (r : Rank) : Option Rank :=
  if r = 1 then none else some (r - 1)

/-- `Rank::next` (`square.rs`). -/
def Rank.next (r : Rank) : Option Rank :=
  if r = 8 then none else some (r + 1)

/-- `File::prev` (`square.rs`): `A` has no predecessor. -/
def File.prev (f : File) : Option File :=
  if f = 0 then none else some (f - 1)

/-- `File::next` (`square.rs`): `H` (7) has no successor. -/
def File.next (f : File) : Option File :=
  if f = 7 then none else some (f + 1)

/-- `Rank::allow_double_move` (`square.rs`). -/
def Rank.allow_double_move (r : Rank) (side : Side) : Bool :=
  match side with
  | .White => r = 2
  | .Black => r = 7

/-- `Rank::is_promo_rank` (`square.rs`). -/
def Rank.is_promo_rank (r : Rank) (side : Side) : Bool :=
  match side with
  | .White => r = 8
  | .Black => r = 1

/-- `Square::from_rank_and_file` (`square.rs`). -/
def Square.from_rank_and_file (rank : Rank) (file : File) : Square :=
  file + (rank - 1) * 8

/-- `Square::rank` (`square.rs`). -/
def Square.rank (sq : Square) : Rank :=
  sq / 8 + 1

/-- `Square::file` (`square.rs`). -/
def Square.file (sq : Square) : File :=
  sq % 8

/-- `do_next_sq` (`square.rs`); the lazily built `NEXT_SQ_TABLE` is a pure
cache of this function, so `next_sq` is embedded as the arithmetic. -/
def Square.next_sq (sq : Square) (dir : Direction) : Option Square :=
  let rank := sq.rank
  let file := sq.file
  let next : Option Rank × Option File :=
    match dir with
    | .Up => (rank.next, some file)
    | .UpRight => (rank.next, file.next)
    | .Right => (some rank, file.next)
    | .DownRight => (rank.prev, file.next)
    | .Down => (rank.prev, some file)
    | .DownLeft => (rank.prev, file.prev)
    | .Left => (some rank, file.prev)
    | .UpLeft => (rank.next, file.prev)
  match next with
  | (some rank, some file) => some (Square.from_rank_and_file rank file)
  | _ => none

/-- `do_next_sq_knight` (`square.rs`); again the table is a pure cache. -/
def Square.next_sq_knight (sq : Square) (dir : Direction) : Option Square :=
  let rank := sq.rank
  let file := sq.file
  let next : Option Rank × Option File :=
    match dir with
    | .Up => (rank.next.bind Rank.next, file.next)
    | .UpRight => (rank.next, file.next.bind File.next)
    | .Right => (rank.prev, file.next.bind File.next)
    | .DownRight => (rank.prev.bind Rank.prev, file.next)
    | .Down => (rank.prev.bind Rank.prev, file.prev)
    | .DownLeft => (rank.prev, file.prev.bind File.prev)
    | .Left => (rank.next, file.prev.bind File.prev)
    | .UpLeft => (rank.next.bind Rank.next, file.prev)
  match next with
  | (some rank, some file) => some (Square.from_rank_and_file rank file)
  | _ => none

/-- `Square::is_kingmove_away` (`square.rs`). -/
def Square.is_kingmove_away (sq other : Square) : Bool :=
  ALL_DIRS.any fun dir => sq.next_sq dir = some other

/-! ## BitBoard (`bitboard.rs`)

A `BitBoard` is a `u64` treated as a set of squares; we embed it as a
`Nat` whose meaningful bits are 0-63.  `!x` on `u64` is embedded as
`x ^^^ (2 ^ 64 - 1)`, which agrees with the Rust complement on every
value `< 2 ^ 64`. -/

abbrev BitBoard := Nat

namespace BitBoard

/-- `u64::MAX`, the mask of all 64 bits. -/
def mask64 : Nat := 2 ^ 64 - 1

/-- `!` on `u64` (two's-complement bitwise not). -/
def compl64 (x : BitBoard) : BitBoard := x ^^^ mask64

/-- `BitBoard::get` (`bitboard.rs`). -/
def get (b : BitBoard) (sq : Square) : Bool := b.testBit sq

/-- `BitBoard::set(sq, true)`: `self.0 |= 1 << sq` (`bitboard.rs`). -/
def setTrue (b : BitBoard) (sq : Square) : BitBoard := b ||| (1 <<< sq)

/-- `BitBoard::set(sq, false)`: `self.0 &= !(1 << sq)` (`bitboard.rs`). -/
def setFalse (b : BitBoard) (sq : Square) : BitBoard :=
  b &&& compl64 (1 <<< sq)

/-- `BitBoard::set` (`bitboard.rs`). -/
def set (b : BitBoard) (sq : Square) (v : Bool) : BitBoard :=
  if v then b.setTrue sq else b.setFalse sq

/-- `BitBoard::from_square` (`bitboard.rs`). -/
def from_square (sq : Square) : BitBoard := 1 <<< sq

/-- `BitBoard::to_square` (`bitboard.rs`): the lowest set bit
(`trailing_zeros`) of a non-empty board, as a square. -/
def to_square (b : BitBoard) : Option Square :=
  (List.range 64).find? fun i => b.testBit i

/-- The `IntoIterator` for `BitBoard` yields the member squares in
increasing index order, each exactly once (repeated `to_square` + clear
in `bitboard.rs`); for a `u64` value that is exactly the bits 0-63 that
are set. -/
def toList (b : BitBoard) : List Square :=
  (List.range 64).filter fun i => b.testBit i

end BitBoard

/-! ## Board (`board.rs`)

`Board` owns six piece bitboards (indexed by `Piece`), two side
bitboards, castling rights (a `u8` flag word per side: bit 0 set means
kingside *removed*, bit 1 set means queenside *removed*), side to move,
the en-passant target bitboard and the move counters. -/

structure Board where
  pawns : BitBoard
  bishops : BitBoard
  knights : BitBoard
  rooks : BitBoard
  queens : BitBoard
  kings : BitBoard
  white : BitBoard
  black : BitBoard
  /-- `CastleRights.val` for White. -/
  wcr : Nat
  /-- `CastleRights.val` for Black. -/
  bcr : Nat
  to_move : Side
  enpassant : BitBoard
  halfmove_clock : Nat
  fullmoves : Nat
deriving DecidableEq, Repr

namespace CastleRights

/-- `CastleRights::kingside` (`board.rs`): bit 0 clear. -/
def kingside (val : Nat) : Bool := val &&& 1 = 0

/-- `CastleRights::queenside` (`board.rs`): bit 1 clear. -/
def queenside (val : Nat) : Bool := val &&& 2 = 0

/-- `CastleRights::remove_kingside` (`board.rs`). -/
def remove_kingside (val : Nat) : Nat := val ||| 1

/-- `CastleRights::remove_queenside` (`board.rs`). -/
def remove_queenside (val : Nat) : Nat := val ||| 2

end CastleRights

namespace Board

/-- `Board::pieces` (`board.rs`): the bitboard of a piece type. -/
def pieces (b : Board) : Piece → BitBoard
  | .Pawn => b.pawns
  | .Bishop => b.bishops
  | .Knight => b.knights
  | .Rook => b.rooks
  | .Queen => b.queens
  | .King => b.kings

/-- `Board::color_pieces` (`board.rs`). -/
def color_pieces (b : Board) : Side → BitBoard
  | .White => b.white
  | .Black => b.black

/-- `Board::castle_rights` (`board.rs`), as the raw `val` word. -/
def castle_rights (b : Board) : Side → Nat
  | .White => b.wcr
  | .Black => b.bcr

/-- `Board::check_piece` (`board.rs`): first piece bitboard (in
`ALL_PIECES` order) containing the square. -/
def check_piece (b : Board) (sq : Square) : Option Piece :=
  ALL_PIECES.find? fun p => (b.pieces p).get sq

/-- `Board::piece` (`board.rs`).  The source unwraps `check_piece` when
the side bit is set (panicking on an internally inconsistent board);
the embedding maps that fatal case to `none`. -/
def piece (b : Board) (sq : Square) : Option (Piece × Side) :=
  if b.white.get sq then (b.check_piece sq).map fun p => (p, Side.White)
  else if b.black.get sq then (b.check_piece sq).map fun p => (p, Side.Black)
  else none

/-- `Board::clear_square` (`board.rs`): clear the square in every piece
bitboard and both side bitboards. -/
def clear_square (b : Board) (sq : Square) : Board :=
  { b with
    pawns := b.pawns.setFalse sq
    bishops := b.bishops.setFalse sq
    knights := b.knights.setFalse sq
    rooks := b.rooks.setFalse sq
    queens := b.queens.setFalse sq
    kings := b.kings.setFalse sq
    white := b.white.setFalse sq
    black := b.black.setFalse sq }

/-- `Board::set_square` (`board.rs`): clear, then set the piece and side
bits. -/
def set_square (b : Board) (sq : Square) (p : Piece) (side : Side) : Board :=
  let b := b.clear_square sq
  let b :=
    match p with
    | .Pawn => { b with pawns := b.pawns.setTrue sq }
    | .Bishop => { b with bishops := b.bishops.setTrue sq }
    | .Knight => { b with knights := b.knights.setTrue sq }
    | .Rook => { b with rooks := b.rooks.setTrue sq }
    | .Queen => { b with queens := b.queens.setTrue sq }
    | .King => { b with kings := b.kings.setTrue sq }
  match side with
  | .White => { b with white := b.white.setTrue sq }
  | .Black => { b with black := b.black.setTrue sq }

end Board

/-! ## Moves (`moves.rs`) -/

/-- `Move` (`moves.rs`): start square, destination square, optional
promotion piece. -/
structure Move where
  start : Square
  dest : Square
  promo : Option Piece
deriving DecidableEq, Repr

/-- `Move::is_castling` (`moves.rs`): a king moving from the E file to
the G or C file. -/
def Move.is_castling (mv : Move) (b : Board) : Bool :=
  match b.piece mv.start with
  | some (p, _) =>
    p = Piece.King && mv.start.file = FileV.E &&
      (mv.dest.file = FileV.G || mv.dest.file = FileV.C)
  | none => false

/-- `Move::is_kingside_castle` (`moves.rs`). -/
def Move.is_kingside_castle (mv : Move) (b : Board) : Bool :=
  mv.is_castling b && mv.dest.file = FileV.G

/-! ## Attack and pin detection (`legal.rs`)

`is_attacked` with `ignore_pins = false` consults `is_pinned_by_us`,
which calls `is_in_check`, which calls `is_attacked` with
`ignore_pins = true` — at which point the pin test is short-circuited
away.  The embedding stratifies this finite call chain: the ray / knight
/ pawn scans are written against an explicit pin oracle, `is_in_check`
instantiates the oracle with a dummy (it passes `ignore_pins = true`, so
the oracle is never consulted), and the public `is_attacked` instantiates
it with the real `is_pinned_by_us`.

The `while let` ray walk of `check_attacking_ray` advances to a
strictly higher or lower rank or file each step, so it runs for at most
7 successful steps from any on-board square; fuel 8 is enough for the
walk to reach the board edge. -/

namespace Board

/-- Loop body of `Board::check_attacking_ray` (`legal.rs`), with the
`is_pinned_by_us` calls abstracted into `pinned`. -/
def ray_go (b : Board) (pinned : Square → Bool) (start : Square)
    (us : Side) (dir : Direction) (ignore_pins : Bool) :
    Nat → Square → Bool
  | 0, _ => false
  | fuel + 1, check =>
    match check.next_sq dir with
    | none => false
    | some next =>
      match b.piece next with
      | some (p, side) =>
        if side ≠ us then
          if dir.is_diag then
            if ignore_pins || !pinned next then
              p = Piece.Bishop || p = Piece.Queen ||
                (next.is_kingmove_away start && p = Piece.King)
            else false
          else
            if ignore_pins || !pinned next then
              p = Piece.Rook || p = Piece.Queen ||
                (next.is_kingmove_away start && p = Piece.King)
            else false
        else false
      | none => b.ray_go pinned start us dir ignore_pins fuel next

/-- `Board::check_attacking_ray` (`legal.rs`), pin calls abstracted. -/
def check_attacking_ray_aux (b : Board) (pinned : Square → Bool)
    (start : Square) (us : Side) (dir : Direction) (ignore_pins : Bool) :
    Bool :=
  b.ray_go pinned start us dir ignore_pins 8 start

/-- `Board::is_attacked` (`legal.rs`), pin calls abstracted. -/
def is_attacked_aux (b : Board) (pinned : Square → Bool) (sq : Square)
    (us : Side) (ignore_pins : Bool) : Bool :=
  -- check attacks from bishops, rooks, queens, and kings
  (ALL_DIRS.any fun dir =>
    b.check_attacking_ray_aux pinned sq us dir ignore_pins) ||
  -- check attacks from knights
  (ALL_DIRS.any fun dir =>
    match sq.next_sq_knight dir with
    | some next =>
      match b.piece next with
      | some (p, side) =>
        p = Piece.Knight && side ≠ us && (ignore_pins || !pinned next)
      | none => false
    | none => false) ||
  -- check attacks from pawns
  (let pawn_attack_rank :=
    match us with
    | Side.White => sq.rank.next
    | Side.Black => sq.rank.prev
  let f1 := sq.file.prev
  let f2 := sq.file.next
  match pawn_attack_rank with
  | some rank =>
    (match f1 with
     | some f1 =>
       let source := Square.from_rank_and_file rank f1
       (match b.piece source with
        | some (p, side) =>
          p = Piece.Pawn && side ≠ us && (ignore_pins || !pinned source)
        | none => false)
     | none => false) ||
    (match f2 with
     | some f2 =>
       let source := Square.from_rank_and_file rank f2
       (match b.piece source with
        | some (p, side) =>
          p = Piece.Pawn && side ≠ us && (ignore_pins || !pinned source)
        | none => false)
     | none => false)
  | none => false)

/-- `Board::is_in_check` (`legal.rs`): the king's square is attacked,
ignoring pins.  The source unwraps the king lookup (a missing king is a
fatal internal-consistency failure); the embedding returns `false`
there.  The pin oracle is never consulted because `ignore_pins = true`
short-circuits every `ignore_pins || !pinned _` test. -/
def is_in_check (b : Board) (side : Side) : Bool :=
  match BitBoard.to_square (b.pieces Piece.King &&& b.color_pieces side) with
  | some king_sq => b.is_attacked_aux (fun _ => false) king_sq side true
  | none => false

/-- `Board::is_pinned_by_us` (`legal.rs`). -/
def is_pinned_by_us (b : Board) (sq : Square) (us : Side) : Bool :=
  match BitBoard.to_square
      (b.pieces Piece.King &&& b.color_pieces us.other) with
  | none => false  -- source panics: no king on board
  | some their_king_sq =>
    -- you can't pin a king
    if their_king_sq = sq then false
    else
      let without := b.clear_square sq
      without.is_in_check us.other && !(b.is_in_check us.other)

/-- `Board::is_attacked` (`legal.rs`), with the real pin oracle. -/
def is_attacked (b : Board) (sq : Square) (us : Side)
    (ignore_pins : Bool) : Bool :=
  b.is_attacked_aux (fun s => b.is_pinned_by_us s us) sq us ignore_pins

end Board

/-! ## Per-piece pseudo-legal move bitboards (`piecemoves.rs`) -/

namespace PieceMoves

/-- One ray of `build_diagonal_moves` / `build_lateral_moves`
(`piecemoves.rs`): accumulate squares along `dir` until blocked; stop
before our own pieces, include an enemy (attackable) square and stop.
Fuel 8 reaches the board edge from any on-board square. -/
def slide_go (attackable ourside : BitBoard) (dir : Direction) :
    Nat → Square → BitBoard → BitBoard
  | 0, _, bb => bb
  | fuel + 1, cur, bb =>
    match cur.next_sq dir with
    | none => bb
    | some next =>
      if ourside.get next then bb
      else
        let bb := bb.set next true
        if attackable.get next then bb
        else slide_go attackable ourside dir fuel next bb

/-- `build_diagonal_moves` (`piecemoves.rs`). -/
def build_diagonal_moves (sq : Square) (attackable ourside : BitBoard)
    (bb : BitBoard) : BitBoard :=
  let bb := slide_go attackable ourside .UpRight 8 sq bb
  let bb := slide_go attackable ourside .DownRight 8 sq bb
  let bb := slide_go attackable ourside .DownLeft 8 sq bb
  slide_go attackable ourside .UpLeft 8 sq bb

/-- `build_lateral_moves` (`piecemoves.rs`). -/
def build_lateral_moves (sq : Square) (attackable ourside : BitBoard)
    (bb : BitBoard) : BitBoard :=
  let bb := slide_go attackable ourside .Up 8 sq bb
  let bb := slide_go attackable ourside .Down 8 sq bb
  let bb := slide_go attackable ourside .Left 8 sq bb
  slide_go attackable ourside .Right 8 sq bb

/-- `build_king_moves` (`piecemoves.rs`): one step in each direction. -/
def build_king_moves (sq : Square) (bb : BitBoard) : BitBoard :=
  [Direction.Up, .Down, .Left, .Right, .UpRight, .DownRight, .UpLeft,
   .DownLeft].foldl
    (fun bb dir =>
      match sq.next_sq dir with
      | some next => bb.set next true
      | none => bb) bb

/-- `build_knight_moves` (`piecemoves.rs`). -/
def build_knight_moves (sq : Square) (bb : BitBoard) : BitBoard :=
  ALL_DIRS.foldl
    (fun bb dir =>
      match sq.next_sq_knight dir with
      | some next => bb.set next true
      | none => bb) bb

/-- `build_pawn_moves` (`piecemoves.rs`).  The double-push squares are
unwrapped in the source (a pawn on its double-move rank always has two
squares ahead); the embedding skips the set when they are absent. -/
def build_pawn_moves (sq : Square) (side : Side)
    (attackable enpassant : BitBoard) (bb : BitBoard) : BitBoard :=
  let rank := sq.rank
  let dir : Direction :=
    match side with
    | .White => .Up
    | .Black => .Down
  let bb :=
    if rank.allow_double_move side then
      match (sq.next_sq dir).bind (fun n => n.next_sq dir) with
      | some next => bb.set next true
      | none => bb
    else bb
  let bb :=
    match sq.next_sq dir with
    | some next => bb.set next true
    | none => bb
  let bb := bb &&& BitBoard.compl64 attackable
  let ad1 : Direction :=
    match side with
    | .White => .UpRight
    | .Black => .DownRight
  let ad2 : Direction :=
    match side with
    | .White => .UpLeft
    | .Black => .DownLeft
  let as1 := sq.next_sq ad1
  let as2 := sq.next_sq ad2
  let bb :=
    match as1 with
    | some as1 =>
      if attackable.get as1 || enpassant.get as1 then bb.set as1 true else bb
    | none => bb
  match as2 with
  | some as2 =>
    if attackable.get as2 || enpassant.get as2 then bb.set as2 true else bb
  | none => bb

end PieceMoves

/-- `get_piece_moves` (`piecemoves.rs`). -/
def get_piece_moves (piece : Piece) (side : Side) (sq : Square)
    (enpassant attackable ourside : BitBoard) : BitBoard :=
  let bb : BitBoard := 0
  let bb :=
    match piece with
    | .Pawn => PieceMoves.build_pawn_moves sq side attackable enpassant bb
    | .Bishop => PieceMoves.build_diagonal_moves sq attackable ourside bb
    | .Knight => PieceMoves.build_knight_moves sq bb
    | .Rook => PieceMoves.build_lateral_moves sq attackable ourside bb
    | .Queen =>
      let bb := PieceMoves.build_diagonal_moves sq attackable ourside bb
      PieceMoves.build_lateral_moves sq attackable ourside bb
    | .King => PieceMoves.build_king_moves sq bb
  bb &&& BitBoard.compl64 ourside

namespace Board

/-! ## Move generation and application (`moves.rs`) -/

/-- `Board::move_structural` (`moves.rs`). -/
def move_structural (b : Board) (mv : Move) : Bool :=
  (b.piece mv.start).isSome

/-- `Board::check_castle_has_room` (`moves.rs`). -/
def check_castle_has_room (b : Board) (side : Side) (kingside : Bool) :
    Bool :=
  let rank : Rank :=
    match side with
    | .White => 1
    | .Black => 8
  if kingside then
    !((b.piece (Square.from_rank_and_file rank FileV.F)).isSome ||
      (b.piece (Square.from_rank_and_file rank FileV.G)).isSome)
  else
    !((b.piece (Square.from_rank_and_file rank FileV.B)).isSome ||
      (b.piece (Square.from_rank_and_file rank FileV.C)).isSome ||
      (b.piece (Square.from_rank_and_file rank FileV.D)).isSome)

/-- `Board::castle_moves` (`moves.rs`).  The source unwraps the king
lookup (fatal when absent); the embedding yields no moves then. -/
def castle_moves (b : Board) (side : Side) : List Move :=
  match BitBoard.to_square (b.pieces Piece.King &&& b.color_pieces side) with
  | none => []
  | some king_sq =>
    let rank := king_sq.rank
    (if CastleRights.kingside (b.castle_rights side) &&
        b.check_castle_has_room side true then
      [Move.mk king_sq (Square.from_rank_and_file rank FileV.G) none]
    else []) ++
    (if CastleRights.queenside (b.castle_rights side) &&
        b.check_castle_has_room side false then
      [Move.mk king_sq (Square.from_rank_and_file rank FileV.C) none]
    else [])

/-- `Board::moves_from_square` (`moves.rs`): pseudo-legal moves of the
piece on `sq`, pawn moves to the promotion rank expanded into the four
promotion variants. -/
def moves_from_square (b : Board) (sq : Square) : Option (List Move) :=
  (b.piece sq).map fun (piece, side) =>
    let moves := get_piece_moves piece side sq b.enpassant
      (b.color_pieces side.other) (b.color_pieces side)
    moves.toList.flatMap fun dest =>
      if piece = Piece.Pawn && dest.rank.is_promo_rank side then
        [Move.mk sq dest (some .Queen),
         Move.mk sq dest (some .Knight),
         Move.mk sq dest (some .Bishop),
         Move.mk sq dest (some .Rook)]
      else
        [Move.mk sq dest none]

/-- `Board::moves` (`moves.rs`): per-occupied-square piece moves, then
the synthesized castling moves.  The source unwraps `moves_from_square`
(every iterated square is occupied); the embedding defaults to `[]`. -/
def moves (b : Board) (side : Side) : List Move :=
  ((b.color_pieces side).toList.flatMap fun x =>
    (b.moves_from_square x).getD []) ++ b.castle_moves side

/-- Modelled from the spec: the body of `Board::adv_ply(half: bool)` is
not under `src/` (only its caller in `moves.rs` is; the `board.rs`
snapshot in the tree has an older zero-argument stub).  Per spec §4.3 /
§3 it advances the side to move, resets the halfmove clock when `half`
(pawn move or capture) and increments it otherwise, and increments the
fullmove counter after Black's move. -/
def adv_ply (b : Board) (half : Bool) : Board :=
  { b with
    to_move := b.to_move.other
    halfmove_clock := if half then 0 else b.halfmove_clock + 1
    fullmoves :=
      if b.to_move = Side.Black then b.fullmoves + 1 else b.fullmoves }

/-- Setter for the en-passant bitboard, as called by
`apply_move_unchecked` in `moves.rs`. -/
def set_enpassant (b : Board) (bb : BitBoard) : Board :=
  { b with enpassant := bb }

/-- `self.castle_rights_mut(side).remove_queenside()` (`moves.rs`). -/
def remove_queenside_rights (b : Board) (side : Side) : Board :=
  match side with
  | .White => { b with wcr := CastleRights.remove_queenside b.wcr }
  | .Black => { b with bcr := CastleRights.remove_queenside b.bcr }

/-- `self.castle_rights_mut(side).remove_kingside()` (`moves.rs`). -/
def remove_kingside_rights (b : Board) (side : Side) : Board :=
  match side with
  | .White => { b with wcr := CastleRights.remove_kingside b.wcr }
  | .Black => { b with bcr := CastleRights.remove_kingside b.bcr }

/-- The castling-rights maintenance block of `apply_move_unchecked`
(`moves.rs`): rights are cleared when a rook moves off its home square
or the king moves. -/
def rights_step (b : Board) (mv : Move) (piece : Piece) (side : Side) :
    Board :=
  let qr :=
    match side with
    | Side.White => Square.from_rank_and_file 1 FileV.A
    | Side.Black => Square.from_rank_and_file 8 FileV.A
  let kr :=
    match side with
    | Side.White => Square.from_rank_and_file 1 FileV.H
    | Side.Black => Square.from_rank_and_file 8 FileV.H
  let b :=
    if piece = Piece.Rook && mv.start = qr then
      b.remove_queenside_rights side
    else b
  let b :=
    if piece = Piece.Rook && mv.start = kr then
      b.remove_kingside_rights side
    else b
  if piece = Piece.King then
    (b.remove_kingside_rights side).remove_queenside_rights side
  else b

/-- The rook-relocation block of `apply_move_unchecked` (`moves.rs`):
when the move is a castling move, move the rook across the king. -/
def castle_rook_step (b : Board) (mv : Move) (side : Side) : Board :=
  if mv.is_castling b then
    let rank := mv.start.rank
    if mv.is_kingside_castle b then
      let b := b.set_square (Square.from_rank_and_file rank FileV.F)
        Piece.Rook side
      b.clear_square (Square.from_rank_and_file rank FileV.H)
    else
      let b := b.set_square (Square.from_rank_and_file rank FileV.D)
        Piece.Rook side
      b.clear_square (Square.from_rank_and_file rank FileV.A)
  else b

/-- The en-passant capture block of `apply_move_unchecked` (`moves.rs`):
a pawn landing on the en-passant target removes the pawn behind it. -/
def ep_capture_step (b : Board) (mv : Move) (piece : Piece)
    (side : Side) : Board :=
  match BitBoard.to_square b.enpassant with
  | some enpassant_sq =>
    if enpassant_sq = mv.dest && piece = Piece.Pawn then
      let kill_rank : Rank :=
        match side with
        | Side.White => 5
        | Side.Black => 4
      b.clear_square (Square.from_rank_and_file kill_rank mv.dest.file)
    else b
  | none => b

/-- The piece-placement block of `apply_move_unchecked` (`moves.rs`):
write the moving piece — or the promotion piece — onto the
destination. -/
def place_step (b : Board) (mv : Move) (piece : Piece) (side : Side) :
    Board :=
  match mv.promo with
  | some promo => b.set_square mv.dest promo side
  | none => b.set_square mv.dest piece side

/-- The double-push block of `apply_move_unchecked` (`moves.rs`): set
the en-passant target after a pawn double push. -/
def double_push_step (b : Board) (mv : Move) (piece : Piece)
    (side : Side) : Board :=
  if piece = Piece.Pawn && mv.start.rank.allow_double_move side &&
      (mv.dest.rank = 5 || mv.dest.rank = 4) then
    let enpassant_rank : Rank :=
      match side with
      | Side.White => 3
      | Side.Black => 6
    b.set_enpassant
      (BitBoard.from_square
        (Square.from_rank_and_file enpassant_rank mv.start.file))
  else b

/-- `Board::apply_move_unchecked` (`moves.rs`), assembled from the
blocks above in source order.  The source unwraps `piece(start)`
(guarded by `move_structural` in `apply_move`); the embedding returns
the board unchanged in that unreachable case. -/
def apply_move_unchecked (b : Board) (mv : Move) : Board :=
  match b.piece mv.start with
  | none => b
  | some (piece, side) =>
    let is_capture := (b.piece mv.dest).isSome
    let b2 := rights_step b mv piece side
    let b3 := castle_rook_step b2 mv side
    let b4 := ep_capture_step b3 mv piece side
    let b5 := b4.clear_square mv.start
    let b6 := place_step b5 mv piece side
    let half := piece = Piece.Pawn || is_capture
    let b7 := b6.adv_ply half
    let b8 := b7.set_enpassant 0
    double_push_step b8 mv piece side

/-- `Board::apply_move` (`moves.rs`): `Err` exactly when the start
square is empty (modelled as `none`). -/
def apply_move (b : Board) (mv : Move) : Option Board :=
  if b.move_structural mv then some (b.apply_move_unchecked mv) else none

/-! ## Legality (`legal.rs`) -/

/-- `Board::move_legal` (`legal.rs`). -/
def move_legal (b : Board) (mv : Move) (side : Side) : Bool :=
  match b.piece mv.start with
  | none => false
  | some (_, s) =>
    if s ≠ side then false
    else
      match b.apply_move mv with
      | none => false
      | some applied =>
        if applied.is_in_check side then false
        else if mv.is_castling b then
          let rank : Rank :=
            match side with
            | .White => 1
            | .Black => 8
          if mv.is_kingside_castle b then
            if !(CastleRights.kingside (b.castle_rights side)) then false
            else if (match b.piece (Square.from_rank_and_file rank FileV.H)
                with
              | some (r, s) => r ≠ Piece.Rook || s ≠ side
              | none => false) then false
            else if b.is_attacked (Square.from_rank_and_file rank FileV.E)
                side true then false
            else if b.is_attacked (Square.from_rank_and_file rank FileV.F)
                side true then false
            else if b.is_attacked (Square.from_rank_and_file rank FileV.G)
                side true then false
            else true
          else
            if !(CastleRights.queenside (b.castle_rights side)) then false
            else if (match b.piece (Square.from_rank_and_file rank FileV.A)
                with
              | some (r, s) => r ≠ Piece.Rook || s ≠ side
              | none => false) then false
            else if b.is_attacked (Square.from_rank_and_file rank FileV.E)
                side true then false
            else if b.is_attacked (Square.from_rank_and_file rank FileV.D)
                side true then false
            else if b.is_attacked (Square.from_rank_and_file rank FileV.C)
                side true then false
            else true
        else true

/-- `Board::legal_moves` (`legal.rs`). -/
def legal_moves (b : Board) : List Move :=
  (b.moves b.to_move).filter fun m => b.move_legal m b.to_move

end Board

/-! ## Search engine (`ab.rs`, `chess/ab.rs`)

The search works on `f32` scores, but the only operations it performs
are comparisons, `f32::max` / `f32::min`, and the constants `0.0`,
`1.0`, `f32::NEG_INFINITY` and `f32::INFINITY` — all exact, order-only
computations on values at which IEEE comparison coincides with the
mathematical order (no arithmetic, no NaN is ever produced).  Scores are
therefore embedded as the linearly ordered type `ℤ` extended with `⊥`
(negative infinity) and `⊤` (positive infinity). -/

abbrev Score := WithBot (WithTop ℤ)

/-- `SearchSettings` (`ab.rs` / `chess/ab.rs`). -/
structure SearchSettings where
  divide : Bool
  ab_prune : Bool
  depth : Nat

namespace Board

/-- `AlphaBeta::is_terminal` for `Board` (`chess/ab.rs`): always
`false`. -/
def is_terminal (_ : Board) : Bool := false

/-- `AlphaBeta::score` for `Board` (`chess/ab.rs`): the constant stub
`1.0`. -/
def score (_ : Board) : Score := 1

/-- `AlphaBeta::children` for `Board` (`chess/ab.rs`): the positions
after each legal move.  The source unwraps `apply_move` (legal moves are
always structurally applicable); the embedding defaults to the parent. -/
def children (b : Board) : List Board :=
  b.legal_moves.map fun m => (b.apply_move m).getD b

end Board

/-- The child loop of `alphabeta` (`chess/ab.rs`).  On a pruning break
the running `count += c` of the breaking iteration is abandoned, exactly
as in the source (`break` aborts the `count += if … { …; break; c }`
expression before `c` is added).  The `beta := min alpha value` update
reproduces the source's `beta = f32::min(alpha, value)` verbatim. -/
def ab_go (recur : Board → Score → Score → Bool → Nat × Score)
    (prune : Bool) (mx : Bool) :
    List Board → Score → Score → Score → Nat → Nat × Score
  | [], _, _, value, count => (count, value)
  | ch :: rest, alpha, beta, value, count =>
    if mx then
      let r := recur ch alpha beta false
      let value := max value r.2
      let alpha := max alpha value
      if value ≥ beta && prune then (count, value)
      else ab_go recur prune mx rest alpha beta value (count + r.1)
    else
      let r := recur ch alpha beta true
      let value := min value r.2
      let beta := min alpha value
      if value ≤ alpha && prune then (count, value)
      else ab_go recur prune mx rest alpha beta value (count + r.1)

/-- `alphabeta` (`chess/ab.rs`), at the one node type used, `Board`:
depth-limited alternating max/min search returning `(node_count,
value)`. -/
def alphabeta (s : SearchSettings) :
    Nat → Board → Score → Score → Bool → Nat × Score
  | 0, b, _, _, _ =>
    -- depth == 0 || node.is_terminal()
    (1, b.score)
  | depth + 1, b, alpha, beta, mx =>
    if b.is_terminal then (1, b.score)
    else if depth = 0 && s.divide then
      -- depth == 1 && settings.divide
      (b.children.length, 0)
    else
      let value : Score := if mx then ⊥ else ⊤
      let r := ab_go (alphabeta s depth) s.ab_prune mx b.children
        alpha beta value 0
      if r.1 = 0 then (0, b.score) else r

/-- `Board::alphabeta` (`chess/ab.rs`): the search entry point, with the
full `(-∞, ∞)` window. -/
def Board.alphabeta (b : Board) (s : SearchSettings) (mx : Bool) :
    Nat × Score :=
  Chess.alphabeta s s.depth b ⊥ ⊤ mx

/-! ### Generic search (`ab.rs`)

The generic `alphabeta` works over any type implementing the
`AlphaBeta` trait — a terminal test, a score, and a child iterator
yielding `(child, move-label)` pairs — and additionally accumulates the
best line (`data`). -/

/-- The `AlphaBeta` trait of `ab.rs`, reified as a record of its three
capabilities over node type `N` with move labels `D`. -/
structure ABGame (N D : Type) where
  is_terminal : N → Bool
  score : N → Score
  children : N → List (N × D)

/-- `AlphaBetaResult` (`ab.rs`). -/
structure ABResult (D : Type) where
  count : Nat
  value : Score
  data : List D
deriving DecidableEq, Repr

/-- The child loop of the generic `alphabeta` (`ab.rs`): strict
improvement test on the value, best line rebuilt from the child's line
plus its move label; same discard-on-break counting and the same
`beta = f32::min(alpha, value)` update as the source. -/
def abG_go {N D : Type}
    (recur : N → Score → Score → Bool → ABResult D)
    (prune : Bool) (mx : Bool) :
    List (N × D) → Score → Score → Score → Nat → List D →
    Nat × Score × List D
  | [], _, _, value, count, best => (count, value, best)
  | (ch, data) :: rest, alpha, beta, value, count, best =>
    if mx then
      let res := recur ch alpha beta false
      let (value, best) :=
        if res.value > value then (res.value, res.data ++ [data])
        else (value, best)
      let alpha := max alpha value
      if value ≥ beta && prune then (count, value, best)
      else abG_go recur prune mx rest alpha beta value (count + res.count)
        best
    else
      let res := recur ch alpha beta true
      let (value, best) :=
        if res.value < value then (res.value, res.data ++ [data])
        else (value, best)
      let beta := min alpha value
      if value ≤ alpha && prune then (count, value, best)
      else abG_go recur prune mx rest alpha beta value (count + res.count)
        best

/-- The generic `alphabeta` (`ab.rs`). -/
def alphabetaG {N D : Type} (g : ABGame N D) (s : SearchSettings) :
    Nat → N → Score → Score → Bool → ABResult D
  | 0, node, _, _, _ =>
    -- depth == 0 || node.is_terminal()
    ⟨1, g.score node, []⟩
  | depth + 1, node, alpha, beta, mx =>
    if g.is_terminal node then ⟨1, g.score node, []⟩
    else if depth = 0 && s.divide then
      -- depth == 1 && settings.divide
      ⟨(g.children node).length, 0, []⟩
    else
      let value : Score := if mx then ⊥ else ⊤
      let r := abG_go (alphabetaG g s depth) s.ab_prune mx
        (g.children node) alpha beta value 0 []
      if r.1 = 0 then ⟨0, g.score node, []⟩
      else ⟨r.1, r.2.1, r.2.2⟩

/-! ## FEN boundary (`board.rs`)

FEN text parsing and serialization are delegated to the external `fen`
crate; only its structured record (`BoardState`) is relied upon.  The
semantic mapping `BoardState → Board` is in `board.rs`
(`From<BoardState> for Board` and `CastleRights::from_boardstate`). -/

/-- The `fen` crate's `BoardState` record, at the interface the core
relies upon: 64 square-indexed optional pieces, side to play, the four
castling-availability flags, the en-passant square, and the two move
counters. -/
structure BoardStateRec where
  pieces : List (Option (Piece × Side))
  side_to_play : Side
  white_can_oo : Bool
  white_can_ooo : Bool
  black_can_oo : Bool
  black_can_ooo : Bool
  en_passant_square : Option Square
  halfmove_clock : Nat
  fullmove_number : Nat
deriving DecidableEq, Repr

/-- `CastleRights::from_boardstate` (`board.rs`), returning the
`(white, black)` flag words. -/
def castle_rights_from_boardstate (v : BoardStateRec) : Nat × Nat :=
  let wcr : Nat := 0
  let bcr : Nat := 0
  let bcr := if !v.black_can_oo then CastleRights.remove_kingside bcr
    else bcr
  let bcr := if !v.black_can_ooo then CastleRights.remove_queenside bcr
    else bcr
  let wcr := if !v.white_can_oo then CastleRights.remove_kingside wcr
    else wcr
  let wcr := if !v.white_can_ooo then CastleRights.remove_queenside wcr
    else wcr
  (wcr, bcr)

/-- The loop body of `From<BoardState> for Board` (`board.rs`): place
one enumerated entry of the parsed record with `set_square`, skipping
empty squares. -/
def placeEntry (b : Board) (np : Nat × Option (Piece × Side)) : Board :=
  match np.2 with
  | some (k, c) => b.set_square np.1 k c
  | none => b

/-- `From<BoardState> for Board` (`board.rs`): build the position from
the parsed record, placing each listed piece with `set_square`.  This is
the semantic content of `Board::from_fen` once the external parser has
produced its record. -/
def Board.from_boardstate (v : BoardStateRec) : Board :=
  let cr := castle_rights_from_boardstate v
  let b : Board :=
    { pawns := 0, bishops := 0, knights := 0, rooks := 0, queens := 0,
      kings := 0, white := 0, black := 0,
      wcr := cr.1, bcr := cr.2,
      to_move := v.side_to_play,
      enpassant :=
        match v.en_passant_square with
        | some s => BitBoard.from_square s
        | none => 0
      halfmove_clock := v.halfmove_clock,
      fullmoves := v.fullmove_number }
  v.pieces.enum.foldl placeEntry b

/-- Modelled from the spec: `Board::to_fen` is not under `src/` (only
its callers in `testing.rs` are).  Per spec §4.2 / §6 it serializes the
position's piece placement, side to move, castling availability,
en-passant square, halfmove clock and fullmove number; the external
`fen` crate round-trips its record through text, so the semantic content
of `to_fen` is the `Board → BoardState` mapping, field for field. -/
def Board.to_boardstate (b : Board) : BoardStateRec :=
  { pieces := (List.range 64).map fun sq => b.piece sq,
    side_to_play := b.to_move,
    white_can_oo := CastleRights.kingside b.wcr,
    white_can_ooo := CastleRights.queenside b.wcr,
    black_can_oo := CastleRights.kingside b.bcr,
    black_can_ooo := CastleRights.queenside b.bcr,
    en_passant_square := BitBoard.to_square b.enpassant,
    halfmove_clock := b.halfmove_clock,
    fullmove_number := b.fullmoves }

/-! ## Position sanity

The "sanity" invariant of `Board::assert_is_sane` plus the derived
relationship of §3: on every square the two side bitboards are
disjoint, a side bit is set exactly when some piece bitboard holds the
square, and at most one piece bitboard holds any square.  `bounded`
states that every bitboard fits in a `u64` (automatic in the source,
where they *are* `u64`s). -/

def Board.placement_ok (b : Board) : Bool :=
  (List.range 64).all fun t =>
    (!(b.white.get t && b.black.get t)) &&
    ((b.white.get t || b.black.get t) ==
      (ALL_PIECES.any fun p => (b.pieces p).get t)) &&
    (ALL_PIECES.all fun p => ALL_PIECES.all fun q =>
      (!((b.pieces p).get t && (b.pieces q).get t)) || p == q)

def Board.bounded (b : Board) : Bool :=
  decide (b.pawns < 2 ^ 64) && decide (b.bishops < 2 ^ 64) &&
  decide (b.knights < 2 ^ 64) && decide (b.rooks < 2 ^ 64) &&
  decide (b.queens < 2 ^ 64) && decide (b.kings < 2 ^ 64) &&
  decide (b.white < 2 ^ 64) && decide (b.black < 2 ^ 64)

/-! ## Concrete positions used as test inputs -/

/-- The parsed record of the standard starting position
(`rnbqkbnr/pppppppp/8/8/8/8/PPPPPPPP/RNBQKBNR w KQkq - 0 1`). -/
def startRec : BoardStateRec :=
  { pieces := (List.range 64).map fun sq =>
      if sq < 8 then
        some ([Piece.Rook, .Knight, .Bishop, .Queen, .King, .Bishop,
          .Knight, .Rook].getD sq .Pawn, Side.White)
      else if sq < 16 then some (Piece.Pawn, Side.White)
      else if 48 ≤ sq ∧ sq < 56 then some (Piece.Pawn, Side.Black)
      else if 56 ≤ sq then
        some ([Piece.Rook, .Knight, .Bishop, .Queen, .King, .Bishop,
          .Knight, .Rook].getD (sq - 56) .Pawn, Side.Black)
      else none,
    side_to_play := .White,
    white_can_oo := true, white_can_ooo := true,
    black_can_oo := true, black_can_ooo := true,
    en_passant_square := none,
    halfmove_clock := 0, fullmove_number := 1 }

/-- The standard starting position. -/
def startBoard : Board := Board.from_boardstate startRec

/-- The spec's notion of a pawn double push: a pawn moving exactly two
squares straight forward (`Up` for White, `Down` for Black), skipping
over one square. -/
def spec_double_push (b : Board) (mv : Move) : Bool :=
  match b.piece mv.start with
  | some (p, s) =>
    let dir : Direction :=
      match s with
      | Side.White => .Up
      | Side.Black => .Down
    p = Piece.Pawn &&
      ((mv.start.next_sq dir).bind (fun n => n.next_sq dir) =
        some mv.dest)
  | none => false

/-- A trivial `AlphaBeta` instance: one non-terminal node with score 1
and no children (the shape of a checkmate / stalemate node in the chess
instance, whose `is_terminal` is constantly false). -/
def unitGame : ABGame Unit Unit :=
  { is_terminal := fun _ => false
    score := fun _ => 1
    children := fun _ => [] }

/-- A minimal sane position: the two kings on their home squares,
White to move, no castling rights. -/
def kingsOnlyBoard : Board :=
  { pawns := 0, bishops := 0, knights := 0, rooks := 0, queens := 0,
    kings := (1 <<< 4) ||| (1 <<< 60),
    white := 1 <<< 4, black := 1 <<< 60,
    wcr := 3, bcr := 3, to_move := .White, enpassant := 0,
    halfmove_clock := 0, fullmoves := 1 }

/-- A sane position with a pinned promoting pawn: White king b6 and
pawn b7, Black rooks a8 and b8 and king h1, White to move, no castling
rights.  The pawn's only pseudo-legal move is the promoting capture
b7xa8, but it exposes the white king to the rook on b8. -/
def pinnedPawnBoard : Board :=
  { pawns := 1 <<< 49, bishops := 0, knights := 0,
    rooks := (1 <<< 56) ||| (1 <<< 57), queens := 0,
    kings := (1 <<< 41) ||| (1 <<< 7),
    white := (1 <<< 41) ||| (1 <<< 49),
    black := (1 <<< 56) ||| (1 <<< 57) ||| (1 <<< 7),
    wcr := 3, bcr := 3, to_move := .White, enpassant := 0,
    halfmove_clock := 0, fullmoves := 1 }

/-! ### C7: promotion expansion

Helper notions: two boards are `sidePieceRel us`-related when every
square carries either literally the same content or a piece of side
`us` on both; the pin-ignoring attack scan cannot distinguish such
boards, because a piece of `us` blocks a ray and never attacks `us`
regardless of its type. -/

def sidePieceRel (us : Side) (b1 b2 : Board) : Prop :=
  ∀ t, b1.piece t = b2.piece t ∨
    (∃ p1 p2, b1.piece t = some (p1, us) ∧ b2.piece t = some (p2, us))

/-! ### C4: castling presence in legal_moves -/

/-- The king's home square (e1 / e8). -/
def kingHome : Side → Square
  | .White => 4
  | .Black => 60

/-- The castling king's destination (g1 / c1 / g8 / c8). -/
def castleDest : Side → Bool → Square
  | .White, true => 6
  | .White, false => 2
  | .Black, true => 62
  | .Black, false => 58

/-- The castling rook's home corner (h1 / a1 / h8 / a8). -/
def rookHome : Side → Bool → Square
  | .White, true => 7
  | .White, false => 0
  | .Black, true => 63
  | .Black, false => 56

/-- The square the rook lands on — also the king's transit square
(f1 / d1 / f8 / d8). -/
def rookTransit : Side → Bool → Square
  | .White, true => 5
  | .White, false => 3
  | .Black, true => 61
  | .Black, false => 59

/-- The squares between king and rook that must be empty. -/
def castlePath : Side → Bool → List Square
  | .White, true => [5, 6]
  | .White, false => [1, 2, 3]
  | .Black, true => [61, 62]
  | .Black, false => [57, 58, 59]

/-- Claim-side castling predicate (C4, amended): the right is held, the
rook's home corner holds nothing other than the side's own rook (the
original claim demands the rook itself be there — see the
counterexample), the path squares between king and rook are empty, and
none of the king's start, transit and destination squares are
attacked. -/
def castle_claim_ok (b : Board) (side : Side) (kingside : Bool) :
    Bool :=
  (if kingside then CastleRights.kingside (b.castle_rights side)
   else CastleRights.queenside (b.castle_rights side)) &&
  (match b.piece (rookHome side kingside) with
   | some (r, s) => r = Piece.Rook && s = side
   | none => true) &&
  (castlePath side kingside).all (fun t => !(b.piece t).isSome) &&
  !(b.is_attacked (kingHome side) side true) &&
  !(b.is_attacked (rookTransit side kingside) side true) &&
  !(b.is_attacked (castleDest side kingside) side true)

/-- A position where White may castle kingside by the code's rules
although the h1 rook is absent: White Ke1, Black Ka8, White kingside
right held (queenside removed), h1 empty. -/
def castleFreeBoard : Board :=
  { pawns := 0, bishops := 0, knights := 0, rooks := 0, queens := 0,
    kings := (1 <<< 4) ||| (1 <<< 56),
    white := 1 <<< 4, black := 1 <<< 56,
    wcr := 2, bcr := 3, to_move := .White, enpassant := 0,
    halfmove_clock := 0, fullmoves := 1 }

/-- The squares a ray walk visits: the `next_sq` chain from `cur`. -/
def ray_chain (dir : Direction) : Nat → Square → List Square
  | 0, _ => []
  | fuel + 1, cur =>
    match cur.next_sq dir with
    | none => []
    | some next => next :: ray_chain dir fuel next

/-! ## Infrastructure lemmas -/

namespace BitBoard

theorem mask64_testBit (i : Nat) : mask64.testBit i = decide (i < 64) :=
  Nat.testBit_two_pow_sub_one 64 i

theorem compl64_testBit (x : BitBoard) (i : Nat) :
    (compl64 x).testBit i = (x.testBit i ^^ decide (i < 64)) := by
  simp [compl64, Nat.testBit_xor, mask64_testBit]

theorem get_setTrue (b : BitBoard) (sq t : Nat) :
    (b.setTrue sq).get t = (b.get t || decide (sq = t)) := by
  simp [setTrue, get, Nat.testBit_or, Nat.one_shiftLeft, Nat.testBit_two_pow]

theorem get_setFalse (b : BitBoard) (sq t : Nat) (ht : t < 64) :
    (b.setFalse sq).get t = (b.get t && !(decide (sq = t))) := by
  simp [setFalse, get, Nat.testBit_and, compl64_testBit, Nat.one_shiftLeft,
    Nat.testBit_two_pow, ht]

theorem get_setFalse_high (b : BitBoard) (sq t : Nat) (hsq : sq < 64)
    (ht : 64 ≤ t) : (b.setFalse sq).get t = false := by
  have h1 : decide (sq = t) = false := by
    simp; omega
  have h2 : decide (t < 64) = false := by simp; omega
  simp [setFalse, get, Nat.testBit_and, compl64_testBit, Nat.one_shiftLeft,
    Nat.testBit_two_pow, h1, h2]

theorem get_set_self (b : BitBoard) (sq : Nat) (v : Bool) (h : sq < 64) :
    (b.set sq v).get sq = v := by
  cases v <;> simp [set, get_setTrue, get_setFalse _ _ _ h]

theorem get_set_other (b : BitBoard) (sq t : Nat) (v : Bool)
    (ht : t < 64) (hne : sq ≠ t) : (b.set sq v).get t = b.get t := by
  cases v <;> simp [set, get_setTrue, get_setFalse _ _ _ ht, hne]

theorem get_from_square (sq t : Nat) :
    (from_square sq).get t = decide (sq = t) := by
  simp [from_square, get, Nat.one_shiftLeft, Nat.testBit_two_pow]

theorem mem_toList (b : BitBoard) (t : Nat) :
    t ∈ b.toList ↔ t < 64 ∧ b.get t = true := by
  simp [toList, List.mem_filter, List.mem_range, get, and_comm]

/-- `to_square` of a one-square board is that square. -/
theorem to_square_single (sq : Nat) (h : sq < 64) :
    to_square (from_square sq) = some sq := by
  have hsplit : List.range 64 = List.range sq ++
      List.map (fun x => sq + x) (List.range (64 - sq)) := by
    conv_lhs => rw [show (64 : Nat) = sq + (64 - sq) by omega]
    exact List.range_add sq (64 - sq)
  have h64 : 64 - sq = (63 - sq) + 1 := by omega
  rw [to_square, hsplit, List.find?_append]
  have h1 : (List.range sq).find?
      (fun i => (from_square sq).testBit i) = none := by
    rw [List.find?_eq_none]
    intro j hj
    have hj' : j < sq := List.mem_range.mp hj
    have : (from_square sq).testBit j = false := by
      simp [from_square, Nat.one_shiftLeft, Nat.testBit_two_pow]
      omega
    simp [this]
  have h2 : List.map (fun x => sq + x) (List.range (64 - sq)) =
      sq :: List.map (fun x => sq + (x + 1)) (List.range (63 - sq)) := by
    rw [h64, List.range_succ_eq_map]
    simp [List.map_map, Function.comp]
  rw [h1, h2]
  have : (from_square sq).testBit sq = true := by
    simp [from_square, Nat.one_shiftLeft, Nat.testBit_two_pow]
  simp [List.find?_cons, this]

theorem to_square_zero : to_square 0 = none := by
  rw [to_square, List.find?_eq_none]
  intro j _
  simp

end BitBoard

namespace Board

/-- `check_piece` only looks at the per-piece bitboards at the given
square. -/
theorem check_piece_congr (b1 b2 : Board) (t : Nat)
    (h : ∀ p, (b1.pieces p).get t = (b2.pieces p).get t) :
    b1.check_piece t = b2.check_piece t := by
  unfold check_piece
  congr 1
  funext p
  exact h p

/-- `piece` only looks at the bitboards at the given square. -/
theorem piece_congr (b1 b2 : Board) (t : Nat)
    (hw : b1.white.get t = b2.white.get t)
    (hb : b1.black.get t = b2.black.get t)
    (h : ∀ p, (b1.pieces p).get t = (b2.pieces p).get t) :
    b1.piece t = b2.piece t := by
  unfold piece
  rw [hw, hb, check_piece_congr b1 b2 t h]

theorem pieces_clear_square_get (b : Board) (sq t : Nat) (q : Piece) :
    ((b.clear_square sq).pieces q).get t = ((b.pieces q).setFalse sq).get t := by
  cases q <;> rfl

theorem piece_clear_self (b : Board) (sq : Nat) (h : sq < 64) :
    (b.clear_square sq).piece sq = none := by
  have hW : (b.clear_square sq).white.get sq = false := by
    show (b.white.setFalse sq).get sq = false
    simp [BitBoard.get_setFalse _ _ _ h]
  have hB : (b.clear_square sq).black.get sq = false := by
    show (b.black.setFalse sq).get sq = false
    simp [BitBoard.get_setFalse _ _ _ h]
  unfold piece
  rw [hW, hB]
  simp

theorem piece_clear_other (b : Board) (sq t : Nat) (ht : t < 64)
    (hne : sq ≠ t) : (b.clear_square sq).piece t = b.piece t := by
  have hset : ∀ x : BitBoard, (x.setFalse sq).get t = x.get t := by
    intro x
    simp [BitBoard.get_setFalse _ _ _ ht, hne]
  refine piece_congr _ _ _ (hset b.white) (hset b.black) fun p => ?_
  rw [pieces_clear_square_get]
  exact hset _

theorem pieces_set_square_get (b : Board) (sq : Nat) (p : Piece)
    (s : Side) (q : Piece) (h : sq < 64) :
    ((b.set_square sq p s).pieces q).get sq = decide (q = p) := by
  cases p <;> cases s <;> cases q <;>
    simp [set_square, clear_square, pieces, BitBoard.get_setTrue,
      BitBoard.get_setFalse _ _ _ h]

theorem color_set_square_get (b : Board) (sq : Nat) (p : Piece)
    (s : Side) (c : Side) (h : sq < 64) :
    ((b.set_square sq p s).color_pieces c).get sq = decide (c = s) := by
  cases p <;> cases s <;> cases c <;>
    simp [set_square, clear_square, color_pieces, BitBoard.get_setTrue,
      BitBoard.get_setFalse _ _ _ h]

theorem piece_set_self (b : Board) (sq : Nat) (p : Piece) (s : Side)
    (h : sq < 64) : (b.set_square sq p s).piece sq = some (p, s) := by
  have hbits := fun q => pieces_set_square_get b sq p s q h
  have hcp : (b.set_square sq p s).check_piece sq = some p := by
    unfold check_piece
    rw [show (fun q => ((b.set_square sq p s).pieces q).get sq) =
      (fun q => decide (q = p)) from funext hbits]
    cases p <;> rfl
  have hW : (b.set_square sq p s).white.get sq = decide (Side.White = s) :=
    color_set_square_get b sq p s Side.White h
  have hB : (b.set_square sq p s).black.get sq = decide (Side.Black = s) :=
    color_set_square_get b sq p s Side.Black h
  unfold piece
  rw [hW, hB, hcp]
  cases s <;> simp

theorem piece_set_other (b : Board) (sq t : Nat) (p : Piece) (s : Side)
    (ht : t < 64) (hne : sq ≠ t) :
    (b.set_square sq p s).piece t = b.piece t := by
  have hsetT : ∀ x : BitBoard, (x.setTrue sq).get t = x.get t := by
    intro x
    simp [BitBoard.get_setTrue, hne]
  have hsetF : ∀ x : BitBoard, (x.setFalse sq).get t = x.get t := by
    intro x
    simp [BitBoard.get_setFalse _ _ _ ht, hne]
  refine piece_congr _ _ _ ?_ ?_ fun q => ?_
  · cases p <;> cases s <;> simp [set_square, clear_square, hsetT, hsetF]
  · cases p <;> cases s <;> simp [set_square, clear_square, hsetT, hsetF]
  · cases p <;> cases s <;> cases q <;>
      simp [set_square, clear_square, pieces, hsetT, hsetF]

/-! Field-preservation lemmas: the square mutators leave the
non-bitboard fields alone, and vice versa. -/

@[simp] theorem clear_square_enpassant (b : Board) (sq : Nat) :
    (b.clear_square sq).enpassant = b.enpassant := rfl

@[simp] theorem clear_square_to_move (b : Board) (sq : Nat) :
    (b.clear_square sq).to_move = b.to_move := rfl

@[simp] theorem clear_square_halfmove (b : Board) (sq : Nat) :
    (b.clear_square sq).halfmove_clock = b.halfmove_clock := rfl

@[simp] theorem clear_square_fullmoves (b : Board) (sq : Nat) :
    (b.clear_square sq).fullmoves = b.fullmoves := rfl

@[simp] theorem clear_square_wcr (b : Board) (sq : Nat) :
    (b.clear_square sq).wcr = b.wcr := rfl

@[simp] theorem clear_square_bcr (b : Board) (sq : Nat) :
    (b.clear_square sq).bcr = b.bcr := rfl

@[simp] theorem set_square_enpassant (b : Board) (sq : Nat) (p : Piece)
    (s : Side) : (b.set_square sq p s).enpassant = b.enpassant := by
  cases p <;> cases s <;> rfl

@[simp] theorem set_square_to_move (b : Board) (sq : Nat) (p : Piece)
    (s : Side) : (b.set_square sq p s).to_move = b.to_move := by
  cases p <;> cases s <;> rfl

@[simp] theorem set_square_halfmove (b : Board) (sq : Nat) (p : Piece)
    (s : Side) : (b.set_square sq p s).halfmove_clock =
      b.halfmove_clock := by
  cases p <;> cases s <;> rfl

@[simp] theorem set_square_fullmoves (b : Board) (sq : Nat) (p : Piece)
    (s : Side) : (b.set_square sq p s).fullmoves = b.fullmoves := by
  cases p <;> cases s <;> rfl

@[simp] theorem set_square_wcr (b : Board) (sq : Nat) (p : Piece)
    (s : Side) : (b.set_square sq p s).wcr = b.wcr := by
  cases p <;> cases s <;> rfl

@[simp] theorem set_square_bcr (b : Board) (sq : Nat) (p : Piece)
    (s : Side) : (b.set_square sq p s).bcr = b.bcr := by
  cases p <;> cases s <;> rfl

@[simp] theorem adv_ply_enpassant (b : Board) (half : Bool) :
    (b.adv_ply half).enpassant = b.enpassant := rfl

@[simp] theorem set_enpassant_enpassant (b : Board) (bb : BitBoard) :
    (b.set_enpassant bb).enpassant = bb := rfl

@[simp] theorem set_enpassant_halfmove (b : Board) (bb : BitBoard) :
    (b.set_enpassant bb).halfmove_clock = b.halfmove_clock := rfl

@[simp] theorem set_enpassant_fullmoves (b : Board) (bb : BitBoard) :
    (b.set_enpassant bb).fullmoves = b.fullmoves := rfl

@[simp] theorem adv_ply_halfmove (b : Board) (half : Bool) :
    (b.adv_ply half).halfmove_clock =
      if half then 0 else b.halfmove_clock + 1 := rfl

@[simp] theorem adv_ply_fullmoves (b : Board) (half : Bool) :
    (b.adv_ply half).fullmoves =
      if b.to_move = Side.Black then b.fullmoves + 1 else b.fullmoves :=
  rfl

@[simp] theorem adv_ply_to_move (b : Board) (half : Bool) :
    (b.adv_ply half).to_move = b.to_move.other := rfl

@[simp] theorem set_enpassant_to_move (b : Board) (bb : BitBoard) :
    (b.set_enpassant bb).to_move = b.to_move := rfl

/-! Scalar-field preservation through the `apply_move_unchecked`
blocks. -/

@[simp] theorem rights_step_to_move (b : Board) (mv : Move) (p : Piece)
    (s : Side) : (rights_step b mv p s).to_move = b.to_move := by
  unfold rights_step remove_kingside_rights remove_queenside_rights
  cases s <;> simp [apply_ite Board.to_move]

@[simp] theorem rights_step_enpassant (b : Board) (mv : Move)
    (p : Piece) (s : Side) :
    (rights_step b mv p s).enpassant = b.enpassant := by
  unfold rights_step remove_kingside_rights remove_queenside_rights
  cases s <;> simp [apply_ite Board.enpassant]

@[simp] theorem rights_step_halfmove (b : Board) (mv : Move) (p : Piece)
    (s : Side) :
    (rights_step b mv p s).halfmove_clock = b.halfmove_clock := by
  unfold rights_step remove_kingside_rights remove_queenside_rights
  cases s <;> simp [apply_ite Board.halfmove_clock]

@[simp] theorem rights_step_fullmoves (b : Board) (mv : Move)
    (p : Piece) (s : Side) :
    (rights_step b mv p s).fullmoves = b.fullmoves := by
  unfold rights_step remove_kingside_rights remove_queenside_rights
  cases s <;> simp [apply_ite Board.fullmoves]

@[simp] theorem castle_rook_step_to_move (b : Board) (mv : Move)
    (s : Side) : (castle_rook_step b mv s).to_move = b.to_move := by
  unfold castle_rook_step
  split <;> [split <;> simp; rfl]

@[simp] theorem castle_rook_step_enpassant (b : Board) (mv : Move)
    (s : Side) : (castle_rook_step b mv s).enpassant = b.enpassant := by
  unfold castle_rook_step
  split <;> [split <;> simp; rfl]

@[simp] theorem castle_rook_step_halfmove (b : Board) (mv : Move)
    (s : Side) :
    (castle_rook_step b mv s).halfmove_clock = b.halfmove_clock := by
  unfold castle_rook_step
  split <;> [split <;> simp; rfl]

@[simp] theorem castle_rook_step_fullmoves (b : Board) (mv : Move)
    (s : Side) :
    (castle_rook_step b mv s).fullmoves = b.fullmoves := by
  unfold castle_rook_step
  split <;> [split <;> simp; rfl]

@[simp] theorem ep_capture_step_to_move (b : Board) (mv : Move)
    (p : Piece) (s : Side) :
    (ep_capture_step b mv p s).to_move = b.to_move := by
  unfold ep_capture_step
  split <;> [skip; rfl]
  split <;> simp

@[simp] theorem ep_capture_step_enpassant (b : Board) (mv : Move)
    (p : Piece) (s : Side) :
    (ep_capture_step b mv p s).enpassant = b.enpassant := by
  unfold ep_capture_step
  split <;> [skip; rfl]
  split <;> simp

@[simp] theorem ep_capture_step_halfmove (b : Board) (mv : Move)
    (p : Piece) (s : Side) :
    (ep_capture_step b mv p s).halfmove_clock = b.halfmove_clock := by
  unfold ep_capture_step
  split <;> [skip; rfl]
  split <;> simp

@[simp] theorem ep_capture_step_fullmoves (b : Board) (mv : Move)
    (p : Piece) (s : Side) :
    (ep_capture_step b mv p s).fullmoves = b.fullmoves := by
  unfold ep_capture_step
  split <;> [skip; rfl]
  split <;> simp

@[simp] theorem place_step_to_move (b : Board) (mv : Move) (p : Piece)
    (s : Side) : (place_step b mv p s).to_move = b.to_move := by
  unfold place_step
  split <;> simp

@[simp] theorem place_step_enpassant (b : Board) (mv : Move) (p : Piece)
    (s : Side) : (place_step b mv p s).enpassant = b.enpassant := by
  unfold place_step
  split <;> simp

@[simp] theorem place_step_halfmove (b : Board) (mv : Move) (p : Piece)
    (s : Side) :
    (place_step b mv p s).halfmove_clock = b.halfmove_clock := by
  unfold place_step
  split <;> simp

@[simp] theorem place_step_fullmoves (b : Board) (mv : Move) (p : Piece)
    (s : Side) : (place_step b mv p s).fullmoves = b.fullmoves := by
  unfold place_step
  split <;> simp

@[simp] theorem double_push_step_to_move (b : Board) (mv : Move)
    (p : Piece) (s : Side) :
    (double_push_step b mv p s).to_move = b.to_move := by
  unfold double_push_step
  split <;> simp

@[simp] theorem double_push_step_halfmove (b : Board) (mv : Move)
    (p : Piece) (s : Side) :
    (double_push_step b mv p s).halfmove_clock = b.halfmove_clock := by
  unfold double_push_step
  split <;> simp

@[simp] theorem double_push_step_fullmoves (b : Board) (mv : Move)
    (p : Piece) (s : Side) :
    (double_push_step b mv p s).fullmoves = b.fullmoves := by
  unfold double_push_step
  split <;> simp

theorem double_push_step_enpassant (b : Board) (mv : Move) (p : Piece)
    (s : Side) :
    (double_push_step b mv p s).enpassant =
      if p = Piece.Pawn && mv.start.rank.allow_double_move s &&
          (mv.dest.rank = 5 || mv.dest.rank = 4) then
        BitBoard.from_square (Square.from_rank_and_file
          (match s with | Side.White => 3 | Side.Black => 6)
          mv.start.file)
      else b.enpassant := by
  unfold double_push_step
  split <;> simp_all

end Board

theorem mem_ALL_PIECES (p : Piece) : p ∈ ALL_PIECES := by
  cases p <;> simp [ALL_PIECES]

namespace Board

theorem placement_ok_spec (b : Board) (hok : b.placement_ok = true)
    (t : Nat) (ht : t < 64) :
    (¬(b.white.get t = true ∧ b.black.get t = true)) ∧
    ((b.white.get t || b.black.get t) =
      (ALL_PIECES.any fun p => (b.pieces p).get t)) ∧
    (∀ p q, (b.pieces p).get t = true → (b.pieces q).get t = true →
      p = q) := by
  rw [placement_ok, List.all_eq_true] at hok
  have h := hok t (List.mem_range.mpr ht)
  simp only [Bool.and_eq_true, Bool.not_eq_true', beq_iff_eq,
    List.all_eq_true] at h
  obtain ⟨⟨h1, h2⟩, h3⟩ := h
  refine ⟨?_, h2, ?_⟩
  · intro ⟨hw, hb⟩
    rw [hw, hb] at h1
    simp at h1
  · intro p q hp hq
    have := h3 p (mem_ALL_PIECES p) q (mem_ALL_PIECES q)
    simp only [hp, hq, Bool.and_self, Bool.not_true, Bool.false_or,
      beq_iff_eq] at this
    exact this

theorem check_piece_bit (b : Board) (t : Nat) (p : Piece)
    (h : b.check_piece t = some p) : (b.pieces p).get t = true := by
  unfold check_piece at h
  have := List.find?_some h
  simpa using this

/-- On a sane board, `piece t = some (k, c)` pins down every piece and
side bit on `t`. -/
theorem piece_bits_of_some (b : Board) (hok : b.placement_ok = true)
    (t : Nat) (ht : t < 64) (k : Piece) (c : Side)
    (hpt : b.piece t = some (k, c)) :
    (∀ q, (b.pieces q).get t = decide (q = k)) ∧
    (∀ s, (b.color_pieces s).get t = decide (s = c)) := by
  obtain ⟨hdisj, _, huniq⟩ := placement_ok_spec b hok t ht
  have hkbit : (b.pieces k).get t = true ∧
      (b.color_pieces c).get t = true := by
    unfold piece at hpt
    split at hpt
    · rename_i hw
      rcases hcp : b.check_piece t with _ | p0
      · exfalso
        rw [hcp] at hpt
        exact Option.noConfusion hpt
      · rw [hcp] at hpt
        injection hpt with hpair
        have hp0 : p0 = k := congrArg Prod.fst hpair
        have hc0 : Side.White = c := congrArg Prod.snd hpair
        subst hp0
        rw [← hc0]
        exact ⟨check_piece_bit b t p0 hcp, hw⟩
    · split at hpt
      · rename_i hb
        rcases hcp : b.check_piece t with _ | p0
        · exfalso
          rw [hcp] at hpt
          exact Option.noConfusion hpt
        · rw [hcp] at hpt
          injection hpt with hpair
          have hp0 : p0 = k := congrArg Prod.fst hpair
          have hc0 : Side.Black = c := congrArg Prod.snd hpair
          subst hp0
          rw [← hc0]
          exact ⟨check_piece_bit b t p0 hcp, hb⟩
      · simp at hpt
  constructor
  · intro q
    rcases hq : (b.pieces q).get t with _ | _
    · rcases heq : decide (q = k) with _ | _
      · rfl
      · have : q = k := of_decide_eq_true heq
        subst this
        rw [hq] at hkbit
        simp at hkbit
    · have : q = k := huniq q k hq hkbit.1
      simp [this]
  · intro s
    cases s <;> cases c <;> simp_all [color_pieces]

/-- On a sane board, an empty square has no piece and no side bit. -/
theorem piece_bits_of_none (b : Board) (hok : b.placement_ok = true)
    (t : Nat) (ht : t < 64) (hpt : b.piece t = none) :
    (∀ q, (b.pieces q).get t = false) ∧
    (∀ s, (b.color_pieces s).get t = false) := by
  obtain ⟨_, hocc, _⟩ := placement_ok_spec b hok t ht
  have hsides : b.white.get t = false ∧ b.black.get t = false := by
    unfold piece at hpt
    split at hpt
    · rename_i hw
      rcases hcp : b.check_piece t with _ | p0
      · exfalso
        unfold check_piece at hcp
        rw [List.find?_eq_none] at hcp
        have : (ALL_PIECES.any fun p => (b.pieces p).get t) = false := by
          rw [List.any_eq_false]
          intro p hp
          simpa using hcp p hp
        rw [this] at hocc
        simp [hw] at hocc
      · rw [hcp] at hpt; simp at hpt
    · split at hpt
      · rename_i hb
        rcases hcp : b.check_piece t with _ | p0
        · exfalso
          unfold check_piece at hcp
          rw [List.find?_eq_none] at hcp
          have : (ALL_PIECES.any fun p => (b.pieces p).get t) = false := by
            rw [List.any_eq_false]
            intro p hp
            simpa using hcp p hp
          rw [this] at hocc
          simp [hb] at hocc
        · rw [hcp] at hpt; simp at hpt
      · rename_i hw hb
        simp only [Bool.not_eq_true] at hw hb
        exact ⟨hw, hb⟩
  have hany : (ALL_PIECES.any fun p => (b.pieces p).get t) = false := by
    rw [← hocc, hsides.1, hsides.2]
    rfl
  rw [List.any_eq_false] at hany
  refine ⟨fun q => ?_, fun s => ?_⟩
  · simpa using hany q (mem_ALL_PIECES q)
  · cases s
    · exact hsides.1
    · exact hsides.2

end Board

/-! ## Claim theorems -/

/-- C8: for every position and every move, `apply_move` returns an error
(`none`) if and only if the move's start square is empty — a purely
structural check, so any move whose start square is occupied is applied
successfully. -/
theorem apply_move_err_iff_empty_start (b : Board) (mv : Move) :
    b.apply_move mv = none ↔ b.piece mv.start = none := by
  unfold Board.apply_move Board.move_structural
  cases h : b.piece mv.start <;> simp [h]

/-- C10: for every piece type, side, origin square, en-passant board,
enemy-occupancy board and own-side occupancy board, the move bitboard
returned by `get_piece_moves` never contains a square occupied by the
mover's own side. -/
theorem get_piece_moves_avoids_own (p : Piece) (side : Side)
    (sq : Square) (enp att our : BitBoard) (t : Square) (ht : t < 64) :
    ¬((get_piece_moves p side sq enp att our).get t = true ∧
      our.get t = true) := by
  rintro ⟨h1, h2⟩
  simp only [get_piece_moves] at h1
  have h3 : (BitBoard.compl64 our).testBit t = true := by
    have := h1
    rw [BitBoard.get, Nat.testBit_and, Bool.and_eq_true] at this
    exact this.2
  rw [BitBoard.compl64_testBit] at h3
  rw [BitBoard.get] at h2
  simp [h2, ht] at h3

/-- Witness for C10 at a concrete input (`t = 1 < 64`). -/
theorem get_piece_moves_avoids_own_witness :
    (1 : Nat) < 64 ∧
    ¬((get_piece_moves Piece.Rook Side.White 0 0 0 2).get 1 = true ∧
      (2 : BitBoard).get 1 = true) :=
  ⟨by norm_num,
   get_piece_moves_avoids_own Piece.Rook Side.White 0 0 0 2 1
     (by norm_num)⟩

set_option maxHeartbeats 1000000 in
/-- The scalar bookkeeping of `apply_move_unchecked`: side to move,
halfmove clock, fullmove counter and the en-passant target of the
resulting position, for a move whose start square is occupied. -/
theorem apply_move_unchecked_scalars (b : Board) (mv : Move) (p : Piece)
    (s : Side) (h : b.piece mv.start = some (p, s)) :
    (b.apply_move_unchecked mv).to_move = b.to_move.other ∧
    (b.apply_move_unchecked mv).halfmove_clock =
      (if p = Piece.Pawn ∨ (b.piece mv.dest).isSome then 0
       else b.halfmove_clock + 1) ∧
    (b.apply_move_unchecked mv).fullmoves =
      (if b.to_move = Side.Black then b.fullmoves + 1 else b.fullmoves) ∧
    (b.apply_move_unchecked mv).enpassant =
      (if p = Piece.Pawn ∧ mv.start.rank.allow_double_move s = true ∧
          (mv.dest.rank = 5 ∨ mv.dest.rank = 4) then
        BitBoard.from_square (Square.from_rank_and_file
          (match s with | Side.White => 3 | Side.Black => 6)
          mv.start.file)
      else 0) := by
  rw [Board.apply_move_unchecked.eq_def]
  split
  · simp_all
  · rename_i piece side heq
    rw [h] at heq
    injection heq with heq2
    injection heq2 with hp hs
    subst hp
    subst hs
    refine ⟨by simp, ?_, by simp, ?_⟩
    · simp only [Board.double_push_step_halfmove,
        Board.set_enpassant_halfmove, Board.adv_ply_halfmove,
        Board.place_step_halfmove, Board.clear_square_halfmove,
        Board.ep_capture_step_halfmove, Board.castle_rook_step_halfmove,
        Board.rights_step_halfmove]
      split <;> rename_i hc <;> split <;> rename_i hc2 <;> simp_all
    · rw [Board.double_push_step_enpassant]
      simp only [Board.set_enpassant_enpassant]
      split <;> rename_i hc <;> split <;> rename_i hc2 <;> simp_all

/-- C5 counterexample.  The claim ties the fullmove increment to "the
moving side", but `apply_move` increments it when the position's *side
to move* is Black.  Applying the Black pawn move a7a6 (start square 48,
occupied) on the starting position (White to move) moves a Black piece,
yet the fullmove counter stays at 1. -/
theorem apply_move_fullmove_moving_side_cex :
    startBoard.piece 48 = some (Piece.Pawn, Side.Black) ∧
    ¬((startBoard.apply_move ⟨48, 40, none⟩).map Board.fullmoves =
      some (startBoard.fullmoves + 1)) := by
  decide

/-- C5 (amended): for every position and every move whose start square
is occupied, `apply_move` succeeds and the result has its halfmove
clock reset to zero if the move is a pawn move or a capture and
incremented by one otherwise, and its fullmove counter incremented
exactly when the position's side to move is Black. -/
theorem apply_move_clocks (b : Board) (mv : Move) (p : Piece) (s : Side)
    (h : b.piece mv.start = some (p, s)) :
    ∃ b2, b.apply_move mv = some b2 ∧
      b2.halfmove_clock =
        (if p = Piece.Pawn ∨ (b.piece mv.dest).isSome then 0
         else b.halfmove_clock + 1) ∧
      b2.fullmoves =
        (if b.to_move = Side.Black then b.fullmoves + 1
         else b.fullmoves) := by
  have hst : b.move_structural mv = true := by
    simp [Board.move_structural, h]
  refine ⟨b.apply_move_unchecked mv, ?_, ?_, ?_⟩
  · simp [Board.apply_move, hst]
  · exact (apply_move_unchecked_scalars b mv p s h).2.1
  · exact (apply_move_unchecked_scalars b mv p s h).2.2.1

/-- Witness for C5 (amended) at the pawn move e2e4 on the starting
position. -/
theorem apply_move_clocks_witness :
    startBoard.piece 12 = some (Piece.Pawn, Side.White) ∧
    ∃ b2, startBoard.apply_move ⟨12, 28, none⟩ = some b2 ∧
      b2.halfmove_clock =
        (if Piece.Pawn = Piece.Pawn ∨
            (startBoard.piece 28).isSome then 0
         else startBoard.halfmove_clock + 1) ∧
      b2.fullmoves =
        (if startBoard.to_move = Side.Black then startBoard.fullmoves + 1
         else startBoard.fullmoves) :=
  ⟨by decide,
   apply_move_clocks startBoard ⟨12, 28, none⟩ Piece.Pawn Side.White
     (by decide)⟩

/-- C6 counterexample.  The claim says the resulting en-passant target
is nonempty iff the move was a pawn double push; but applying the
(illegal, structurally accepted) triple push a2a5 — a pawn move from
square 8 to square 32, three ranks ahead — produces a *nonempty*
en-passant target even though the move is not a double push. -/
theorem apply_move_enpassant_double_push_cex :
    (spec_double_push startBoard ⟨8, 32, none⟩ = false) ∧
    ¬((startBoard.apply_move ⟨8, 32, none⟩).map Board.enpassant =
      some 0) := by
  decide

/-- C6 (amended): for every position and every move whose start square
is occupied, `apply_move` succeeds, and the resulting en-passant target
is nonempty iff the moving piece is a pawn, its start rank is the
double-move rank of its side (2 for White, 7 for Black) and its
destination rank is 4 or 5; in that case the target is exactly the
single square of the en-passant rank (3 for White, 6 for Black) in the
move's start file, and otherwise the target is empty (so a double-push
target persists for exactly one ply, then clears). -/
theorem apply_move_enpassant_target (b : Board) (mv : Move) (p : Piece)
    (s : Side) (h : b.piece mv.start = some (p, s)) :
    ∃ b2, b.apply_move mv = some b2 ∧
      b2.enpassant =
        (if p = Piece.Pawn ∧ mv.start.rank.allow_double_move s = true ∧
            (mv.dest.rank = 5 ∨ mv.dest.rank = 4) then
          BitBoard.from_square (Square.from_rank_and_file
            (match s with | Side.White => 3 | Side.Black => 6)
            mv.start.file)
        else 0) := by
  have hst : b.move_structural mv = true := by
    simp [Board.move_structural, h]
  refine ⟨b.apply_move_unchecked mv, ?_, ?_⟩
  · simp [Board.apply_move, hst]
  · exact (apply_move_unchecked_scalars b mv p s h).2.2.2

/-- Witness for C6 (amended) at the double push e2e4 on the starting
position. -/
theorem apply_move_enpassant_target_witness :
    startBoard.piece 12 = some (Piece.Pawn, Side.White) ∧
    ∃ b2, startBoard.apply_move ⟨12, 28, none⟩ = some b2 ∧
      b2.enpassant =
        (if Piece.Pawn = Piece.Pawn ∧
            Rank.allow_double_move (Square.rank 12) Side.White = true ∧
            (Square.rank 28 = 5 ∨ Square.rank 28 = 4) then
          BitBoard.from_square (Square.from_rank_and_file 3
            (Square.file 12))
        else 0) :=
  ⟨by decide,
   apply_move_enpassant_target startBoard ⟨12, 28, none⟩ Piece.Pawn
     Side.White (by decide)⟩

/-- C9 counterexample.  The claim says the zero-children fallback
returns "the node count reset to that of a leaf"; a leaf (depth 0)
returns count 1, but the zero-children branch returns count 0. -/
theorem alphabeta_no_children_count_cex :
    (alphabetaG unitGame ⟨false, false, 1⟩ 1 () ⊥ ⊤ true).count = 0 ∧
    (alphabetaG unitGame ⟨false, false, 1⟩ 0 () ⊥ ⊤ true).count = 1 ∧
    (0 : Nat) ≠ 1 :=
  ⟨rfl, rfl, by decide⟩

/-- C9 (amended): for every non-terminal node and every depth ≥ 1 with
divide mode disabled, if the node has zero children then `alphabeta`
returns the node's own score as the value — with node count 0, not the
leaf count of 1 — and an empty best line; the search is total and never
signals an error. -/
theorem alphabeta_no_children (N D : Type) (g : ABGame N D)
    (s : SearchSettings) (d : Nat) (node : N) (alpha beta : Score)
    (mx : Bool) (hterm : g.is_terminal node = false)
    (hdiv : s.divide = false) (hd : 1 ≤ d)
    (hch : g.children node = []) :
    alphabetaG g s d node alpha beta mx = ⟨0, g.score node, []⟩ := by
  match d, hd with
  | e + 1, _ =>
    simp [alphabetaG, hterm, hdiv, hch, abG_go]

/-- Witness for C9 (amended) on the concrete one-node game at
depth 1. -/
theorem alphabeta_no_children_witness :
    unitGame.is_terminal () = false ∧
    (⟨false, false, 1⟩ : SearchSettings).divide = false ∧
    1 ≤ 1 ∧ unitGame.children () = [] ∧
    alphabetaG unitGame ⟨false, false, 1⟩ 1 () ⊥ ⊤ true =
      ⟨0, unitGame.score (), []⟩ :=
  ⟨rfl, rfl, le_refl 1, rfl,
   alphabeta_no_children Unit Unit unitGame ⟨false, false, 1⟩ 1 () ⊥ ⊤
     true rfl rfl (le_refl 1) rfl⟩

/-- C1: for every position and every move yielded by `legal_moves`,
`apply_move` on that move succeeds, and in the resulting position the
moving side's king is not in check. -/
theorem legal_moves_safe (b : Board) (mv : Move)
    (h : mv ∈ b.legal_moves) :
    ∃ b2, b.apply_move mv = some b2 ∧
      b2.is_in_check b.to_move = false := by
  have hml : b.move_legal mv b.to_move = true :=
    (List.mem_filter.mp h).2
  unfold Board.move_legal at hml
  split at hml
  · exact absurd hml (by simp)
  · rename_i pcs pc s'
    split at hml
    · exact absurd hml (by simp)
    · split at hml
      · exact absurd hml (by simp)
      · rename_i applied happ
        split at hml
        · exact absurd hml (by simp)
        · rename_i hcheck
          exact ⟨applied, happ, by simpa using hcheck⟩

/-- Witness for C1: the king move e1e2 is among the legal moves of the
two-kings position. -/
theorem legal_moves_safe_witness :
    (⟨4, 12, none⟩ : Move) ∈ kingsOnlyBoard.legal_moves ∧
    ∃ b2, kingsOnlyBoard.apply_move ⟨4, 12, none⟩ = some b2 ∧
      b2.is_in_check kingsOnlyBoard.to_move = false :=
  ⟨by decide,
   legal_moves_safe kingsOnlyBoard ⟨4, 12, none⟩ (by decide)⟩

/-! ### C3: alpha-beta pruning equivalence

The chess `score` stub is the constant 1, so every search value with
divide off is 1 whatever the window or pruning flag; and with pruning
on, each node visits a prefix of its children with per-child counts
bounded by the unpruned (window-independent) counts. -/

/-- The running count only grows along the child loop. -/
theorem ab_go_count_ge (recur : Board → Score → Score → Bool →
      Nat × Score) (prune mx : Bool) :
    ∀ (chs : List Board) (alpha beta v : Score) (c : Nat),
      c ≤ (ab_go recur prune mx chs alpha beta v c).1 := by
  intro chs
  induction chs with
  | nil => intro alpha beta v c; simp [ab_go]
  | cons ch rest ih =>
    intro alpha beta v c
    rw [ab_go]
    cases mx <;> simp only [Bool.false_eq_true, if_false, if_true]
    · split
      · simp
      · exact le_trans (Nat.le_add_right c _) (ih _ _ _ _)
    · split
      · simp
      · exact le_trans (Nat.le_add_right c _) (ih _ _ _ _)

/-- With pruning off, the child loop ignores its window arguments
(provided the child evaluator does). -/
theorem ab_go_window_free (recur : Board → Score → Score → Bool →
      Nat × Score)
    (hrec : ∀ ch a1 b1 a2 b2 mx2, recur ch a1 b1 mx2 = recur ch a2 b2 mx2)
    (mx : Bool) :
    ∀ (chs : List Board) (a1 b1 a2 b2 v : Score) (c : Nat),
      ab_go recur false mx chs a1 b1 v c =
        ab_go recur false mx chs a2 b2 v c := by
  intro chs
  induction chs with
  | nil => intro a1 b1 a2 b2 v c; rfl
  | cons ch rest ih =>
    intro a1 b1 a2 b2 v c
    rw [ab_go, ab_go]
    cases mx <;> simp only [Bool.false_eq_true, if_false, if_true,
      Bool.and_false, hrec ch a1 b1 a2 b2] <;> exact ih _ _ _ _ _ _

/-- With pruning off, the whole search ignores its window arguments. -/
theorem alphabeta_window_free (s : SearchSettings)
    (hp : s.ab_prune = false) :
    ∀ (d : Nat) (b : Board) (a1 b1 a2 b2 : Score) (mx : Bool),
      alphabeta s d b a1 b1 mx = alphabeta s d b a2 b2 mx := by
  intro d
  induction d with
  | zero => intro b a1 b1 a2 b2 mx; rfl
  | succ e ih =>
    intro b a1 b1 a2 b2 mx
    rw [alphabeta, alphabeta]
    split
    · rfl
    · split
      · rfl
      · dsimp only
        rw [hp, ab_go_window_free _ (fun ch x1 y1 x2 y2 mx2 =>
          ih ch x1 y1 x2 y2 mx2) mx b.children a1 b1 a2 b2
          (if mx = true then ⊥ else ⊤) 0]

/-- Once the running value has settled at 1, the loop keeps it at 1. -/
theorem ab_go_value_one (recur : Board → Score → Score → Bool →
      Nat × Score) (prune mx : Bool)
    (hrec : ∀ ch a b mx2, (recur ch a b mx2).2 = 1) :
    ∀ (chs : List Board) (alpha beta : Score) (c : Nat),
      (ab_go recur prune mx chs alpha beta 1 c).2 = 1 := by
  intro chs
  induction chs with
  | nil => intro alpha beta c; rfl
  | cons ch rest ih =>
    intro alpha beta c
    rw [ab_go]
    cases mx <;>
      simp only [Bool.false_eq_true, if_false, if_true, hrec,
        min_self, max_self] <;>
      · split
        · rfl
        · exact ih _ _ _

/-- A nonempty child loop entered with an extremal running value
returns value 1. -/
theorem ab_go_value_cons (recur : Board → Score → Score → Bool →
      Nat × Score) (prune mx : Bool)
    (hrec : ∀ ch a b mx2, (recur ch a b mx2).2 = 1)
    (ch : Board) (rest : List Board) (alpha beta v : Score) (c : Nat)
    (hmax : mx = true → v ≤ 1) (hmin : mx = false → 1 ≤ v) :
    (ab_go recur prune mx (ch :: rest) alpha beta v c).2 = 1 := by
  rw [ab_go]
  cases mx
  · have hv : min v (recur ch alpha beta true).2 = 1 := by
      rw [hrec]
      exact min_eq_right (hmin rfl)
    simp only [Bool.false_eq_true, if_false, hv]
    split
    · rfl
    · exact ab_go_value_one recur prune false hrec _ _ _ _
  · have hv : max v (recur ch alpha beta false).2 = 1 := by
      rw [hrec]
      exact max_eq_right (hmax rfl)
    simp only [if_true, hv]
    split
    · rfl
    · exact ab_go_value_one recur prune true hrec _ _ _ _

/-- With divide off, every search value is the constant board score 1,
whatever the window, depth or pruning flag. -/
theorem alphabeta_value_one (s : SearchSettings)
    (hdiv : s.divide = false) :
    ∀ (d : Nat) (b : Board) (alpha beta : Score) (mx : Bool),
      (alphabeta s d b alpha beta mx).2 = 1 := by
  intro d
  induction d with
  | zero => intro b alpha beta mx; rfl
  | succ e ih =>
    intro b alpha beta mx
    rw [alphabeta]
    simp only [Board.is_terminal, Bool.false_eq_true, if_false, hdiv,
      Bool.and_false, if_false]
    cases hch : b.children with
    | nil =>
      simp [ab_go, Board.score]
    | cons ch rest =>
      have hval : (ab_go (alphabeta s e) s.ab_prune mx (ch :: rest)
          alpha beta (if mx = true then ⊥ else ⊤) 0).2 = 1 := by
        refine ab_go_value_cons _ _ _ (fun c a b m => ih c a b m) _ _ _
          _ _ _ ?_ ?_ <;> intro hmx <;> simp [hmx]
      by_cases hz : (ab_go (alphabeta s e) s.ab_prune mx (ch :: rest)
          alpha beta (if mx = true then ⊥ else ⊤) 0).1 = 0
      · simp [hz, Board.score]
      · simp only [hz, if_false]
        exact hval

/-- Pruned child loops visit a prefix of the children with
smaller-or-equal per-child counts, so their total count is bounded by
the unpruned loop's. -/
theorem ab_go_count_le (recur1 recur2 : Board → Score → Score → Bool →
      Nat × Score) (mx : Bool)
    (hle : ∀ ch a1 b1 a2 b2 mx2,
      (recur1 ch a1 b1 mx2).1 ≤ (recur2 ch a2 b2 mx2).1) :
    ∀ (chs : List Board) (a1 b1 a2 b2 v1 v2 : Score) (c1 c2 : Nat),
      c1 ≤ c2 →
      (ab_go recur1 true mx chs a1 b1 v1 c1).1 ≤
        (ab_go recur2 false mx chs a2 b2 v2 c2).1 := by
  intro chs
  induction chs with
  | nil => intro a1 b1 a2 b2 v1 v2 c1 c2 hc; simpa [ab_go] using hc
  | cons ch rest ih =>
    intro a1 b1 a2 b2 v1 v2 c1 c2 hc
    rw [ab_go, ab_go]
    cases mx <;> simp only [Bool.false_eq_true, if_false, if_true,
      Bool.and_false]
    · split
      · exact le_trans hc
          (le_trans (Nat.le_add_right c2 _) (ab_go_count_ge _ _ _ _ _ _ _ _))
      · exact ih _ _ _ _ _ _ _ _
          (Nat.add_le_add hc (hle ch a1 b1 a2 b2 true))
    · split
      · exact le_trans hc
          (le_trans (Nat.le_add_right c2 _) (ab_go_count_ge _ _ _ _ _ _ _ _))
      · exact ih _ _ _ _ _ _ _ _
          (Nat.add_le_add hc (hle ch a1 b1 a2 b2 false))

/-- With divide off, the pruned search never counts more nodes than the
unpruned search, at any window pair. -/
theorem alphabeta_count_le (s1 s2 : SearchSettings)
    (h1d : s1.divide = false) (h2d : s2.divide = false)
    (h1p : s1.ab_prune = true) (h2p : s2.ab_prune = false) :
    ∀ (d : Nat) (b : Board) (a1 b1 a2 b2 : Score) (mx : Bool),
      (alphabeta s1 d b a1 b1 mx).1 ≤ (alphabeta s2 d b a2 b2 mx).1 := by
  intro d
  induction d with
  | zero => intro b a1 b1 a2 b2 mx; exact le_refl 1
  | succ e ih =>
    intro b a1 b1 a2 b2 mx
    rw [alphabeta, alphabeta]
    simp only [Board.is_terminal, Bool.false_eq_true, if_false, h1d,
      h2d, Bool.and_false, if_false, h1p, h2p]
    have key : (ab_go (alphabeta s1 e) true mx b.children a1 b1
        (if mx = true then ⊥ else ⊤) 0).1 ≤
        (ab_go (alphabeta s2 e) false mx b.children a2 b2
        (if mx = true then ⊥ else ⊤) 0).1 :=
      ab_go_count_le _ _ mx (fun ch x1 y1 x2 y2 m => ih ch x1 y1 x2 y2 m)
        _ _ _ _ _ _ _ 0 0 (le_refl 0)
    by_cases h1 : (ab_go (alphabeta s1 e) true mx b.children a1 b1
        (if mx = true then ⊥ else ⊤) 0).1 = 0 <;>
      by_cases h2 : (ab_go (alphabeta s2 e) false mx b.children a2 b2
        (if mx = true then ⊥ else ⊤) 0).1 = 0 <;>
      simp only [h1, h2, if_true, if_false] <;> omega

/-- C3: for every position and every depth (divide mode off — the mode
in which the spec calls the returned value meaningful), the search
returns the same value with pruning enabled as with pruning disabled,
and the node count with pruning enabled is at most the node count with
pruning disabled. -/
theorem alphabeta_pruning_equiv (b : Board) (d : Nat) (mx : Bool) :
    (b.alphabeta ⟨false, true, d⟩ mx).2 =
      (b.alphabeta ⟨false, false, d⟩ mx).2 ∧
    (b.alphabeta ⟨false, true, d⟩ mx).1 ≤
      (b.alphabeta ⟨false, false, d⟩ mx).1 := by
  constructor
  · rw [Board.alphabeta, Board.alphabeta,
      alphabeta_value_one ⟨false, true, d⟩ rfl,
      alphabeta_value_one ⟨false, false, d⟩ rfl]
  · exact alphabeta_count_le ⟨false, true, d⟩ ⟨false, false, d⟩ rfl rfl
      rfl rfl d b ⊥ ⊤ ⊥ ⊤ mx

/-! ### C2: FEN round trip

`from_boardstate ∘ to_boardstate` is the identity on positions
satisfying the invariants every position reachable by legal play has:
sane placement, `u64`-sized bitboards, an en-passant board holding at
most one square, and castling-rights words using only their two flag
bits. -/

namespace Board

theorem pieces_set_square_get_other (b : Board) (sq t : Nat) (k : Piece)
    (c : Side) (q : Piece) (ht : t < 64) (hne : sq ≠ t) :
    ((b.set_square sq k c).pieces q).get t = (b.pieces q).get t := by
  have hsetT : ∀ x : BitBoard, (x.setTrue sq).get t = x.get t := by
    intro x
    simp [BitBoard.get_setTrue, hne]
  have hsetF : ∀ x : BitBoard, (x.setFalse sq).get t = x.get t := by
    intro x
    simp [BitBoard.get_setFalse _ _ _ ht, hne]
  cases k <;> cases c <;> cases q <;>
    simp [set_square, clear_square, pieces, hsetT, hsetF]

theorem color_set_square_get_other (b : Board) (sq t : Nat) (k : Piece)
    (c : Side) (s : Side) (ht : t < 64) (hne : sq ≠ t) :
    ((b.set_square sq k c).color_pieces s).get t =
      (b.color_pieces s).get t := by
  have hsetT : ∀ x : BitBoard, (x.setTrue sq).get t = x.get t := by
    intro x
    simp [BitBoard.get_setTrue, hne]
  have hsetF : ∀ x : BitBoard, (x.setFalse sq).get t = x.get t := by
    intro x
    simp [BitBoard.get_setFalse _ _ _ ht, hne]
  cases k <;> cases c <;> cases s <;>
    simp [set_square, clear_square, color_pieces, hsetT, hsetF]

theorem pieces_set_square_lt (b : Board) (sq : Nat) (k : Piece)
    (c : Side) (q : Piece) (hsq : sq < 64) (hb : b.pieces q < 2 ^ 64) :
    (b.set_square sq k c).pieces q < 2 ^ 64 := by
  have h1 : (1 <<< sq : Nat) < 2 ^ 64 := by
    rw [Nat.one_shiftLeft]
    exact Nat.pow_lt_pow_right (by norm_num) hsq
  have hF : ∀ x : BitBoard, x < 2 ^ 64 → x.setFalse sq < 2 ^ 64 := by
    intro x hx
    exact lt_of_le_of_lt (Nat.and_le_left) hx
  have hT : ∀ x : BitBoard, x < 2 ^ 64 → x.setTrue sq < 2 ^ 64 := by
    intro x hx
    exact Nat.or_lt_two_pow hx h1
  cases k <;> cases c <;> cases q <;>
    · simp only [set_square, clear_square, pieces]
      first
        | exact hT _ (hF _ hb)
        | exact hF _ hb

theorem color_set_square_lt (b : Board) (sq : Nat) (k : Piece)
    (c : Side) (s : Side) (hsq : sq < 64)
    (hb : b.color_pieces s < 2 ^ 64) :
    (b.set_square sq k c).color_pieces s < 2 ^ 64 := by
  have h1 : (1 <<< sq : Nat) < 2 ^ 64 := by
    rw [Nat.one_shiftLeft]
    exact Nat.pow_lt_pow_right (by norm_num) hsq
  have hF : ∀ x : BitBoard, x < 2 ^ 64 → x.setFalse sq < 2 ^ 64 := by
    intro x hx
    exact lt_of_le_of_lt (Nat.and_le_left) hx
  have hT : ∀ x : BitBoard, x < 2 ^ 64 → x.setTrue sq < 2 ^ 64 := by
    intro x hx
    exact Nat.or_lt_two_pow hx h1
  cases k <;> cases c <;> cases s <;>
    · simp only [set_square, clear_square, color_pieces]
      first
        | exact hT _ (hF _ hb)
        | exact hF _ hb

end Board

/-- A fold of `placeEntry` over entries avoiding square `t` leaves the
bits on `t` alone. -/
theorem fold_place_untouched
    (l : List (Nat × Option (Piece × Side))) :
    ∀ (b0 : Board) (t : Nat), t < 64 →
    (∀ np ∈ l, np.2.isSome = true → np.1 ≠ t) →
    (∀ q, ((l.foldl placeEntry b0).pieces q).get t =
      (b0.pieces q).get t) ∧
    (∀ s, ((l.foldl placeEntry b0).color_pieces s).get t =
      (b0.color_pieces s).get t) := by
  induction l with
  | nil => intro b0 t _ _; exact ⟨fun _ => rfl, fun _ => rfl⟩
  | cons np rest ih =>
    intro b0 t ht hl
    rw [List.foldl_cons]
    have hstep : (∀ q, ((placeEntry b0 np).pieces q).get t =
        (b0.pieces q).get t) ∧
        (∀ s, ((placeEntry b0 np).color_pieces s).get t =
          (b0.color_pieces s).get t) := by
      rcases np with ⟨sq, e⟩
      rcases e with _ | ⟨k, c⟩
      · exact ⟨fun _ => rfl, fun _ => rfl⟩
      · have hne : sq ≠ t := hl (sq, some (k, c)) (by simp) rfl
        exact ⟨fun q => Board.pieces_set_square_get_other b0 sq t k c q
            ht hne,
          fun s => Board.color_set_square_get_other b0 sq t k c s ht
            hne⟩
    have hrest := ih (placeEntry b0 np) t ht
      (fun np2 hm hs => hl np2 (List.mem_cons_of_mem np hm) hs)
    exact ⟨fun q => (hrest.1 q).trans (hstep.1 q),
      fun s => (hrest.2 s).trans (hstep.2 s)⟩

/-- After placing `(t, some (k, c))` and then only entries avoiding
`t`, the bits on `t` describe exactly the piece `k` of side `c`. -/
theorem fold_place_hit (l1 l2 : List (Nat × Option (Piece × Side)))
    (t : Nat) (k : Piece) (c : Side) (b0 : Board) (ht : t < 64)
    (h2 : ∀ np ∈ l2, np.2.isSome = true → np.1 ≠ t) :
    (∀ q, (((l1 ++ (t, some (k, c)) :: l2).foldl placeEntry
        b0).pieces q).get t = decide (q = k)) ∧
    (∀ s, (((l1 ++ (t, some (k, c)) :: l2).foldl placeEntry
        b0).color_pieces s).get t = decide (s = c)) := by
  rw [List.foldl_append, List.foldl_cons]
  have hmid : placeEntry (l1.foldl placeEntry b0) (t, some (k, c)) =
      (l1.foldl placeEntry b0).set_square t k c := rfl
  rw [hmid]
  have hfin := fold_place_untouched l2
    ((l1.foldl placeEntry b0).set_square t k c) t ht h2
  refine ⟨fun q => ?_, fun s => ?_⟩
  · rw [hfin.1 q]
    exact Board.pieces_set_square_get _ t k c q ht
  · rw [hfin.2 s]
    exact Board.color_set_square_get _ t k c s ht

/-- The fold keeps every bitboard `u64`-sized when all entries address
on-board squares. -/
theorem fold_place_lt (l : List (Nat × Option (Piece × Side))) :
    ∀ (b0 : Board), (∀ np ∈ l, np.1 < 64) →
    (∀ q, b0.pieces q < 2 ^ 64) →
    (∀ s, b0.color_pieces s < 2 ^ 64) →
    (∀ q, (l.foldl placeEntry b0).pieces q < 2 ^ 64) ∧
    (∀ s, (l.foldl placeEntry b0).color_pieces s < 2 ^ 64) := by
  induction l with
  | nil => intro b0 _ hq hs; exact ⟨hq, hs⟩
  | cons np rest ih =>
    intro b0 hl hq hs
    rw [List.foldl_cons]
    have hstep : (∀ q, (placeEntry b0 np).pieces q < 2 ^ 64) ∧
        (∀ s, (placeEntry b0 np).color_pieces s < 2 ^ 64) := by
      rcases np with ⟨sq, e⟩
      rcases e with _ | ⟨k, c⟩
      · exact ⟨hq, hs⟩
      · have hsq : sq < 64 := hl (sq, some (k, c)) (by simp)
        exact ⟨fun q => Board.pieces_set_square_lt b0 sq k c q hsq
            (hq q),
          fun s => Board.color_set_square_lt b0 sq k c s hsq (hs s)⟩
    exact ih (placeEntry b0 np)
      (fun np2 hm => hl np2 (List.mem_cons_of_mem np hm)) hstep.1
      hstep.2

/-- The fold never touches the scalar fields. -/
theorem fold_place_scalars (l : List (Nat × Option (Piece × Side))) :
    ∀ (b0 : Board),
    (l.foldl placeEntry b0).to_move = b0.to_move ∧
    (l.foldl placeEntry b0).enpassant = b0.enpassant ∧
    (l.foldl placeEntry b0).halfmove_clock = b0.halfmove_clock ∧
    (l.foldl placeEntry b0).fullmoves = b0.fullmoves ∧
    (l.foldl placeEntry b0).wcr = b0.wcr ∧
    (l.foldl placeEntry b0).bcr = b0.bcr := by
  induction l with
  | nil => intro b0; exact ⟨rfl, rfl, rfl, rfl, rfl, rfl⟩
  | cons np rest ih =>
    intro b0
    rw [List.foldl_cons]
    have hstep : (placeEntry b0 np).to_move = b0.to_move ∧
        (placeEntry b0 np).enpassant = b0.enpassant ∧
        (placeEntry b0 np).halfmove_clock = b0.halfmove_clock ∧
        (placeEntry b0 np).fullmoves = b0.fullmoves ∧
        (placeEntry b0 np).wcr = b0.wcr ∧
        (placeEntry b0 np).bcr = b0.bcr := by
      rcases np with ⟨sq, e⟩
      rcases e with _ | ⟨k, c⟩
      · exact ⟨rfl, rfl, rfl, rfl, rfl, rfl⟩
      · simp [placeEntry]
    have hrest := ih (placeEntry b0 np)
    exact ⟨hrest.1.trans hstep.1, hrest.2.1.trans hstep.2.1,
      hrest.2.2.1.trans hstep.2.2.1, hrest.2.2.2.1.trans hstep.2.2.2.1,
      hrest.2.2.2.2.1.trans hstep.2.2.2.2.1,
      hrest.2.2.2.2.2.trans hstep.2.2.2.2.2⟩

/-- `enum` of a mapped `range` enumerates the function's graph. -/
theorem enum_map_range {α : Type} (f : Nat → α) (n : Nat) :
    ((List.range n).map f).enum =
      (List.range n).map fun i => (i, f i) := by
  rw [List.enum_eq_zip_range, List.length_map, List.length_range]
  nth_rewrite 1 [show List.range n = (List.range n).map id from
    (List.map_id _).symm]
  rw [List.zip_map' id f]
  rfl

/-- Splitting `range 64` around one index. -/
theorem range64_split (i : Nat) (h : i < 64) :
    List.range 64 = List.range i ++ i ::
      List.map (fun x => i + (x + 1)) (List.range (63 - i)) := by
  have hsplit : List.range 64 = List.range i ++
      List.map (fun x => i + x) (List.range (64 - i)) := by
    conv_lhs => rw [show (64 : Nat) = i + (64 - i) by omega]
    exact List.range_add i (64 - i)
  have h64 : 64 - i = (63 - i) + 1 := by omega
  rw [hsplit, h64, List.range_succ_eq_map]
  simp [List.map_map, Function.comp]

/-- Two boards with equal fields are equal. -/
theorem Board.ext_fields (x y : Board)
    (h1 : x.pawns = y.pawns) (h2 : x.bishops = y.bishops)
    (h3 : x.knights = y.knights) (h4 : x.rooks = y.rooks)
    (h5 : x.queens = y.queens) (h6 : x.kings = y.kings)
    (h7 : x.white = y.white) (h8 : x.black = y.black)
    (h9 : x.wcr = y.wcr) (h10 : x.bcr = y.bcr)
    (h11 : x.to_move = y.to_move) (h12 : x.enpassant = y.enpassant)
    (h13 : x.halfmove_clock = y.halfmove_clock)
    (h14 : x.fullmoves = y.fullmoves) : x = y := by
  cases x
  cases y
  simp_all

/-- C2: serializing a position's semantic content and re-importing it
reproduces the position field-for-field, for every position satisfying
the invariants of positions reachable by legal play (sane placement,
`u64` bitboards, at most one en-passant square, two-bit castling
words).  `to_boardstate` is the semantic content of `to_fen` (the
external `fen` crate round-trips its record through text, including the
"-" forms for empty castling rights and en-passant), and
`from_boardstate` that of `from_fen`. -/
theorem fen_roundtrip (b : Board) (hok : b.placement_ok = true)
    (hbd : b.bounded = true)
    (hep : b.enpassant = 0 ∨
      ∃ sq, sq < 64 ∧ b.enpassant = BitBoard.from_square sq)
    (hwcr : b.wcr < 4) (hbcr : b.bcr < 4) :
    Board.from_boardstate b.to_boardstate = b := by
  have hbd8 : b.pawns < 2 ^ 64 ∧ b.bishops < 2 ^ 64 ∧
      b.knights < 2 ^ 64 ∧ b.rooks < 2 ^ 64 ∧ b.queens < 2 ^ 64 ∧
      b.kings < 2 ^ 64 ∧ b.white < 2 ^ 64 ∧ b.black < 2 ^ 64 := by
    simpa [Board.bounded, Bool.and_eq_true, decide_eq_true_eq,
      and_assoc] using hbd
  have hbq : ∀ q, b.pieces q < 2 ^ 64 := by
    intro q
    cases q <;> simp [Board.pieces] <;> tauto
  have hbs : ∀ s, b.color_pieces s < 2 ^ 64 := by
    intro s
    cases s <;> simp [Board.color_pieces] <;> tauto
  have hlist : (b.to_boardstate).pieces.enum =
      (List.range 64).map fun i => (i, b.piece i) :=
    enum_map_range (fun i => b.piece i) 64
  have hl_lt : ∀ np ∈ (List.range 64).map fun i => (i, b.piece i),
      np.1 < 64 := by
    intro np hm
    rcases List.mem_map.mp hm with ⟨i, hi, rfl⟩
    exact List.mem_range.mp hi
  rw [Board.from_boardstate]
  rw [hlist]
  set base : Board :=
    { pawns := 0, bishops := 0, knights := 0, rooks := 0, queens := 0,
      kings := 0, white := 0, black := 0,
      wcr := (castle_rights_from_boardstate b.to_boardstate).1,
      bcr := (castle_rights_from_boardstate b.to_boardstate).2,
      to_move := (b.to_boardstate).side_to_play,
      enpassant :=
        match (b.to_boardstate).en_passant_square with
        | some s => BitBoard.from_square s
        | none => 0
      halfmove_clock := (b.to_boardstate).halfmove_clock,
      fullmoves := (b.to_boardstate).fullmove_number } with hbase
  have hbase_p : ∀ q, base.pieces q = 0 := by
    intro q
    cases q <;> rfl
  have hbase_c : ∀ s, base.color_pieces s = 0 := by
    intro s
    cases s <;> rfl
  set l : List (Nat × Option (Piece × Side)) :=
    (List.range 64).map fun i => (i, b.piece i) with hldef
  have hbit : (∀ q, ((l.foldl placeEntry base).pieces q) =
      b.pieces q) ∧
      (∀ s, ((l.foldl placeEntry base).color_pieces s) =
        b.color_pieces s) := by
    have main : ∀ (t : Nat), t < 64 →
        (∀ q, ((l.foldl placeEntry base).pieces q).get t =
          (b.pieces q).get t) ∧
        (∀ s, ((l.foldl placeEntry base).color_pieces s).get t =
          (b.color_pieces s).get t) := by
      intro t ht
      rcases hpt : b.piece t with _ | ⟨k, c⟩
      · have hnone := Board.piece_bits_of_none b hok t ht hpt
        have huntouched := fold_place_untouched l base t ht ?_
        · refine ⟨fun q => ?_, fun s => ?_⟩
          · rw [huntouched.1 q, hbase_p q, (hnone.1 q)]
            simp [BitBoard.get]
          · rw [huntouched.2 s, hbase_c s, (hnone.2 s)]
            simp [BitBoard.get]
        · intro np hm hsome
          rw [hldef] at hm
          rcases List.mem_map.mp hm with ⟨i, _, rfl⟩
          intro hit
          simp only at hit hsome
          rw [hit] at hsome
          rw [hpt] at hsome
          simp at hsome
      · have hsome := Board.piece_bits_of_some b hok t ht k c hpt
        have hsplit : l = ((List.range t).map fun i => (i, b.piece i))
            ++ (t, some (k, c)) ::
            ((List.map (fun x => t + (x + 1))
              (List.range (63 - t))).map fun i => (i, b.piece i)) := by
          rw [hldef, range64_split t ht, List.map_append, List.map_cons,
            hpt]
        have hhit := fold_place_hit
          ((List.range t).map fun i => (i, b.piece i))
          ((List.map (fun x => t + (x + 1))
            (List.range (63 - t))).map fun i => (i, b.piece i))
          t k c base ht ?_
        · refine ⟨fun q => ?_, fun s => ?_⟩
          · rw [hsplit, hhit.1 q, hsome.1 q]
          · rw [hsplit, hhit.2 s, hsome.2 s]
        · intro np hm _
          rcases List.mem_map.mp hm with ⟨i, hi, rfl⟩
          rcases List.mem_map.mp hi with ⟨x, _, rfl⟩
          simp only
          omega
    have hlt := fold_place_lt l base (by rw [hldef]; exact hl_lt)
      (fun q => by rw [hbase_p q]; positivity)
      (fun s => by rw [hbase_c s]; positivity)
    refine ⟨fun q => ?_, fun s => ?_⟩
    · apply Nat.eq_of_testBit_eq
      intro i
      by_cases hi : i < 64
      · exact (main i hi).1 q
      · have h1 : ((l.foldl placeEntry base).pieces q).testBit i =
            false :=
          Nat.testBit_lt_two_pow (lt_of_lt_of_le (hlt.1 q)
            (Nat.pow_le_pow_right (by norm_num) (by omega)))
        have h2 : (b.pieces q).testBit i = false :=
          Nat.testBit_lt_two_pow (lt_of_lt_of_le (hbq q)
            (Nat.pow_le_pow_right (by norm_num) (by omega)))
        rw [h1, h2]
    · apply Nat.eq_of_testBit_eq
      intro i
      by_cases hi : i < 64
      · exact (main i hi).2 s
      · have h1 : ((l.foldl placeEntry base).color_pieces s).testBit i
            = false :=
          Nat.testBit_lt_two_pow (lt_of_lt_of_le (hlt.2 s)
            (Nat.pow_le_pow_right (by norm_num) (by omega)))
        have h2 : (b.color_pieces s).testBit i = false :=
          Nat.testBit_lt_two_pow (lt_of_lt_of_le (hbs s)
            (Nat.pow_le_pow_right (by norm_num) (by omega)))
        rw [h1, h2]
  have hsc := fold_place_scalars l base
  have hwcr_eq : base.wcr = b.wcr := by
    have h4 : b.wcr = 0 ∨ b.wcr = 1 ∨ b.wcr = 2 ∨ b.wcr = 3 := by
      omega
    rcases h4 with h | h | h | h <;>
      · show (castle_rights_from_boardstate b.to_boardstate).1 = b.wcr
        simp [castle_rights_from_boardstate, Board.to_boardstate,
          CastleRights.kingside, CastleRights.queenside,
          CastleRights.remove_kingside, CastleRights.remove_queenside,
          h]
  have hbcr_eq : base.bcr = b.bcr := by
    have h4 : b.bcr = 0 ∨ b.bcr = 1 ∨ b.bcr = 2 ∨ b.bcr = 3 := by
      omega
    rcases h4 with h | h | h | h <;>
      · show (castle_rights_from_boardstate b.to_boardstate).2 = b.bcr
        simp [castle_rights_from_boardstate, Board.to_boardstate,
          CastleRights.kingside, CastleRights.queenside,
          CastleRights.remove_kingside, CastleRights.remove_queenside,
          h]
  have hep_eq : base.enpassant = b.enpassant := by
    show (match (b.to_boardstate).en_passant_square with
      | some s => BitBoard.from_square s
      | none => 0) = b.enpassant
    rcases hep with h0 | ⟨sq, hsq, heq⟩
    · show (match BitBoard.to_square b.enpassant with
        | some s => BitBoard.from_square s
        | none => 0) = b.enpassant
      rw [h0, BitBoard.to_square_zero]
    · show (match BitBoard.to_square b.enpassant with
        | some s => BitBoard.from_square s
        | none => 0) = b.enpassant
      rw [heq, BitBoard.to_square_single sq hsq]
  refine Board.ext_fields _ _ (hbit.1 Piece.Pawn) (hbit.1 Piece.Bishop)
    (hbit.1 Piece.Knight) (hbit.1 Piece.Rook) (hbit.1 Piece.Queen)
    (hbit.1 Piece.King) (hbit.2 Side.White) (hbit.2 Side.Black)
    (hsc.2.2.2.2.1.trans hwcr_eq) (hsc.2.2.2.2.2.trans hbcr_eq)
    (hsc.1.trans rfl) (hsc.2.1.trans hep_eq) (hsc.2.2.1.trans rfl)
    (hsc.2.2.2.1.trans rfl)

theorem ray_go_rel (us : Side) (b1 b2 : Board)
    (hrel : sidePieceRel us b1 b2) (pin1 pin2 : Square → Bool)
    (start : Square) (dir : Direction) :
    ∀ (fuel : Nat) (cur : Square),
      b1.ray_go pin1 start us dir true fuel cur =
        b2.ray_go pin2 start us dir true fuel cur := by
  intro fuel
  induction fuel with
  | zero => intro cur; rfl
  | succ f ih =>
    intro cur
    rw [Board.ray_go, Board.ray_go]
    cases hn : cur.next_sq dir with
    | none => rfl
    | some nxt =>
      dsimp only
      rcases hrel nxt with heq | ⟨p1, p2, h1, h2⟩
      · rw [heq]
        cases hp : b2.piece nxt with
        | none => exact ih nxt
        | some ps => simp
      · rw [h1, h2]
        simp

theorem is_attacked_aux_rel (us : Side) (b1 b2 : Board)
    (hrel : sidePieceRel us b1 b2) (pin1 pin2 : Square → Bool)
    (sq : Square) :
    b1.is_attacked_aux pin1 sq us true =
      b2.is_attacked_aux pin2 sq us true := by
  unfold Board.is_attacked_aux
  have hray : ∀ dir, b1.check_attacking_ray_aux pin1 sq us dir true =
      b2.check_attacking_ray_aux pin2 sq us dir true := by
    intro dir
    unfold Board.check_attacking_ray_aux
    exact ray_go_rel us b1 b2 hrel pin1 pin2 sq dir 8 sq
  have hknight : ∀ dir,
      (match sq.next_sq_knight dir with
       | some next =>
         match b1.piece next with
         | some (p, side) =>
           p = Piece.Knight && side ≠ us && (true || !pin1 next)
         | none => false
       | none => false) =
      (match sq.next_sq_knight dir with
       | some next =>
         match b2.piece next with
         | some (p, side) =>
           p = Piece.Knight && side ≠ us && (true || !pin2 next)
         | none => false
       | none => false) := by
    intro dir
    cases hn : sq.next_sq_knight dir with
    | none => rfl
    | some next =>
      dsimp only
      rcases hrel next with heq | ⟨p1, p2, h1, h2⟩
      · rw [heq]
        cases b2.piece next with
        | none => rfl
        | some ps => simp
      · rw [h1, h2]
        simp
  have hpawn : ∀ source : Square,
      (match b1.piece source with
       | some (p, side) =>
         p = Piece.Pawn && side ≠ us && (true || !pin1 source)
       | none => false) =
      (match b2.piece source with
       | some (p, side) =>
         p = Piece.Pawn && side ≠ us && (true || !pin2 source)
       | none => false) := by
    intro source
    rcases hrel source with heq | ⟨p1, p2, h1, h2⟩
    · rw [heq]
      cases b2.piece source with
      | none => rfl
      | some ps => simp
    · rw [h1, h2]
      simp
  simp only [hray]
  congr 1
  congr 1
  · congr 1
    funext dir
    exact hknight dir
  · cases hr : (match us with
      | Side.White => Rank.next sq.rank
      | Side.Black => Rank.prev sq.rank) with
    | none => rfl
    | some rank =>
      dsimp only
      congr 1
      · cases hf : sq.file.prev with
        | none => rfl
        | some f1 =>
          dsimp only
          exact hpawn (Square.from_rank_and_file rank f1)
      · cases hf : sq.file.next with
        | none => rfl
        | some f2 =>
          dsimp only
          exact hpawn (Square.from_rank_and_file rank f2)

theorem is_in_check_rel (us : Side) (b1 b2 : Board)
    (hrel : sidePieceRel us b1 b2)
    (hking : b1.pieces Piece.King &&& b1.color_pieces us =
      b2.pieces Piece.King &&& b2.color_pieces us) :
    b1.is_in_check us = b2.is_in_check us := by
  unfold Board.is_in_check
  rw [hking]
  cases BitBoard.to_square (b2.pieces Piece.King &&&
      b2.color_pieces us) with
  | none => rfl
  | some k => exact is_attacked_aux_rel us b1 b2 hrel _ _ k

theorem rights_step_pawn (b : Board) (mv : Move) (side : Side) :
    Board.rights_step b mv Piece.Pawn side = b := by
  unfold Board.rights_step
  simp

theorem is_castling_of_pawn (b : Board) (mv : Move) (side : Side)
    (h : b.piece mv.start = some (Piece.Pawn, side)) :
    mv.is_castling b = false := by
  unfold Move.is_castling
  rw [h]
  simp

theorem castle_rook_step_of_not (b : Board) (mv : Move) (side : Side)
    (h : mv.is_castling b = false) : Board.castle_rook_step b mv side = b := by
  unfold Board.castle_rook_step
  rw [h]
  simp

theorem piece_double_push_step (b : Board) (mv : Move) (p : Piece)
    (s : Side) (t : Nat) :
    (Board.double_push_step b mv p s).piece t = b.piece t := by
  unfold Board.double_push_step
  split <;> rfl

theorem pieces_double_push_step (b : Board) (mv : Move) (p : Piece)
    (s : Side) (q : Piece) :
    (Board.double_push_step b mv p s).pieces q = b.pieces q := by
  unfold Board.double_push_step
  split <;> rfl

theorem color_double_push_step (b : Board) (mv : Move) (p : Piece)
    (s : Side) (c : Side) :
    (Board.double_push_step b mv p s).color_pieces c = b.color_pieces c := by
  unfold Board.double_push_step
  split <;> rfl

/-- `apply_move_unchecked` on a pawn move with a promotion piece,
unrolled: the castling-rights and rook-relocation blocks are identity
for a pawn, the placed piece is the promotion piece, and the halfmove
flag is a pawn move. -/
theorem apply_promo_decomp (b : Board) (s d : Square) (side : Side)
    (p : Piece) (hs : b.piece s = some (Piece.Pawn, side)) :
    b.apply_move_unchecked (Move.mk s d (some p)) =
      Board.double_push_step
        (((((Board.ep_capture_step b (Move.mk s d (some p)) Piece.Pawn
          side).clear_square s).set_square d p side).adv_ply
          true).set_enpassant 0)
        (Move.mk s d (some p)) Piece.Pawn side := by
  rw [Board.apply_move_unchecked.eq_def]
  split
  · rename_i heq
    rw [hs] at heq
    exact absurd heq (by simp)
  · rename_i piece side2 heq
    rw [hs] at heq
    injection heq with heq2
    injection heq2 with hp2 hs2
    subst hp2
    subst hs2
    simp only [rights_step_pawn,
      castle_rook_step_of_not b (Move.mk s d (some p)) side
        (is_castling_of_pawn b (Move.mk s d (some p)) side hs)]
    simp [Board.place_step]

theorem set_square_white_indep (b : Board) (d : Nat) (p q : Piece)
    (c : Side) :
    (b.set_square d p c).white = (b.set_square d q c).white := by
  cases p <;> cases q <;> cases c <;> rfl

theorem set_square_black_indep (b : Board) (d : Nat) (p q : Piece)
    (c : Side) :
    (b.set_square d p c).black = (b.set_square d q c).black := by
  cases p <;> cases q <;> cases c <;> rfl

theorem set_square_kings_indep (b : Board) (d : Nat) (p q : Piece)
    (c : Side) (hp : p ≠ Piece.King) (hq : q ≠ Piece.King) :
    (b.set_square d p c).kings = (b.set_square d q c).kings := by
  cases p <;> cases q <;> cases c <;> simp_all [Board.set_square,
    Board.clear_square]

theorem piece_set_square_high (b : Board) (d : Nat) (k : Piece)
    (c : Side) (t : Nat) (hd : d < 64) (ht : 64 ≤ t) :
    (b.set_square d k c).piece t = none := by
  have hcase1 : ∀ x : BitBoard, (x.setFalse d).get t = false :=
    fun x => BitBoard.get_setFalse_high x d t hd ht
  have hcase2 : ∀ x : BitBoard,
      ((x.setFalse d).setTrue d).get t = false := by
    intro x
    rw [BitBoard.get_setTrue, hcase1]
    simp
    omega
  have hW : (b.set_square d k c).white.get t = false := by
    cases k <;> cases c <;>
      simp [Board.set_square, Board.clear_square, hcase1, hcase2]
  have hB : (b.set_square d k c).black.get t = false := by
    cases k <;> cases c <;>
      simp [Board.set_square, Board.clear_square, hcase1, hcase2]
  unfold Board.piece
  rw [hW, hB]
  simp

/-- The two positions reached by the same pawn move with different
(non-king) promotion pieces are `sidePieceRel`-related and have the
same king bitboards, so legality agrees on them. -/
theorem move_legal_promo_indep (b : Board) (s d : Square) (side : Side)
    (p q : Piece) (hs : b.piece s = some (Piece.Pawn, side))
    (hp : p ≠ Piece.King) (hq : q ≠ Piece.King) (hd64 : d < 64) :
    b.move_legal (Move.mk s d (some p)) side =
      b.move_legal (Move.mk s d (some q)) side := by
  set pre : Board := (Board.ep_capture_step b (Move.mk s d (some p))
    Piece.Pawn side).clear_square s with hpre
  have hpreq : (Board.ep_capture_step b (Move.mk s d (some q)) Piece.Pawn
      side).clear_square s = pre := rfl
  set Ap : Board := b.apply_move_unchecked (Move.mk s d (some p))
    with hAp
  set Aq : Board := b.apply_move_unchecked (Move.mk s d (some q))
    with hAq
  have hApd : Ap = Board.double_push_step (((pre.set_square d p
      side).adv_ply true).set_enpassant 0) (Move.mk s d (some p))
      Piece.Pawn side := by
    rw [hAp, apply_promo_decomp b s d side p hs]
  have hAqd : Aq = Board.double_push_step (((pre.set_square d q
      side).adv_ply true).set_enpassant 0) (Move.mk s d (some q))
      Piece.Pawn side := by
    rw [hAq, apply_promo_decomp b s d side q hs, hpreq]
  have hApt : ∀ t, Ap.piece t = (pre.set_square d p side).piece t := by
    intro t
    rw [hApd, piece_double_push_step]
    rfl
  have hAqt : ∀ t, Aq.piece t = (pre.set_square d q side).piece t := by
    intro t
    rw [hAqd, piece_double_push_step]
    rfl
  have hrel : sidePieceRel side Ap Aq := by
    intro t
    rw [hApt t, hAqt t]
    by_cases ht : t < 64
    · by_cases htd : t = d
      · subst htd
        right
        exact ⟨p, q, Board.piece_set_self pre t p side ht,
          Board.piece_set_self pre t q side ht⟩
      · left
        rw [Board.piece_set_other pre d t p side ht
            (fun h => htd h.symm),
          Board.piece_set_other pre d t q side ht
            (fun h => htd h.symm)]
    · left
      rw [piece_set_square_high pre d p side t hd64
          (Nat.le_of_not_lt ht),
        piece_set_square_high pre d q side t hd64
          (Nat.le_of_not_lt ht)]
  have hking : Ap.pieces Piece.King &&& Ap.color_pieces side =
      Aq.pieces Piece.King &&& Aq.color_pieces side := by
    have h1 : Ap.pieces Piece.King =
        (pre.set_square d p side).pieces Piece.King := by
      rw [hApd, pieces_double_push_step]
      rfl
    have h2 : Aq.pieces Piece.King =
        (pre.set_square d q side).pieces Piece.King := by
      rw [hAqd, pieces_double_push_step]
      rfl
    have h3 : Ap.color_pieces side =
        (pre.set_square d p side).color_pieces side := by
      rw [hApd, color_double_push_step]
      rfl
    have h4 : Aq.color_pieces side =
        (pre.set_square d q side).color_pieces side := by
      rw [hAqd, color_double_push_step]
      rfl
    rw [h1, h2, h3, h4]
    have hk : (pre.set_square d p side).kings =
        (pre.set_square d q side).kings :=
      set_square_kings_indep pre d p q side hp hq
    have hw : (pre.set_square d p side).white =
        (pre.set_square d q side).white :=
      set_square_white_indep pre d p q side
    have hb2 : (pre.set_square d p side).black =
        (pre.set_square d q side).black :=
      set_square_black_indep pre d p q side
    show (pre.set_square d p side).kings &&& _ =
      (pre.set_square d q side).kings &&& _
    rw [hk]
    congr 1
    cases side
    · exact hw
    · exact hb2
  have hchk : Ap.is_in_check side = Aq.is_in_check side :=
    is_in_check_rel side Ap Aq hrel hking
  have happ_p : b.apply_move (Move.mk s d (some p)) = some Ap := by
    rw [hAp]
    simp [Board.apply_move, Board.move_structural, hs]
  have happ_q : b.apply_move (Move.mk s d (some q)) = some Aq := by
    rw [hAq]
    simp [Board.apply_move, Board.move_structural, hs]
  have hcastp : (Move.mk s d (some p)).is_castling b = false :=
    is_castling_of_pawn b (Move.mk s d (some p)) side hs
  have hcastq : (Move.mk s d (some q)).is_castling b = false :=
    is_castling_of_pawn b (Move.mk s d (some q)) side hs
  unfold Board.move_legal
  simp only [Move.start, hs, happ_p, happ_q, hchk, hcastp, hcastq]
  simp

theorem filter_flatMap {α β : Type} (l : List α) (g : α → List β)
    (P : β → Bool) :
    (l.flatMap g).filter P = l.flatMap fun x => (g x).filter P := by
  induction l with
  | nil => rfl
  | cons x rest ih => simp [List.flatMap_cons, List.filter_append, ih]

theorem flatMap_single {α β : Type} [DecidableEq α] (l : List α)
    (hl : l.Nodup) (g : α → List β) (a : α)
    (hz : ∀ x ∈ l, x ≠ a → g x = []) :
    l.flatMap g = if a ∈ l then g a else [] := by
  induction l with
  | nil => simp
  | cons x rest ih =>
    rw [List.flatMap_cons]
    rcases List.nodup_cons.mp hl with ⟨hx, hrest⟩
    by_cases hxa : x = a
    · subst hxa
      have hrest0 : rest.flatMap g = [] := by
        have hall : ∀ y ∈ rest, g y = [] := by
          intro y hy
          exact hz y (List.mem_cons_of_mem x hy)
            (fun h => hx (h ▸ hy))
        clear ih hz hl hrest hx
        induction rest with
        | nil => rfl
        | cons z zs ihz =>
          rw [List.flatMap_cons, hall z (List.mem_cons_self z zs),
            List.nil_append]
          exact ihz (fun y hy => hall y (List.mem_cons_of_mem z hy))
      simp [hrest0]
    · rw [hz x (List.mem_cons_self x rest) hxa, List.nil_append,
        ih hrest (fun y hy hne => hz y (List.mem_cons_of_mem x hy) hne)]
      have hiff : (a ∈ rest) ↔ (a ∈ x :: rest) := by
        constructor
        · exact List.mem_cons_of_mem x
        · intro h
          rcases List.mem_cons.mp h with h1 | h1
          · exact absurd h1.symm hxa
          · exact h1
      exact if_congr hiff rfl rfl

theorem toList_nodup (bb : BitBoard) : bb.toList.Nodup :=
  List.Nodup.filter _ (List.nodup_range 64)

/-- A board's `piece` at a square forces the corresponding piece and
side bits (no sanity needed). -/
theorem piece_bits_raw (b : Board) (t : Nat) (k : Piece) (c : Side)
    (hpt : b.piece t = some (k, c)) :
    (b.pieces k).get t = true ∧ (b.color_pieces c).get t = true := by
  unfold Board.piece at hpt
  split at hpt
  · rename_i hw
    rcases hcp : b.check_piece t with _ | p0
    · exfalso
      rw [hcp] at hpt
      exact Option.noConfusion hpt
    · rw [hcp] at hpt
      injection hpt with hpair
      have hp0 : p0 = k := congrArg Prod.fst hpair
      have hc0 : Side.White = c := congrArg Prod.snd hpair
      subst hp0
      rw [← hc0]
      exact ⟨Board.check_piece_bit b t p0 hcp, hw⟩
  · split at hpt
    · rename_i hb
      rcases hcp : b.check_piece t with _ | p0
      · exfalso
        rw [hcp] at hpt
        exact Option.noConfusion hpt
      · rw [hcp] at hpt
        injection hpt with hpair
        have hp0 : p0 = k := congrArg Prod.fst hpair
        have hc0 : Side.Black = c := congrArg Prod.snd hpair
        subst hp0
        rw [← hc0]
        exact ⟨Board.check_piece_bit b t p0 hcp, hb⟩
    · exact absurd hpt (by simp)

/-- What membership in `moves_from_square` means: the move starts on
the square, its destination is a generated destination, and its
promotion field is exactly the promotion-rank expansion. -/
theorem mem_msq_imp (b : Board) (x : Square) (mv : Move)
    (h : mv ∈ (b.moves_from_square x).getD []) :
    ∃ pc sd, b.piece x = some (pc, sd) ∧ mv.start = x ∧
      mv.dest ∈ BitBoard.toList (get_piece_moves pc sd x b.enpassant
        (b.color_pieces sd.other) (b.color_pieces sd)) ∧
      ((pc = Piece.Pawn ∧ mv.dest.rank.is_promo_rank sd = true ∧
        (mv.promo = some Piece.Queen ∨ mv.promo = some Piece.Knight ∨
         mv.promo = some Piece.Bishop ∨ mv.promo = some Piece.Rook)) ∨
       (¬(pc = Piece.Pawn ∧ mv.dest.rank.is_promo_rank sd = true) ∧
        mv.promo = none)) := by
  unfold Board.moves_from_square at h
  rcases hp : b.piece x with _ | ⟨pc, sd⟩
  · rw [hp] at h
    simp at h
  · rw [hp] at h
    have h2 : mv ∈ (BitBoard.toList (get_piece_moves pc sd x
        b.enpassant (b.color_pieces sd.other)
        (b.color_pieces sd))).flatMap (fun dest =>
          if pc = Piece.Pawn && dest.rank.is_promo_rank sd then
            [Move.mk x dest (some Piece.Queen),
             Move.mk x dest (some Piece.Knight),
             Move.mk x dest (some Piece.Bishop),
             Move.mk x dest (some Piece.Rook)]
          else [Move.mk x dest none]) := h
    rw [List.mem_flatMap] at h2
    obtain ⟨dest, hdest, hm⟩ := h2
    refine ⟨pc, sd, rfl, ?_⟩
    by_cases hcond : pc = Piece.Pawn ∧
        dest.rank.is_promo_rank sd = true
    · rw [if_pos (by simp [hcond.1, hcond.2])] at hm
      simp only [List.mem_cons, List.mem_singleton,
        List.not_mem_nil] at hm
      rcases hm with rfl | rfl | rfl | rfl | hfalse
      · exact ⟨rfl, hdest, Or.inl ⟨hcond.1, hcond.2, Or.inl rfl⟩⟩
      · exact ⟨rfl, hdest,
          Or.inl ⟨hcond.1, hcond.2, Or.inr (Or.inl rfl)⟩⟩
      · exact ⟨rfl, hdest,
          Or.inl ⟨hcond.1, hcond.2, Or.inr (Or.inr (Or.inl rfl))⟩⟩
      · exact ⟨rfl, hdest,
          Or.inl ⟨hcond.1, hcond.2, Or.inr (Or.inr (Or.inr rfl))⟩⟩
      · exact absurd hfalse (by simp)
    · rw [if_neg (by
        intro hcontra
        rcases Bool.and_eq_true _ _ |>.mp hcontra with ⟨h1, h2⟩
        exact hcond ⟨of_decide_eq_true h1, h2⟩)] at hm
      simp only [List.mem_singleton] at hm
      subst hm
      exact ⟨rfl, hdest, Or.inr ⟨hcond, rfl⟩⟩

/-- Where a castling move starts: on the king-lookup square, with no
promotion. -/
theorem castle_moves_start (b : Board) (side : Side) (mv : Move)
    (h : mv ∈ b.castle_moves side) :
    ∃ ks, BitBoard.to_square
        (b.pieces Piece.King &&& b.color_pieces side) = some ks ∧
      mv.start = ks ∧ mv.promo = none := by
  unfold Board.castle_moves at h
  rcases hk : BitBoard.to_square
      (b.pieces Piece.King &&& b.color_pieces side) with _ | ks
  · rw [hk] at h
    simp at h
  · rw [hk] at h
    rw [List.mem_append] at h
    refine ⟨ks, rfl, ?_⟩
    rcases h with h | h <;>
      · split at h <;> simp_all

theorem to_square_bit (bb : BitBoard) (ks : Nat)
    (h : BitBoard.to_square bb = some ks) :
    bb.testBit ks = true ∧ ks < 64 := by
  unfold BitBoard.to_square at h
  exact ⟨List.find?_some h,
    List.mem_range.mp (List.mem_of_find?_eq_some h)⟩

/-- On a sane board, a castling move never starts on a pawn square. -/
theorem castle_start_ne_pawn (b : Board) (hok : b.placement_ok = true)
    (side sd2 : Side) (s : Square)
    (hs : b.piece s = some (Piece.Pawn, sd2)) (mv : Move)
    (h : mv ∈ b.castle_moves side) : mv.start ≠ s := by
  obtain ⟨ks, hk, hstart, _⟩ := castle_moves_start b side mv h
  rw [hstart]
  intro hks
  subst hks
  obtain ⟨hbit, hlt⟩ := to_square_bit _ _ hk
  rw [Nat.testBit_and, Bool.and_eq_true] at hbit
  have hking : (b.pieces Piece.King).get ks = true := hbit.1
  have hpawn : (b.pieces Piece.Pawn).get ks = true :=
    (piece_bits_raw b ks Piece.Pawn sd2 hs).1
  obtain ⟨_, _, huniq⟩ := Board.placement_ok_spec b hok ks hlt
  exact absurd (huniq Piece.Pawn Piece.King hpawn hking) (by simp)

/-- Witness for C2 at the standard starting position. -/
theorem fen_roundtrip_witness :
    startBoard.placement_ok = true ∧ startBoard.bounded = true ∧
    (startBoard.enpassant = 0 ∨
      ∃ sq, sq < 64 ∧ startBoard.enpassant = BitBoard.from_square sq) ∧
    startBoard.wcr < 4 ∧ startBoard.bcr < 4 ∧
    Board.from_boardstate startBoard.to_boardstate = startBoard :=
  ⟨by decide, by decide, Or.inl (by decide), by decide, by decide,
   fen_roundtrip startBoard (by decide) (by decide) (Or.inl (by decide))
     (by decide) (by decide)⟩

/-! ### C7: promotion expansion -/

theorem filter_swap {α : Type} (p q : α → Bool) (l : List α) :
    (l.filter q).filter p = (l.filter p).filter q := by
  induction l with
  | nil => rfl
  | cons x xs ih =>
    by_cases hp : p x <;> by_cases hq : q x <;>
      simp [List.filter_cons, hp, hq, ih]

theorem toList_mem_iff (bb : BitBoard) (s : Square) :
    s ∈ bb.toList ↔ bb.get s = true ∧ s < 64 := by
  unfold BitBoard.toList
  rw [List.mem_filter, List.mem_range]
  constructor
  · rintro ⟨h1, h2⟩
    exact ⟨h2, h1⟩
  · rintro ⟨h1, h2⟩
    exact ⟨h2, h1⟩

/-- Castling moves never contribute to a (pawn-square, anything)
filter on a sane board. -/
theorem castle_filter_empty (b : Board) (hok : b.placement_ok = true)
    (side sd2 : Side) (s : Square)
    (hs : b.piece s = some (Piece.Pawn, sd2)) (d : Square) :
    (b.castle_moves side).filter
      (fun mv => mv.start = s && mv.dest = d) = [] := by
  rw [List.filter_eq_nil_iff]
  intro mv hm
  have hne := castle_start_ne_pawn b hok side sd2 s hs mv hm
  simp [hne]

/-- Moves generated from a different start square never contribute to
the filter. -/
theorem msq_filter_other (b : Board) (s d x : Square) (hxs : x ≠ s) :
    ((b.moves_from_square x).getD []).filter
      (fun mv => mv.start = s && mv.dest = d) = [] := by
  rw [List.filter_eq_nil_iff]
  intro mv hm
  obtain ⟨pc, sd, _, hstart, _, _⟩ := mem_msq_imp b x mv hm
  simp [hstart, hxs]

/-- Filtering the pawn's own generated moves for one promotion-rank
destination yields the four promotion variants or nothing. -/
theorem msq_filter_self (b : Board) (s d : Square) (side : Side)
    (hs : b.piece s = some (Piece.Pawn, side))
    (hd : d.rank.is_promo_rank side = true) :
    ((b.moves_from_square s).getD []).filter
        (fun mv => mv.start = s && mv.dest = d) =
      if d ∈ BitBoard.toList (get_piece_moves Piece.Pawn side s
          b.enpassant (b.color_pieces side.other) (b.color_pieces side))
      then [Move.mk s d (some Piece.Queen),
            Move.mk s d (some Piece.Knight),
            Move.mk s d (some Piece.Bishop),
            Move.mk s d (some Piece.Rook)]
      else [] := by
  have hmsq : (b.moves_from_square s).getD [] =
      (BitBoard.toList (get_piece_moves Piece.Pawn side s b.enpassant
        (b.color_pieces side.other) (b.color_pieces side))).flatMap
        (fun dest =>
          if Piece.Pawn = Piece.Pawn && dest.rank.is_promo_rank side
          then
            [Move.mk s dest (some Piece.Queen),
             Move.mk s dest (some Piece.Knight),
             Move.mk s dest (some Piece.Bishop),
             Move.mk s dest (some Piece.Rook)]
          else [Move.mk s dest none]) := by
    unfold Board.moves_from_square
    rw [hs]
    rfl
  rw [hmsq, filter_flatMap]
  rw [flatMap_single _ (toList_nodup _) _ d (by
    intro x hx hxd
    by_cases hpr : x.rank.is_promo_rank side = true
    · simp [hpr, List.filter_cons, hxd]
    · simp [hpr, List.filter_cons, hxd])]
  by_cases hmem : d ∈ BitBoard.toList (get_piece_moves Piece.Pawn side
      s b.enpassant (b.color_pieces side.other) (b.color_pieces side))
  · rw [if_pos hmem, if_pos hmem]
    simp [hd, List.filter_cons]
  · rw [if_neg hmem, if_neg hmem]

/-- The pseudo-legal move list's contribution for a promotion-rank
pawn destination: the four variants when the destination is generated,
nothing otherwise. -/
theorem moves_filter_promo (b : Board) (hok : b.placement_ok = true)
    (s d : Square) (hs64 : s < 64)
    (hs : b.piece s = some (Piece.Pawn, b.to_move))
    (hd : d.rank.is_promo_rank b.to_move = true) :
    (b.moves b.to_move).filter
        (fun mv => mv.start = s && mv.dest = d) =
      if d ∈ BitBoard.toList (get_piece_moves Piece.Pawn b.to_move s
          b.enpassant (b.color_pieces b.to_move.other)
          (b.color_pieces b.to_move))
      then [Move.mk s d (some Piece.Queen),
            Move.mk s d (some Piece.Knight),
            Move.mk s d (some Piece.Bishop),
            Move.mk s d (some Piece.Rook)]
      else [] := by
  unfold Board.moves
  rw [List.filter_append,
    castle_filter_empty b hok b.to_move b.to_move s hs d,
    List.append_nil, filter_flatMap]
  rw [flatMap_single _ (toList_nodup _) _ s (by
    intro x hx hxs
    exact msq_filter_other b s d x hxs)]
  have hsmem : s ∈ (b.color_pieces b.to_move).toList := by
    rw [toList_mem_iff]
    exact ⟨(piece_bits_raw b s Piece.Pawn b.to_move hs).2, hs64⟩
  rw [if_pos hsmem]
  exact msq_filter_self b s d b.to_move hs hd

/-- Counterexample to C7 as stated: on `pinnedPawnBoard` the pawn move
b7xa8 reaches the last rank and is generated (in all four promotion
variants), but zero — not four — of them are legal, because the
capture exposes the white king to the rook on b8. -/
theorem promo_pinned_cex :
    pinnedPawnBoard.piece 49 =
      some (Piece.Pawn, pinnedPawnBoard.to_move) ∧
    (Square.rank 56).is_promo_rank pinnedPawnBoard.to_move = true ∧
    (pinnedPawnBoard.moves pinnedPawnBoard.to_move).filter
        (fun mv => mv.start = 49 && mv.dest = 56) =
      [Move.mk 49 56 (some Piece.Queen),
       Move.mk 49 56 (some Piece.Knight),
       Move.mk 49 56 (some Piece.Bishop),
       Move.mk 49 56 (some Piece.Rook)] ∧
    pinnedPawnBoard.legal_moves.filter
        (fun mv => mv.start = 49 && mv.dest = 56) = [] := by
  refine ⟨by decide, by decide, by decide, by decide⟩

/-- C7 (corrected: the four promotion variants of a pawn move to the
last rank stand or fall together, but when the move is illegal — e.g.
the pawn is pinned — zero of them are legal, not four): for every sane
position and every pawn of the side to move, the legal moves from the
pawn's square to a last-rank destination are either exactly the four
promotion variants (Queen, Knight, Bishop, Rook) or none at all, and
no generated pawn move landing on that rank lacks a promotion piece. -/
theorem promo_four_or_none (b : Board) (hok : b.placement_ok = true)
    (s d : Square) (hs64 : s < 64)
    (hs : b.piece s = some (Piece.Pawn, b.to_move))
    (hd : d.rank.is_promo_rank b.to_move = true) :
    ((b.legal_moves.filter fun mv => mv.start = s && mv.dest = d) =
        [Move.mk s d (some Piece.Queen),
         Move.mk s d (some Piece.Knight),
         Move.mk s d (some Piece.Bishop),
         Move.mk s d (some Piece.Rook)] ∨
      (b.legal_moves.filter fun mv => mv.start = s && mv.dest = d) =
        []) ∧
    ∀ mv ∈ b.moves b.to_move, mv.start = s → mv.dest = d →
      mv.promo ≠ none := by
  constructor
  · have hlf : b.legal_moves.filter
        (fun mv => mv.start = s && mv.dest = d) =
        ((b.moves b.to_move).filter
          (fun mv => mv.start = s && mv.dest = d)).filter
          (fun m => b.move_legal m b.to_move) := by
      unfold Board.legal_moves
      exact filter_swap _ _ _
    rw [hlf, moves_filter_promo b hok s d hs64 hs hd]
    by_cases hmem : d ∈ BitBoard.toList (get_piece_moves Piece.Pawn
        b.to_move s b.enpassant (b.color_pieces b.to_move.other)
        (b.color_pieces b.to_move))
    · rw [if_pos hmem]
      have hd64 : d < 64 := ((toList_mem_iff _ d).mp hmem).2
      have hK : b.move_legal (Move.mk s d (some Piece.Knight))
            b.to_move =
          b.move_legal (Move.mk s d (some Piece.Queen)) b.to_move :=
        move_legal_promo_indep b s d b.to_move Piece.Knight
          Piece.Queen hs (by simp) (by simp) hd64
      have hB : b.move_legal (Move.mk s d (some Piece.Bishop))
            b.to_move =
          b.move_legal (Move.mk s d (some Piece.Queen)) b.to_move :=
        move_legal_promo_indep b s d b.to_move Piece.Bishop
          Piece.Queen hs (by simp) (by simp) hd64
      have hR : b.move_legal (Move.mk s d (some Piece.Rook))
            b.to_move =
          b.move_legal (Move.mk s d (some Piece.Queen)) b.to_move :=
        move_legal_promo_indep b s d b.to_move Piece.Rook
          Piece.Queen hs (by simp) (by simp) hd64
      by_cases hQ : b.move_legal (Move.mk s d (some Piece.Queen))
          b.to_move = true
      · left
        simp [List.filter_cons, hQ, hK, hB, hR]
      · right
        simp [List.filter_cons, hK, hB, hR,
          Bool.eq_false_iff.mpr hQ]
    · rw [if_neg hmem]
      right
      rfl
  · intro mv hm hstart hdest
    unfold Board.moves at hm
    rw [List.mem_append] at hm
    rcases hm with hm | hm
    · rw [List.mem_flatMap] at hm
      obtain ⟨x, hx, hmv⟩ := hm
      obtain ⟨pc, sd, hpx, hst, _, hdisj⟩ := mem_msq_imp b x mv hmv
      have hxs : x = s := by
        rw [hstart] at hst
        exact hst.symm
      subst hxs
      rw [hs] at hpx
      injection hpx with hpair
      have hpc : Piece.Pawn = pc := congrArg Prod.fst hpair
      have hsd : b.to_move = sd := congrArg Prod.snd hpair
      rcases hdisj with ⟨_, _, hpromo⟩ | ⟨hnot, _⟩
      · rcases hpromo with h | h | h | h <;> simp [h]
      · exfalso
        apply hnot
        refine ⟨hpc.symm, ?_⟩
        rw [hdest, ← hsd]
        exact hd
    · have hne := castle_start_ne_pawn b hok b.to_move b.to_move s hs
        mv hm
      exact absurd hstart hne

/-- Witness for C7 on the pinned-pawn position: hypotheses hold at
s = b7, d = a8, and the theorem applies (here the empty branch). -/
theorem promo_four_or_none_witness :
    pinnedPawnBoard.placement_ok = true ∧ (49 : Square) < 64 ∧
    pinnedPawnBoard.piece 49 =
      some (Piece.Pawn, pinnedPawnBoard.to_move) ∧
    (Square.rank 56).is_promo_rank pinnedPawnBoard.to_move = true ∧
    (((pinnedPawnBoard.legal_moves.filter
        fun mv => mv.start = 49 && mv.dest = 56) =
        [Move.mk 49 56 (some Piece.Queen),
         Move.mk 49 56 (some Piece.Knight),
         Move.mk 49 56 (some Piece.Bishop),
         Move.mk 49 56 (some Piece.Rook)] ∨
      (pinnedPawnBoard.legal_moves.filter
        fun mv => mv.start = 49 && mv.dest = 56) = []) ∧
    ∀ mv ∈ pinnedPawnBoard.moves pinnedPawnBoard.to_move,
      mv.start = 49 → mv.dest = 56 → mv.promo ≠ none) :=
  ⟨by decide, by decide, by decide, by decide,
   promo_four_or_none pinnedPawnBoard (by decide) 49 56 (by decide)
     (by decide) (by decide)⟩

/-- A ray walk only reads `piece` along its chain, so boards agreeing
there walk identically (pin oracles are dead under
`ignore_pins = true`). -/
theorem ray_go_agree (b1 b2 : Board) (pin1 pin2 : Square → Bool)
    (start : Square) (us : Side) (dir : Direction) :
    ∀ (fuel : Nat) (cur : Square),
      (∀ t ∈ ray_chain dir fuel cur, b1.piece t = b2.piece t) →
      b1.ray_go pin1 start us dir true fuel cur =
        b2.ray_go pin2 start us dir true fuel cur := by
  intro fuel
  induction fuel with
  | zero => intro cur _; rfl
  | succ f ih =>
    intro cur hag
    rw [Board.ray_go, Board.ray_go]
    cases hn : cur.next_sq dir with
    | none => rfl
    | some nxt =>
      dsimp only
      have hnxt : b1.piece nxt = b2.piece nxt := by
        apply hag
        simp only [ray_chain, hn]
        exact List.mem_cons_self _ _
      rw [hnxt]
      cases hp : b2.piece nxt with
      | none =>
        refine ih nxt (fun t ht => hag t ?_)
        simp only [ray_chain, hn]
        exact List.mem_cons_of_mem _ ht
      | some ps => simp

/-- With `ignore_pins = true` the pin oracle is never consulted, so
`is_attacked` equals the oracle-free attack scan. -/
theorem is_attacked_pin_irrel (b : Board) (sq : Square) (us : Side) :
    b.is_attacked sq us true =
      b.is_attacked_aux (fun _ => false) sq us true := by
  unfold Board.is_attacked
  exact is_attacked_aux_rel us b b (fun t => Or.inl rfl) _ _ sq

theorem ep_capture_step_nonpawn (b : Board) (mv : Move) (p : Piece)
    (side : Side) (hp : p ≠ Piece.Pawn) :
    Board.ep_capture_step b mv p side = b := by
  unfold Board.ep_capture_step
  cases BitBoard.to_square b.enpassant with
  | none => rfl
  | some e =>
    dsimp only
    rw [if_neg (by simp [hp])]

theorem double_push_step_nonpawn (b : Board) (mv : Move) (p : Piece)
    (side : Side) (hp : p ≠ Piece.Pawn) :
    Board.double_push_step b mv p side = b := by
  unfold Board.double_push_step
  rw [if_neg (by simp [hp])]

theorem rights_step_pieces (b : Board) (mv : Move) (p : Piece)
    (side : Side) (q : Piece) :
    (Board.rights_step b mv p side).pieces q = b.pieces q := by
  unfold Board.rights_step Board.remove_kingside_rights
    Board.remove_queenside_rights
  cases side <;> cases q <;> dsimp only <;>
    (split <;> split <;> split <;> rfl)

theorem rights_step_color (b : Board) (mv : Move) (p : Piece)
    (side : Side) (c : Side) :
    (Board.rights_step b mv p side).color_pieces c =
      b.color_pieces c := by
  unfold Board.rights_step Board.remove_kingside_rights
    Board.remove_queenside_rights
  cases side <;> cases c <;> dsimp only <;>
    (split <;> split <;> split <;> rfl)

theorem rights_step_piece_fn (b : Board) (mv : Move) (p : Piece)
    (side : Side) (t : Square) :
    (Board.rights_step b mv p side).piece t = b.piece t := by
  refine Board.piece_congr _ _ t ?_ ?_ fun q => ?_
  · exact congrArg (fun x => BitBoard.get x t)
      (rights_step_color b mv p side Side.White)
  · exact congrArg (fun x => BitBoard.get x t)
      (rights_step_color b mv p side Side.Black)
  · exact congrArg (fun x => BitBoard.get x t)
      (rights_step_pieces b mv p side q)

/-- On a sane board whose `side` king bitboard is exactly the home
square, `piece` there is that king. -/
theorem king_at_home (b : Board) (side : Side)
    (hok : b.placement_ok = true)
    (hking : b.pieces Piece.King &&& b.color_pieces side =
      BitBoard.from_square (kingHome side)) :
    b.piece (kingHome side) = some (Piece.King, side) := by
  have hlt : kingHome side < 64 := by cases side <;> decide
  have h1 := congrArg (fun x : Nat => x.testBit (kingHome side)) hking
  simp only [Nat.testBit_and] at h1
  have hrhs : Nat.testBit (BitBoard.from_square (kingHome side))
      (kingHome side) = true := by
    cases side <;> decide
  rw [hrhs] at h1
  obtain ⟨hkbit, hcbit⟩ := Bool.and_eq_true _ _ |>.mp h1
  obtain ⟨hdisj, _, huniq⟩ := Board.placement_ok_spec b hok _ hlt
  have hfalse : ∀ q, q ≠ Piece.King →
      (b.pieces q).get (kingHome side) = false := by
    intro q hq
    cases h : (b.pieces q).get (kingHome side)
    · rfl
    · exact absurd (huniq q Piece.King h hkbit) hq
  have hcp : b.check_piece (kingHome side) = some Piece.King := by
    unfold Board.check_piece
    have e0 := hfalse Piece.Pawn (by simp)
    have e1 := hfalse Piece.Knight (by simp)
    have e2 := hfalse Piece.Bishop (by simp)
    have e3 := hfalse Piece.Rook (by simp)
    have e4 := hfalse Piece.Queen (by simp)
    have e5 : (b.pieces Piece.King).get (kingHome side) = true := hkbit
    simp [ALL_PIECES, List.find?, e0, e1, e2, e3, e4, e5]
  unfold Board.piece
  cases side with
  | White =>
    have hw : b.white.get (kingHome Side.White) = true := hcbit
    rw [hw, if_pos rfl, hcp]
    rfl
  | Black =>
    have hb : b.black.get (kingHome Side.Black) = true := hcbit
    have hw : b.white.get (kingHome Side.Black) = false := by
      cases h : b.white.get (kingHome Side.Black)
      · rfl
      · exact absurd ⟨h, hb⟩ hdisj
    rw [hw, hb]
    simp [hcp]

theorem is_castling_castle (b : Board) (side : Side) (kingside : Bool)
    (hpk : b.piece (kingHome side) = some (Piece.King, side)) :
    (Move.mk (kingHome side) (castleDest side kingside)
      none).is_castling b = true := by
  unfold Move.is_castling
  simp only [hpk]
  cases side <;> cases kingside <;> decide

theorem is_kingside_castle_castle (b : Board) (side : Side)
    (kingside : Bool)
    (hpk : b.piece (kingHome side) = some (Piece.King, side)) :
    (Move.mk (kingHome side) (castleDest side kingside)
      none).is_kingside_castle b = kingside := by
  unfold Move.is_kingside_castle
  rw [is_castling_castle b side kingside hpk]
  cases side <;> cases kingside <;> decide

theorem castle_rook_step_castle (b : Board) (side : Side)
    (kingside : Bool)
    (hpk : b.piece (kingHome side) = some (Piece.King, side)) :
    Board.castle_rook_step b
        (Move.mk (kingHome side) (castleDest side kingside) none)
        side =
      (b.set_square (rookTransit side kingside) Piece.Rook
        side).clear_square (rookHome side kingside) := by
  have hic := is_castling_castle b side kingside hpk
  have hikc := is_kingside_castle_castle b side kingside hpk
  unfold Board.castle_rook_step
  rw [if_pos hic, hikc]
  cases kingside
  · rw [if_neg (by simp)]
    cases side <;> rfl
  · rw [if_pos rfl]
    cases side <;> rfl

theorem ep_capture_step_king (b : Board) (mv : Move) (side : Side) :
    Board.ep_capture_step b mv Piece.King side = b :=
  ep_capture_step_nonpawn b mv Piece.King side (by decide)

theorem double_push_step_king (b : Board) (mv : Move) (side : Side) :
    Board.double_push_step b mv Piece.King side = b :=
  double_push_step_nonpawn b mv Piece.King side (by decide)

/-- `apply_move_unchecked` on the castling move, decomposed into the
rook relocation, the king relocation and the scalar steps. -/
theorem apply_castle_decomp (b : Board) (side : Side) (kingside : Bool)
    (hpk : b.piece (kingHome side) = some (Piece.King, side))
    (hdest : b.piece (castleDest side kingside) = none) :
    b.apply_move_unchecked
        (Move.mk (kingHome side) (castleDest side kingside) none) =
      ((((((Board.rights_step b
          (Move.mk (kingHome side) (castleDest side kingside) none)
          Piece.King side).set_square (rookTransit side kingside)
          Piece.Rook side).clear_square
          (rookHome side kingside)).clear_square
          (kingHome side)).set_square (castleDest side kingside)
          Piece.King side).adv_ply false).set_enpassant 0 := by
  rw [Board.apply_move_unchecked.eq_def]
  split
  · rename_i heq
    rw [hpk] at heq
    exact absurd heq (by simp)
  · rename_i piece side2 heq
    rw [hpk] at heq
    injection heq with heq2
    injection heq2 with hp2 hs2
    subst hp2
    subst hs2
    have hpk2 : (Board.rights_step b
        (Move.mk (kingHome side) (castleDest side kingside) none)
        Piece.King side).piece (kingHome side) =
        some (Piece.King, side) := by
      rw [rights_step_piece_fn]
      exact hpk
    simp only [castle_rook_step_castle _ side kingside hpk2,
      ep_capture_step_king, double_push_step_king, hdest,
      Option.isSome_none, Bool.or_false]
    simp [Board.place_step]

/-- Squares other than the four castling squares are untouched by the
castling application. -/
theorem castle_applied_piece_other (b : Board) (side : Side)
    (kingside : Bool)
    (hpk : b.piece (kingHome side) = some (Piece.King, side))
    (hdest : b.piece (castleDest side kingside) = none)
    (t : Square) (ht : t < 64)
    (h1 : rookTransit side kingside ≠ t)
    (h2 : rookHome side kingside ≠ t)
    (h3 : kingHome side ≠ t)
    (h4 : castleDest side kingside ≠ t) :
    (b.apply_move_unchecked (Move.mk (kingHome side)
      (castleDest side kingside) none)).piece t = b.piece t := by
  rw [apply_castle_decomp b side kingside hpk hdest]
  rw [show ∀ x : Board, ((x.adv_ply false).set_enpassant 0).piece t =
    x.piece t from fun x => rfl]
  rw [Board.piece_set_other _ _ _ _ _ ht h4,
    Board.piece_clear_other _ _ _ ht h3,
    Board.piece_clear_other _ _ _ ht h2,
    Board.piece_set_other _ _ _ _ _ ht h1,
    rights_step_piece_fn]

theorem castle_applied_piece_transit (b : Board) (side : Side)
    (kingside : Bool)
    (hpk : b.piece (kingHome side) = some (Piece.King, side))
    (hdest : b.piece (castleDest side kingside) = none) :
    (b.apply_move_unchecked (Move.mk (kingHome side)
      (castleDest side kingside) none)).piece
      (rookTransit side kingside) = some (Piece.Rook, side) := by
  rw [apply_castle_decomp b side kingside hpk hdest]
  have htlt : rookTransit side kingside < 64 := by
    cases side <;> cases kingside <;> decide
  rw [show ∀ x : Board, ((x.adv_ply false).set_enpassant 0).piece
      (rookTransit side kingside) = x.piece (rookTransit side kingside)
    from fun x => rfl]
  rw [Board.piece_set_other _ _ _ _ _ htlt
      (by cases side <;> cases kingside <;> decide),
    Board.piece_clear_other _ _ _ htlt
      (by cases side <;> cases kingside <;> decide),
    Board.piece_clear_other _ _ _ htlt
      (by cases side <;> cases kingside <;> decide),
    Board.piece_set_self _ _ _ _ htlt]

theorem castle_applied_piece_rhome (b : Board) (side : Side)
    (kingside : Bool)
    (hpk : b.piece (kingHome side) = some (Piece.King, side))
    (hdest : b.piece (castleDest side kingside) = none) :
    (b.apply_move_unchecked (Move.mk (kingHome side)
      (castleDest side kingside) none)).piece
      (rookHome side kingside) = none := by
  rw [apply_castle_decomp b side kingside hpk hdest]
  have hrlt : rookHome side kingside < 64 := by
    cases side <;> cases kingside <;> decide
  rw [show ∀ x : Board, ((x.adv_ply false).set_enpassant 0).piece
      (rookHome side kingside) = x.piece (rookHome side kingside)
    from fun x => rfl]
  rw [Board.piece_set_other _ _ _ _ _ hrlt
      (by cases side <;> cases kingside <;> decide),
    Board.piece_clear_other _ _ _ hrlt
      (by cases side <;> cases kingside <;> decide),
    Board.piece_clear_self _ _ hrlt]

theorem castle_applied_piece_home (b : Board) (side : Side)
    (kingside : Bool)
    (hpk : b.piece (kingHome side) = some (Piece.King, side))
    (hdest : b.piece (castleDest side kingside) = none) :
    (b.apply_move_unchecked (Move.mk (kingHome side)
      (castleDest side kingside) none)).piece (kingHome side) =
      none := by
  rw [apply_castle_decomp b side kingside hpk hdest]
  have hhlt : kingHome side < 64 := by cases side <;> decide
  rw [show ∀ x : Board, ((x.adv_ply false).set_enpassant 0).piece
      (kingHome side) = x.piece (kingHome side) from fun x => rfl]
  rw [Board.piece_set_other _ _ _ _ _ hhlt
      (by cases side <;> cases kingside <;> decide),
    Board.piece_clear_self _ _ hhlt]

/-- Bit-level core of the king-bitboard computation after castling. -/
theorem castle_bb_core (k w : BitBoard) (transit rhome home dest : Nat)
    (htr : transit < 64) (hrh : rhome < 64) (hh : home < 64)
    (hd : dest < 64) (hne1 : transit ≠ dest) (hne2 : rhome ≠ dest)
    (hne3 : home ≠ dest)
    (hpre : k &&& w = BitBoard.from_square home) :
    ((((k.setFalse transit).setFalse rhome).setFalse
        home).setFalse dest).setTrue dest &&&
      ((((((w.setFalse transit).setTrue transit).setFalse
        rhome).setFalse home).setFalse dest).setTrue dest) =
      BitBoard.from_square dest := by
  apply Nat.eq_of_testBit_eq
  intro t
  have hbit := congrArg (fun x : Nat => Nat.testBit x t) hpre
  simp only [Nat.testBit_and] at hbit
  have hbit2 : (k.get t && w.get t) = decide (home = t) := by
    rw [show decide (home = t) = (BitBoard.from_square home).get t from
      (BitBoard.get_from_square home t).symm]
    exact hbit
  rw [Nat.testBit_and]
  show ((((((k.setFalse transit).setFalse rhome).setFalse
      home).setFalse dest).setTrue dest).get t &&
    (((((((w.setFalse transit).setTrue transit).setFalse
      rhome).setFalse home).setFalse dest).setTrue dest)).get t) =
    (BitBoard.from_square dest).get t
  rw [BitBoard.get_from_square]
  by_cases ht : t < 64
  · have gsf : ∀ (x : BitBoard) (sq : Nat),
        (x.setFalse sq).get t = (x.get t && !(decide (sq = t))) :=
      fun x sq => BitBoard.get_setFalse x sq t ht
    simp only [BitBoard.get_setTrue, gsf]
    by_cases e1 : dest = t
    · simp [e1]
    · simp only [e1, decide_False, Bool.or_false, Bool.not_false,
        Bool.and_true]
      by_cases e2 : transit = t
      · simp [e2]
      · by_cases e3 : rhome = t
        · simp [e3]
        · by_cases e4 : home = t
          · simp [e4]
          · simp only [e2, e3, e4, decide_False, Bool.not_false,
              Bool.and_true, Bool.or_false]
            rw [hbit2]
            simp [e4]
  · have hge := Nat.le_of_not_lt ht
    have g1 : ∀ x : BitBoard, (x.setFalse dest).get t = false :=
      fun x => BitBoard.get_setFalse_high x dest t hd hge
    have e1 : decide (dest = t) = false := by
      simp only [decide_eq_false_iff_not]
      omega
    simp [BitBoard.get_setTrue, g1, e1]

/-- After castling, the side's king bitboard is exactly the
destination square. -/
theorem castle_applied_kingbb (b : Board) (side : Side)
    (kingside : Bool)
    (hpk : b.piece (kingHome side) = some (Piece.King, side))
    (hdest : b.piece (castleDest side kingside) = none)
    (hking : b.pieces Piece.King &&& b.color_pieces side =
      BitBoard.from_square (kingHome side)) :
    (b.apply_move_unchecked (Move.mk (kingHome side)
        (castleDest side kingside) none)).pieces Piece.King &&&
      (b.apply_move_unchecked (Move.mk (kingHome side)
        (castleDest side kingside) none)).color_pieces side =
      BitBoard.from_square (castleDest side kingside) := by
  rw [apply_castle_decomp b side kingside hpk hdest]
  have hrk : (Board.rights_step b
      (Move.mk (kingHome side) (castleDest side kingside) none)
      Piece.King side).pieces Piece.King = b.pieces Piece.King :=
    rights_step_pieces b _ Piece.King side Piece.King
  have hrw : (Board.rights_step b
      (Move.mk (kingHome side) (castleDest side kingside) none)
      Piece.King side).color_pieces side = b.color_pieces side :=
    rights_step_color b _ Piece.King side side
  clear hrk hrw
  cases side <;> cases kingside
  · exact castle_bb_core (b.pieces Piece.King)
      (b.color_pieces Side.White) 3 0 4 2 (by decide) (by decide)
      (by decide) (by decide) (by decide) (by decide) (by decide) hking
  · exact castle_bb_core (b.pieces Piece.King)
      (b.color_pieces Side.White) 5 7 4 6 (by decide) (by decide)
      (by decide) (by decide) (by decide) (by decide) (by decide) hking
  · exact castle_bb_core (b.pieces Piece.King)
      (b.color_pieces Side.Black) 59 56 60 58 (by decide) (by decide)
      (by decide) (by decide) (by decide) (by decide) (by decide) hking
  · exact castle_bb_core (b.pieces Piece.King)
      (b.color_pieces Side.Black) 61 63 60 62 (by decide) (by decide)
      (by decide) (by decide) (by decide) (by decide) (by decide) hking

theorem any_congr {α : Type} (l : List α) (f g : α → Bool)
    (h : ∀ x ∈ l, f x = g x) : l.any f = l.any g := by
  induction l with
  | nil => rfl
  | cons x rest ih =>
    rw [List.any_cons, List.any_cons, h x (List.mem_cons_self x rest),
      ih (fun y hy => h y (List.mem_cons_of_mem x hy))]

/-- One ray step onto a friendly piece: the walk stops, no attack. -/
theorem ray_step_own (b : Board) (pin : Square → Bool) (start : Square)
    (us : Side) (dir : Direction) (fuel : Nat) (cur next : Square)
    (hn : cur.next_sq dir = some next) (p : Piece)
    (hp : b.piece next = some (p, us)) :
    b.ray_go pin start us dir true (fuel + 1) cur = false := by
  rw [Board.ray_go, hn]
  dsimp only
  rw [hp]
  simp

/-- One ray step across an empty square. -/
theorem ray_step_empty (b : Board) (pin : Square → Bool)
    (start : Square) (us : Side) (dir : Direction) (fuel : Nat)
    (cur next : Square) (hn : cur.next_sq dir = some next)
    (hp : b.piece next = none) :
    b.ray_go pin start us dir true (fuel + 1) cur =
      b.ray_go pin start us dir true fuel next := by
  rw [Board.ray_go, hn]
  dsimp only
  rw [hp]

/-- A ray at the board edge yields no attack. -/
theorem ray_step_edge (b : Board) (pin : Square → Bool)
    (start : Square) (us : Side) (dir : Direction) (fuel : Nat)
    (cur : Square) (hn : cur.next_sq dir = none) :
    b.ray_go pin start us dir true (fuel + 1) cur = false := by
  rw [Board.ray_go, hn]

/-- Geometric safety, White kingside: if e1, f1 and g1 are unattacked
before castling, g1 is unattacked after (the walls: f1 now holds our
rook, h1 is empty to the edge, every other attack line to g1 is
unchanged). -/
theorem castle_safe_wk (b applied : Board)
    (hout : ∀ t : Square, t < 64 → t ∉ ([4, 5, 6, 7] : List Square) →
      applied.piece t = b.piece t)
    (h5 : applied.piece 5 = some (Piece.Rook, Side.White))
    (h7 : applied.piece 7 = none)
    (hpre : b.is_attacked_aux (fun _ => false) 6 Side.White true =
      false) :
    applied.is_attacked_aux (fun _ => false) 6 Side.White true =
      false := by
  have hagree : ∀ (dir : Direction),
      (∀ x ∈ ray_chain dir 8 (6 : Square), x < 64 ∧
        x ∉ ([4, 5, 6, 7] : List Square)) →
      applied.check_attacking_ray_aux (fun _ => false) 6 Side.White
          dir true =
        b.check_attacking_ray_aux (fun _ => false) 6 Side.White
          dir true := by
    intro dir hch
    unfold Board.check_attacking_ray_aux
    exact ray_go_agree applied b _ _ 6 Side.White dir 8 6
      (fun t ht => hout t (hch t ht).1 (hch t ht).2)
  unfold Board.is_attacked_aux at hpre ⊢
  rcases Bool.or_eq_false_iff.mp hpre with ⟨hpre12, hpreP⟩
  rcases Bool.or_eq_false_iff.mp hpre12 with ⟨hpre1, hpre2⟩
  rcases Bool.or_eq_false_iff.mp hpreP with ⟨hp1, hp2⟩
  rw [List.any_eq_false] at hpre1
  refine Bool.or_eq_false_iff.mpr ⟨Bool.or_eq_false_iff.mpr
    ⟨?_, ?_⟩, ?_⟩
  · -- sliding rays
    rw [List.any_eq_false]
    intro dir hdir
    rw [Bool.not_eq_true]
    cases dir
    case Up =>
      rw [hagree Direction.Up (by decide)]
      exact Bool.eq_false_iff.mpr (hpre1 Direction.Up (by decide))
    case UpRight =>
      rw [hagree Direction.UpRight (by decide)]
      exact Bool.eq_false_iff.mpr (hpre1 Direction.UpRight (by decide))
    case Right =>
      unfold Board.check_attacking_ray_aux
      exact Eq.trans
        (ray_step_empty applied _ 6 Side.White Direction.Right 7 6 7
          rfl h7)
        (ray_step_edge applied _ 6 Side.White Direction.Right 6 7 rfl)
    case DownRight =>
      rw [hagree Direction.DownRight (by decide)]
      exact Bool.eq_false_iff.mpr
        (hpre1 Direction.DownRight (by decide))
    case Down =>
      rw [hagree Direction.Down (by decide)]
      exact Bool.eq_false_iff.mpr (hpre1 Direction.Down (by decide))
    case DownLeft =>
      rw [hagree Direction.DownLeft (by decide)]
      exact Bool.eq_false_iff.mpr (hpre1 Direction.DownLeft (by decide))
    case Left =>
      unfold Board.check_attacking_ray_aux
      exact ray_step_own applied _ 6 Side.White Direction.Left 7 6 5
        rfl Piece.Rook h5
    case UpLeft =>
      rw [hagree Direction.UpLeft (by decide)]
      exact Bool.eq_false_iff.mpr (hpre1 Direction.UpLeft (by decide))
  · -- knights: every source square is untouched
    refine Eq.trans (any_congr _ _ _ ?_) hpre2
    intro dir _
    cases dir
    case Up =>
      dsimp only
      rw [show (6 : Square).next_sq_knight Direction.Up = some 23 from
        rfl]
      dsimp only
      rw [hout 23 (by decide) (by decide)]
    case Left =>
      dsimp only
      rw [show (6 : Square).next_sq_knight Direction.Left = some 12
        from rfl]
      dsimp only
      rw [hout 12 (by decide) (by decide)]
    case UpLeft =>
      dsimp only
      rw [show (6 : Square).next_sq_knight Direction.UpLeft = some 21
        from rfl]
      dsimp only
      rw [hout 21 (by decide) (by decide)]
    all_goals rfl
  · -- pawns: both source squares are untouched
    show ((match applied.piece 13 with
        | some (p, sd) =>
          p = Piece.Pawn && decide (sd ≠ Side.White) &&
            (true || !(false : Bool))
        | none => false) ||
      (match applied.piece 15 with
        | some (p, sd) =>
          p = Piece.Pawn && decide (sd ≠ Side.White) &&
            (true || !(false : Bool))
        | none => false)) = false
    rw [hout 13 (by decide) (by decide), hout 15 (by decide)
      (by decide)]
    exact Bool.or_eq_false_iff.mpr ⟨hp1, hp2⟩

/-- Geometric safety, White queenside: if e1, d1 and c1 are unattacked
before castling, c1 is unattacked after. -/
theorem castle_safe_wq (b applied : Board)
    (hout : ∀ t : Square, t < 64 → t ∉ ([0, 2, 3, 4] : List Square) →
      applied.piece t = b.piece t)
    (h3 : applied.piece 3 = some (Piece.Rook, Side.White))
    (h0 : applied.piece 0 = none)
    (hb1 : b.piece 1 = none)
    (hpre : b.is_attacked_aux (fun _ => false) 2 Side.White true =
      false) :
    applied.is_attacked_aux (fun _ => false) 2 Side.White true =
      false := by
  have hagree : ∀ (dir : Direction),
      (∀ x ∈ ray_chain dir 8 (2 : Square), x < 64 ∧
        x ∉ ([0, 2, 3, 4] : List Square)) →
      applied.check_attacking_ray_aux (fun _ => false) 2 Side.White
          dir true =
        b.check_attacking_ray_aux (fun _ => false) 2 Side.White
          dir true := by
    intro dir hch
    unfold Board.check_attacking_ray_aux
    exact ray_go_agree applied b _ _ 2 Side.White dir 8 2
      (fun t ht => hout t (hch t ht).1 (hch t ht).2)
  unfold Board.is_attacked_aux at hpre ⊢
  rcases Bool.or_eq_false_iff.mp hpre with ⟨hpre12, hpreP⟩
  rcases Bool.or_eq_false_iff.mp hpre12 with ⟨hpre1, hpre2⟩
  rcases Bool.or_eq_false_iff.mp hpreP with ⟨hp1, hp2⟩
  rw [List.any_eq_false] at hpre1
  refine Bool.or_eq_false_iff.mpr ⟨Bool.or_eq_false_iff.mpr
    ⟨?_, ?_⟩, ?_⟩
  · rw [List.any_eq_false]
    intro dir hdir
    rw [Bool.not_eq_true]
    cases dir
    case Up =>
      rw [hagree Direction.Up (by decide)]
      exact Bool.eq_false_iff.mpr (hpre1 Direction.Up (by decide))
    case UpRight =>
      rw [hagree Direction.UpRight (by decide)]
      exact Bool.eq_false_iff.mpr (hpre1 Direction.UpRight (by decide))
    case Right =>
      unfold Board.check_attacking_ray_aux
      exact ray_step_own applied _ 2 Side.White Direction.Right 7 2 3
        rfl Piece.Rook h3
    case DownRight =>
      rw [hagree Direction.DownRight (by decide)]
      exact Bool.eq_false_iff.mpr
        (hpre1 Direction.DownRight (by decide))
    case Down =>
      rw [hagree Direction.Down (by decide)]
      exact Bool.eq_false_iff.mpr (hpre1 Direction.Down (by decide))
    case DownLeft =>
      rw [hagree Direction.DownLeft (by decide)]
      exact Bool.eq_false_iff.mpr (hpre1 Direction.DownLeft (by decide))
    case Left =>
      unfold Board.check_attacking_ray_aux
      have happ1 : applied.piece 1 = none := by
        rw [hout 1 (by decide) (by decide)]
        exact hb1
      exact (ray_step_empty applied _ 2 Side.White Direction.Left 7 2
          1 rfl happ1).trans
        ((ray_step_empty applied _ 2 Side.White Direction.Left 6 1 0
          rfl h0).trans
          (ray_step_edge applied _ 2 Side.White Direction.Left 5 0
            rfl))
    case UpLeft =>
      rw [hagree Direction.UpLeft (by decide)]
      exact Bool.eq_false_iff.mpr (hpre1 Direction.UpLeft (by decide))
  · refine Eq.trans (any_congr _ _ _ ?_) hpre2
    intro dir _
    cases dir
    case Up =>
      dsimp only
      rw [show (2 : Square).next_sq_knight Direction.Up = some 19 from
        rfl]
      dsimp only
      rw [hout 19 (by decide) (by decide)]
    case UpRight =>
      dsimp only
      rw [show (2 : Square).next_sq_knight Direction.UpRight = some 12
        from rfl]
      dsimp only
      rw [hout 12 (by decide) (by decide)]
    case Left =>
      dsimp only
      rw [show (2 : Square).next_sq_knight Direction.Left = some 8
        from rfl]
      dsimp only
      rw [hout 8 (by decide) (by decide)]
    case UpLeft =>
      dsimp only
      rw [show (2 : Square).next_sq_knight Direction.UpLeft = some 17
        from rfl]
      dsimp only
      rw [hout 17 (by decide) (by decide)]
    all_goals rfl
  · show ((match applied.piece 9 with
        | some (p, sd) =>
          p = Piece.Pawn && decide (sd ≠ Side.White) &&
            (true || !(false : Bool))
        | none => false) ||
      (match applied.piece 11 with
        | some (p, sd) =>
          p = Piece.Pawn && decide (sd ≠ Side.White) &&
            (true || !(false : Bool))
        | none => false)) = false
    rw [hout 9 (by decide) (by decide), hout 11 (by decide)
      (by decide)]
    exact Bool.or_eq_false_iff.mpr ⟨hp1, hp2⟩

/-- Geometric safety, Black kingside: if e8, f8 and g8 are unattacked
before castling, g8 is unattacked after. -/
theorem castle_safe_bk (b applied : Board)
    (hout : ∀ t : Square, t < 64 →
      t ∉ ([60, 61, 62, 63] : List Square) →
      applied.piece t = b.piece t)
    (h61 : applied.piece 61 = some (Piece.Rook, Side.Black))
    (h63 : applied.piece 63 = none)
    (hpre : b.is_attacked_aux (fun _ => false) 62 Side.Black true =
      false) :
    applied.is_attacked_aux (fun _ => false) 62 Side.Black true =
      false := by
  have hagree : ∀ (dir : Direction),
      (∀ x ∈ ray_chain dir 8 (62 : Square), x < 64 ∧
        x ∉ ([60, 61, 62, 63] : List Square)) →
      applied.check_attacking_ray_aux (fun _ => false) 62 Side.Black
          dir true =
        b.check_attacking_ray_aux (fun _ => false) 62 Side.Black
          dir true := by
    intro dir hch
    unfold Board.check_attacking_ray_aux
    exact ray_go_agree applied b _ _ 62 Side.Black dir 8 62
      (fun t ht => hout t (hch t ht).1 (hch t ht).2)
  unfold Board.is_attacked_aux at hpre ⊢
  rcases Bool.or_eq_false_iff.mp hpre with ⟨hpre12, hpreP⟩
  rcases Bool.or_eq_false_iff.mp hpre12 with ⟨hpre1, hpre2⟩
  rcases Bool.or_eq_false_iff.mp hpreP with ⟨hp1, hp2⟩
  rw [List.any_eq_false] at hpre1
  refine Bool.or_eq_false_iff.mpr ⟨Bool.or_eq_false_iff.mpr
    ⟨?_, ?_⟩, ?_⟩
  · rw [List.any_eq_false]
    intro dir hdir
    rw [Bool.not_eq_true]
    cases dir
    case Up =>
      rw [hagree Direction.Up (by decide)]
      exact Bool.eq_false_iff.mpr (hpre1 Direction.Up (by decide))
    case UpRight =>
      rw [hagree Direction.UpRight (by decide)]
      exact Bool.eq_false_iff.mpr (hpre1 Direction.UpRight (by decide))
    case Right =>
      unfold Board.check_attacking_ray_aux
      exact (ray_step_empty applied _ 62 Side.Black Direction.Right 7
          62 63 rfl h63).trans
        (ray_step_edge applied _ 62 Side.Black Direction.Right 6 63
          rfl)
    case DownRight =>
      rw [hagree Direction.DownRight (by decide)]
      exact Bool.eq_false_iff.mpr
        (hpre1 Direction.DownRight (by decide))
    case Down =>
      rw [hagree Direction.Down (by decide)]
      exact Bool.eq_false_iff.mpr (hpre1 Direction.Down (by decide))
    case DownLeft =>
      rw [hagree Direction.DownLeft (by decide)]
      exact Bool.eq_false_iff.mpr (hpre1 Direction.DownLeft (by decide))
    case Left =>
      unfold Board.check_attacking_ray_aux
      exact ray_step_own applied _ 62 Side.Black Direction.Left 7 62
        61 rfl Piece.Rook h61
    case UpLeft =>
      rw [hagree Direction.UpLeft (by decide)]
      exact Bool.eq_false_iff.mpr (hpre1 Direction.UpLeft (by decide))
  · refine Eq.trans (any_congr _ _ _ ?_) hpre2
    intro dir _
    cases dir
    case DownRight =>
      dsimp only
      rw [show (62 : Square).next_sq_knight Direction.DownRight =
        some 47 from rfl]
      dsimp only
      rw [hout 47 (by decide) (by decide)]
    case Down =>
      dsimp only
      rw [show (62 : Square).next_sq_knight Direction.Down = some 45
        from rfl]
      dsimp only
      rw [hout 45 (by decide) (by decide)]
    case DownLeft =>
      dsimp only
      rw [show (62 : Square).next_sq_knight Direction.DownLeft =
        some 52 from rfl]
      dsimp only
      rw [hout 52 (by decide) (by decide)]
    all_goals rfl
  · show ((match applied.piece 53 with
        | some (p, sd) =>
          p = Piece.Pawn && decide (sd ≠ Side.Black) &&
            (true || !(false : Bool))
        | none => false) ||
      (match applied.piece 55 with
        | some (p, sd) =>
          p = Piece.Pawn && decide (sd ≠ Side.Black) &&
            (true || !(false : Bool))
        | none => false)) = false
    rw [hout 53 (by decide) (by decide), hout 55 (by decide)
      (by decide)]
    exact Bool.or_eq_false_iff.mpr ⟨hp1, hp2⟩

/-- Geometric safety, Black queenside: if e8, d8 and c8 are unattacked
before castling, c8 is unattacked after. -/
theorem castle_safe_bq (b applied : Board)
    (hout : ∀ t : Square, t < 64 →
      t ∉ ([56, 58, 59, 60] : List Square) →
      applied.piece t = b.piece t)
    (h59 : applied.piece 59 = some (Piece.Rook, Side.Black))
    (h56 : applied.piece 56 = none)
    (hb57 : b.piece 57 = none)
    (hpre : b.is_attacked_aux (fun _ => false) 58 Side.Black true =
      false) :
    applied.is_attacked_aux (fun _ => false) 58 Side.Black true =
      false := by
  have hagree : ∀ (dir : Direction),
      (∀ x ∈ ray_chain dir 8 (58 : Square), x < 64 ∧
        x ∉ ([56, 58, 59, 60] : List Square)) →
      applied.check_attacking_ray_aux (fun _ => false) 58 Side.Black
          dir true =
        b.check_attacking_ray_aux (fun _ => false) 58 Side.Black
          dir true := by
    intro dir hch
    unfold Board.check_attacking_ray_aux
    exact ray_go_agree applied b _ _ 58 Side.Black dir 8 58
      (fun t ht => hout t (hch t ht).1 (hch t ht).2)
  unfold Board.is_attacked_aux at hpre ⊢
  rcases Bool.or_eq_false_iff.mp hpre with ⟨hpre12, hpreP⟩
  rcases Bool.or_eq_false_iff.mp hpre12 with ⟨hpre1, hpre2⟩
  rcases Bool.or_eq_false_iff.mp hpreP with ⟨hp1, hp2⟩
  rw [List.any_eq_false] at hpre1
  refine Bool.or_eq_false_iff.mpr ⟨Bool.or_eq_false_iff.mpr
    ⟨?_, ?_⟩, ?_⟩
  · rw [List.any_eq_false]
    intro dir hdir
    rw [Bool.not_eq_true]
    cases dir
    case Up =>
      rw [hagree Direction.Up (by decide)]
      exact Bool.eq_false_iff.mpr (hpre1 Direction.Up (by decide))
    case UpRight =>
      rw [hagree Direction.UpRight (by decide)]
      exact Bool.eq_false_iff.mpr (hpre1 Direction.UpRight (by decide))
    case Right =>
      unfold Board.check_attacking_ray_aux
      exact ray_step_own applied _ 58 Side.Black Direction.Right 7 58
        59 rfl Piece.Rook h59
    case DownRight =>
      rw [hagree Direction.DownRight (by decide)]
      exact Bool.eq_false_iff.mpr
        (hpre1 Direction.DownRight (by decide))
    case Down =>
      rw [hagree Direction.Down (by decide)]
      exact Bool.eq_false_iff.mpr (hpre1 Direction.Down (by decide))
    case DownLeft =>
      rw [hagree Direction.DownLeft (by decide)]
      exact Bool.eq_false_iff.mpr (hpre1 Direction.DownLeft (by decide))
    case Left =>
      unfold Board.check_attacking_ray_aux
      have happ57 : applied.piece 57 = none := by
        rw [hout 57 (by decide) (by decide)]
        exact hb57
      exact (ray_step_empty applied _ 58 Side.Black Direction.Left 7
          58 57 rfl happ57).trans
        ((ray_step_empty applied _ 58 Side.Black Direction.Left 6 57
          56 rfl h56).trans
          (ray_step_edge applied _ 58 Side.Black Direction.Left 5 56
            rfl))
    case UpLeft =>
      rw [hagree Direction.UpLeft (by decide)]
      exact Bool.eq_false_iff.mpr (hpre1 Direction.UpLeft (by decide))
  · refine Eq.trans (any_congr _ _ _ ?_) hpre2
    intro dir _
    cases dir
    case Right =>
      dsimp only
      rw [show (58 : Square).next_sq_knight Direction.Right = some 52
        from rfl]
      dsimp only
      rw [hout 52 (by decide) (by decide)]
    case DownRight =>
      dsimp only
      rw [show (58 : Square).next_sq_knight Direction.DownRight =
        some 43 from rfl]
      dsimp only
      rw [hout 43 (by decide) (by decide)]
    case Down =>
      dsimp only
      rw [show (58 : Square).next_sq_knight Direction.Down = some 41
        from rfl]
      dsimp only
      rw [hout 41 (by decide) (by decide)]
    case DownLeft =>
      dsimp only
      rw [show (58 : Square).next_sq_knight Direction.DownLeft =
        some 48 from rfl]
      dsimp only
      rw [hout 48 (by decide) (by decide)]
    all_goals rfl
  · show ((match applied.piece 49 with
        | some (p, sd) =>
          p = Piece.Pawn && decide (sd ≠ Side.Black) &&
            (true || !(false : Bool))
        | none => false) ||
      (match applied.piece 51 with
        | some (p, sd) =>
          p = Piece.Pawn && decide (sd ≠ Side.Black) &&
            (true || !(false : Bool))
        | none => false)) = false
    rw [hout 49 (by decide) (by decide), hout 51 (by decide)
      (by decide)]
    exact Bool.or_eq_false_iff.mpr ⟨hp1, hp2⟩

/-- After a castling move whose path was empty and whose destination
was unattacked, the king is not in check. -/
theorem castle_applied_not_check (b : Board) (side : Side)
    (kingside : Bool) (hok : b.placement_ok = true)
    (hking : b.pieces Piece.King &&& b.color_pieces side =
      BitBoard.from_square (kingHome side))
    (hpath : (castlePath side kingside).all
      (fun t => !(b.piece t).isSome) = true)
    (hdestAtt : b.is_attacked (castleDest side kingside) side true =
      false) :
    (b.apply_move_unchecked (Move.mk (kingHome side)
      (castleDest side kingside) none)).is_in_check side = false := by
  have hpk := king_at_home b side hok hking
  have hpathN : ∀ t ∈ castlePath side kingside, b.piece t = none := by
    intro t htm
    have h := (List.all_eq_true.mp hpath) t htm
    cases hp : b.piece t
    · rfl
    · rw [hp] at h
      simp at h
  have hdest : b.piece (castleDest side kingside) = none :=
    hpathN _ (by cases side <;> cases kingside <;> decide)
  unfold Board.is_in_check
  rw [castle_applied_kingbb b side kingside hpk hdest hking]
  rw [show BitBoard.to_square
      (BitBoard.from_square (castleDest side kingside)) =
      some (castleDest side kingside) from by
    cases side <;> cases kingside <;> decide]
  have hpre : b.is_attacked_aux (fun _ => false)
      (castleDest side kingside) side true = false := by
    rw [← is_attacked_pin_irrel]
    exact hdestAtt
  have htrans := castle_applied_piece_transit b side kingside hpk hdest
  have hrhome := castle_applied_piece_rhome b side kingside hpk hdest
  cases side <;> cases kingside
  · -- White queenside
    refine castle_safe_wq b _ ?_ htrans hrhome
      (hpathN 1 (by decide)) hpre
    intro t ht hmem
    simp only [List.mem_cons, List.not_mem_nil, or_false,
      not_or] at hmem
    obtain ⟨m0, m2, m3, m4⟩ := hmem
    exact castle_applied_piece_other b Side.White false hpk hdest t ht
      (fun h => m3 h.symm) (fun h => m0 h.symm) (fun h => m4 h.symm)
      (fun h => m2 h.symm)
  · -- White kingside
    refine castle_safe_wk b _ ?_ htrans hrhome hpre
    intro t ht hmem
    simp only [List.mem_cons, List.not_mem_nil, or_false,
      not_or] at hmem
    obtain ⟨m4, m5, m6, m7⟩ := hmem
    exact castle_applied_piece_other b Side.White true hpk hdest t ht
      (fun h => m5 h.symm) (fun h => m7 h.symm) (fun h => m4 h.symm)
      (fun h => m6 h.symm)
  · -- Black queenside
    refine castle_safe_bq b _ ?_ htrans hrhome
      (hpathN 57 (by decide)) hpre
    intro t ht hmem
    simp only [List.mem_cons, List.not_mem_nil, or_false,
      not_or] at hmem
    obtain ⟨m56, m58, m59, m60⟩ := hmem
    exact castle_applied_piece_other b Side.Black false hpk hdest t ht
      (fun h => m59 h.symm) (fun h => m56 h.symm) (fun h => m60 h.symm)
      (fun h => m58 h.symm)
  · -- Black kingside
    refine castle_safe_bk b _ ?_ htrans hrhome hpre
    intro t ht hmem
    simp only [List.mem_cons, List.not_mem_nil, or_false,
      not_or] at hmem
    obtain ⟨m60, m61, m62, m63⟩ := hmem
    exact castle_applied_piece_other b Side.Black true hpk hdest t ht
      (fun h => m61 h.symm) (fun h => m63 h.symm) (fun h => m60 h.symm)
      (fun h => m62 h.symm)

/-- Membership of the castling move in `castle_moves`: exactly the
right plus the room check. -/
theorem mem_castle_moves_iff (b : Board) (side : Side)
    (kingside : Bool)
    (hking : b.pieces Piece.King &&& b.color_pieces side =
      BitBoard.from_square (kingHome side)) :
    (Move.mk (kingHome side) (castleDest side kingside) none ∈
        b.castle_moves side) ↔
      ((if kingside then CastleRights.kingside (b.castle_rights side)
        else CastleRights.queenside (b.castle_rights side)) &&
       b.check_castle_has_room side kingside) = true := by
  unfold Board.castle_moves
  rw [hking]
  rw [show BitBoard.to_square (BitBoard.from_square (kingHome side)) =
      some (kingHome side) from by cases side <;> decide]
  dsimp only
  by_cases hc1 : (CastleRights.kingside (b.castle_rights side) &&
      b.check_castle_has_room side true) = true <;>
  by_cases hc2 : (CastleRights.queenside (b.castle_rights side) &&
      b.check_castle_has_room side false) = true <;>
  cases side <;> cases kingside <;>
    simp [hc1, hc2, kingHome, castleDest, Square.from_rank_and_file,
      Square.rank, FileV.C, FileV.G, Move.mk.injEq]

/-- The code's castle room check is the claim's path-emptiness. -/
theorem room_eq_path (b : Board) (side : Side) (kingside : Bool) :
    b.check_castle_has_room side kingside =
      (castlePath side kingside).all (fun t => !(b.piece t).isSome) := by
  cases side <;> cases kingside <;>
    simp [Board.check_castle_has_room, castlePath,
      Square.from_rank_and_file, FileV.B, FileV.C, FileV.D, FileV.F,
      FileV.G, List.all_cons, Bool.not_or, Bool.and_assoc]

/-- The king's one-step move bitboard never contains the castling
destination (it is two files away). -/
theorem king_moves_no_castle (side : Side) (kingside : Bool)
    (e a o : BitBoard) :
    castleDest side kingside ∉ BitBoard.toList
      (get_piece_moves Piece.King side (kingHome side) e a o) := by
  intro h
  rw [BitBoard.mem_toList] at h
  have h2 : Nat.testBit (PieceMoves.build_king_moves (kingHome side) 0
      &&& BitBoard.compl64 o) (castleDest side kingside) = true := h.2
  rw [Nat.testBit_and] at h2
  have h3 := (Bool.and_eq_true _ _ |>.mp h2).1
  revert h3
  cases side <;> cases kingside <;> decide

/-- C4 (corrected: the code checks only that the rook's home corner
holds no wrong piece — an empty corner passes, see the counterexample
— and the claim is scoped to positions with the side's king on its
home square, the configuration in which the generated move is the
castling move): for every sane such position with that side to move,
the castling move is in `legal_moves` iff the right is held, the
rook's home corner holds nothing other than the side's own rook, the
path between king and rook is empty, and none of the king's start,
transit and destination squares are attacked. -/
theorem castle_move_iff (b : Board) (side : Side) (kingside : Bool)
    (hok : b.placement_ok = true) (hturn : b.to_move = side)
    (hking : b.pieces Piece.King &&& b.color_pieces side =
      BitBoard.from_square (kingHome side)) :
    (Move.mk (kingHome side) (castleDest side kingside) none ∈
        b.legal_moves) ↔ castle_claim_ok b side kingside = true := by
  have hpk := king_at_home b side hok hking
  have happ : b.apply_move (Move.mk (kingHome side)
      (castleDest side kingside) none) =
      some (b.apply_move_unchecked (Move.mk (kingHome side)
        (castleDest side kingside) none)) := by
    simp [Board.apply_move, Board.move_structural, hpk]
  have hcm := mem_castle_moves_iff b side kingside hking
  unfold Board.legal_moves
  rw [hturn, List.mem_filter]
  cases side <;> cases kingside
  · -- White queenside
    constructor
    · rintro ⟨hmem, hleg⟩
      unfold Board.moves at hmem
      have hcr : ((if false then CastleRights.kingside
          (b.castle_rights Side.White) else CastleRights.queenside
          (b.castle_rights Side.White)) &&
          b.check_castle_has_room Side.White false) = true := by
        rcases List.mem_append.mp hmem with hm | hm
        · exfalso
          rw [List.mem_flatMap] at hm
          obtain ⟨x, hx, hmv⟩ := hm
          obtain ⟨pc, sd, hpx, hst, hdl, _⟩ := mem_msq_imp b x _ hmv
          have hx2 : x = kingHome Side.White := hst.symm
          subst hx2
          rw [hpk] at hpx
          injection hpx with heq2
          have hpc : Piece.King = pc := congrArg Prod.fst heq2
          have hsd : Side.White = sd := congrArg Prod.snd heq2
          subst hpc
          subst hsd
          exact king_moves_no_castle Side.White false _ _ _ hdl
        · exact hcm.mp hm
      obtain ⟨hright, hroom⟩ := Bool.and_eq_true _ _ |>.mp hcr
      unfold Board.move_legal at hleg
      simp only [hpk] at hleg
      rw [if_neg (by simp)] at hleg
      simp only [happ] at hleg
      rw [is_castling_castle b Side.White false hpk,
        is_kingside_castle_castle b Side.White false hpk] at hleg
      by_cases hchk : (b.apply_move_unchecked (Move.mk
          (kingHome Side.White) (castleDest Side.White false)
          none)).is_in_check Side.White = true
      · rw [if_pos hchk] at hleg
        simp at hleg
      · rw [if_neg hchk, if_pos rfl, if_neg (by simp)] at hleg
        split at hleg
        · simp at hleg
        · split at hleg
          · simp at hleg
          · rename_i hbad
            split at hleg
            · simp at hleg
            · rename_i hE
              split at hleg
              · simp at hleg
              · rename_i hT
                split at hleg
                · simp at hleg
                · rename_i hD
                  have hOk : (match b.piece
                      (rookHome Side.White false) with
                    | some (r, s) => decide (r = Piece.Rook) &&
                        decide (s = Side.White)
                    | none => true) = true := by
                    cases hp : b.piece (rookHome Side.White false) with
                    | none => rfl
                    | some ps =>
                      obtain ⟨r, s⟩ := ps
                      have hp2 : b.piece (Square.from_rank_and_file
                        (1 : Rank) FileV.A) = some (r, s) := hp
                      rw [hp2] at hbad
                      simp at hbad
                      simp [hbad.1, hbad.2]
                  have hattE : b.is_attacked (kingHome Side.White) Side.White
                      true = false := Bool.eq_false_iff.mpr hE
                  have hattT : b.is_attacked
                      (rookTransit Side.White false) Side.White true =
                      false := Bool.eq_false_iff.mpr hT
                  have hattD : b.is_attacked
                      (castleDest Side.White false) Side.White true =
                      false := Bool.eq_false_iff.mpr hD
                  unfold castle_claim_ok
                  refine Bool.and_eq_true _ _ |>.mpr
                    ⟨Bool.and_eq_true _ _ |>.mpr
                      ⟨Bool.and_eq_true _ _ |>.mpr
                        ⟨Bool.and_eq_true _ _ |>.mpr
                          ⟨Bool.and_eq_true _ _ |>.mpr
                            ⟨hright, hOk⟩, ?_⟩,
                          by simp [hattE]⟩,
                        by simp [hattT]⟩,
                      by simp [hattD]⟩
                  rw [← room_eq_path b Side.White false]
                  exact hroom
    · intro hclaim
      unfold castle_claim_ok at hclaim
      obtain ⟨h12345, h6⟩ := Bool.and_eq_true _ _ |>.mp hclaim
      obtain ⟨h1234, h5⟩ := Bool.and_eq_true _ _ |>.mp h12345
      obtain ⟨h123, h4⟩ := Bool.and_eq_true _ _ |>.mp h1234
      obtain ⟨h12, h3⟩ := Bool.and_eq_true _ _ |>.mp h123
      obtain ⟨h1, h2⟩ := Bool.and_eq_true _ _ |>.mp h12
      have hright : CastleRights.queenside (b.castle_rights Side.White) = true := h1
      have hroom : b.check_castle_has_room Side.White false = true := by
        rw [room_eq_path b Side.White false]
        exact h3
      have hattE : b.is_attacked (Square.from_rank_and_file (1 : Rank)
          FileV.E) Side.White true = false := by
        have h4b := h4
        rw [Bool.not_eq_true'] at h4b
        exact h4b
      have hattT : b.is_attacked (Square.from_rank_and_file (1 : Rank)
          FileV.D) Side.White true = false := by
        have h5b := h5
        rw [Bool.not_eq_true'] at h5b
        exact h5b
      have hattD : b.is_attacked (Square.from_rank_and_file (1 : Rank)
          FileV.C) Side.White true = false := by
        have h6b := h6
        rw [Bool.not_eq_true'] at h6b
        exact h6b
      have hchk : (b.apply_move_unchecked (Move.mk (kingHome Side.White)
          (castleDest Side.White false) none)).is_in_check Side.White =
          false :=
        castle_applied_not_check b Side.White false hok hking h3
          (by have h6b := h6
              rw [Bool.not_eq_true'] at h6b
              exact h6b)
      refine ⟨?_, ?_⟩
      · unfold Board.moves
        refine List.mem_append.mpr (Or.inr (hcm.mpr ?_))
        exact Bool.and_eq_true _ _ |>.mpr ⟨h1, hroom⟩
      · unfold Board.move_legal
        simp only [hpk]
        rw [if_neg (by simp)]
        simp only [happ]
        rw [is_castling_castle b Side.White false hpk,
          is_kingside_castle_castle b Side.White false hpk]
        have h2f : (match b.piece (Square.from_rank_and_file (1 : Rank)
            FileV.A) with
          | some (r, s) => decide (r = Piece.Rook) &&
              decide (s = Side.White)
          | none => true) = true := h2
        cases hp : b.piece (Square.from_rank_and_file (1 : Rank) FileV.A) with
        | none =>
          simp [hchk, hright, hattE, hattT, hattD]
        | some ps =>
          obtain ⟨r, s⟩ := ps
          rw [hp] at h2f
          simp only [Bool.and_eq_true, decide_eq_true_eq] at h2f
          obtain ⟨hr, hs⟩ := h2f
          subst hr
          subst hs
          simp [hchk, hright, hattE, hattT, hattD]
  · -- White kingside
    constructor
    · rintro ⟨hmem, hleg⟩
      unfold Board.moves at hmem
      have hcr : ((if true then CastleRights.kingside
          (b.castle_rights Side.White) else CastleRights.queenside
          (b.castle_rights Side.White)) &&
          b.check_castle_has_room Side.White true) = true := by
        rcases List.mem_append.mp hmem with hm | hm
        · exfalso
          rw [List.mem_flatMap] at hm
          obtain ⟨x, hx, hmv⟩ := hm
          obtain ⟨pc, sd, hpx, hst, hdl, _⟩ := mem_msq_imp b x _ hmv
          have hx2 : x = kingHome Side.White := hst.symm
          subst hx2
          rw [hpk] at hpx
          injection hpx with heq2
          have hpc : Piece.King = pc := congrArg Prod.fst heq2
          have hsd : Side.White = sd := congrArg Prod.snd heq2
          subst hpc
          subst hsd
          exact king_moves_no_castle Side.White true _ _ _ hdl
        · exact hcm.mp hm
      obtain ⟨hright, hroom⟩ := Bool.and_eq_true _ _ |>.mp hcr
      unfold Board.move_legal at hleg
      simp only [hpk] at hleg
      rw [if_neg (by simp)] at hleg
      simp only [happ] at hleg
      rw [is_castling_castle b Side.White true hpk,
        is_kingside_castle_castle b Side.White true hpk] at hleg
      by_cases hchk : (b.apply_move_unchecked (Move.mk
          (kingHome Side.White) (castleDest Side.White true)
          none)).is_in_check Side.White = true
      · rw [if_pos hchk] at hleg
        simp at hleg
      · rw [if_neg hchk, if_pos rfl, if_pos rfl] at hleg
        split at hleg
        · simp at hleg
        · split at hleg
          · simp at hleg
          · rename_i hbad
            split at hleg
            · simp at hleg
            · rename_i hE
              split at hleg
              · simp at hleg
              · rename_i hT
                split at hleg
                · simp at hleg
                · rename_i hD
                  have hOk : (match b.piece
                      (rookHome Side.White true) with
                    | some (r, s) => decide (r = Piece.Rook) &&
                        decide (s = Side.White)
                    | none => true) = true := by
                    cases hp : b.piece (rookHome Side.White true) with
                    | none => rfl
                    | some ps =>
                      obtain ⟨r, s⟩ := ps
                      have hp2 : b.piece (Square.from_rank_and_file
                        (1 : Rank) FileV.H) = some (r, s) := hp
                      rw [hp2] at hbad
                      simp at hbad
                      simp [hbad.1, hbad.2]
                  have hattE : b.is_attacked (kingHome Side.White) Side.White
                      true = false := Bool.eq_false_iff.mpr hE
                  have hattT : b.is_attacked
                      (rookTransit Side.White true) Side.White true =
                      false := Bool.eq_false_iff.mpr hT
                  have hattD : b.is_attacked
                      (castleDest Side.White true) Side.White true =
                      false := Bool.eq_false_iff.mpr hD
                  unfold castle_claim_ok
                  refine Bool.and_eq_true _ _ |>.mpr
                    ⟨Bool.and_eq_true _ _ |>.mpr
                      ⟨Bool.and_eq_true _ _ |>.mpr
                        ⟨Bool.and_eq_true _ _ |>.mpr
                          ⟨Bool.and_eq_true _ _ |>.mpr
                            ⟨hright, hOk⟩, ?_⟩,
                          by simp [hattE]⟩,
                        by simp [hattT]⟩,
                      by simp [hattD]⟩
                  rw [← room_eq_path b Side.White true]
                  exact hroom
    · intro hclaim
      unfold castle_claim_ok at hclaim
      obtain ⟨h12345, h6⟩ := Bool.and_eq_true _ _ |>.mp hclaim
      obtain ⟨h1234, h5⟩ := Bool.and_eq_true _ _ |>.mp h12345
      obtain ⟨h123, h4⟩ := Bool.and_eq_true _ _ |>.mp h1234
      obtain ⟨h12, h3⟩ := Bool.and_eq_true _ _ |>.mp h123
      obtain ⟨h1, h2⟩ := Bool.and_eq_true _ _ |>.mp h12
      have hright : CastleRights.kingside (b.castle_rights Side.White) = true := h1
      have hroom : b.check_castle_has_room Side.White true = true := by
        rw [room_eq_path b Side.White true]
        exact h3
      have hattE : b.is_attacked (Square.from_rank_and_file (1 : Rank)
          FileV.E) Side.White true = false := by
        have h4b := h4
        rw [Bool.not_eq_true'] at h4b
        exact h4b
      have hattT : b.is_attacked (Square.from_rank_and_file (1 : Rank)
          FileV.F) Side.White true = false := by
        have h5b := h5
        rw [Bool.not_eq_true'] at h5b
        exact h5b
      have hattD : b.is_attacked (Square.from_rank_and_file (1 : Rank)
          FileV.G) Side.White true = false := by
        have h6b := h6
        rw [Bool.not_eq_true'] at h6b
        exact h6b
      have hchk : (b.apply_move_unchecked (Move.mk (kingHome Side.White)
          (castleDest Side.White true) none)).is_in_check Side.White =
          false :=
        castle_applied_not_check b Side.White true hok hking h3
          (by have h6b := h6
              rw [Bool.not_eq_true'] at h6b
              exact h6b)
      refine ⟨?_, ?_⟩
      · unfold Board.moves
        refine List.mem_append.mpr (Or.inr (hcm.mpr ?_))
        exact Bool.and_eq_true _ _ |>.mpr ⟨h1, hroom⟩
      · unfold Board.move_legal
        simp only [hpk]
        rw [if_neg (by simp)]
        simp only [happ]
        rw [is_castling_castle b Side.White true hpk,
          is_kingside_castle_castle b Side.White true hpk]
        have h2f : (match b.piece (Square.from_rank_and_file (1 : Rank)
            FileV.H) with
          | some (r, s) => decide (r = Piece.Rook) &&
              decide (s = Side.White)
          | none => true) = true := h2
        cases hp : b.piece (Square.from_rank_and_file (1 : Rank) FileV.H) with
        | none =>
          simp [hchk, hright, hattE, hattT, hattD]
        | some ps =>
          obtain ⟨r, s⟩ := ps
          rw [hp] at h2f
          simp only [Bool.and_eq_true, decide_eq_true_eq] at h2f
          obtain ⟨hr, hs⟩ := h2f
          subst hr
          subst hs
          simp [hchk, hright, hattE, hattT, hattD]
  · -- Black queenside
    constructor
    · rintro ⟨hmem, hleg⟩
      unfold Board.moves at hmem
      have hcr : ((if false then CastleRights.kingside
          (b.castle_rights Side.Black) else CastleRights.queenside
          (b.castle_rights Side.Black)) &&
          b.check_castle_has_room Side.Black false) = true := by
        rcases List.mem_append.mp hmem with hm | hm
        · exfalso
          rw [List.mem_flatMap] at hm
          obtain ⟨x, hx, hmv⟩ := hm
          obtain ⟨pc, sd, hpx, hst, hdl, _⟩ := mem_msq_imp b x _ hmv
          have hx2 : x = kingHome Side.Black := hst.symm
          subst hx2
          rw [hpk] at hpx
          injection hpx with heq2
          have hpc : Piece.King = pc := congrArg Prod.fst heq2
          have hsd : Side.Black = sd := congrArg Prod.snd heq2
          subst hpc
          subst hsd
          exact king_moves_no_castle Side.Black false _ _ _ hdl
        · exact hcm.mp hm
      obtain ⟨hright, hroom⟩ := Bool.and_eq_true _ _ |>.mp hcr
      unfold Board.move_legal at hleg
      simp only [hpk] at hleg
      rw [if_neg (by simp)] at hleg
      simp only [happ] at hleg
      rw [is_castling_castle b Side.Black false hpk,
        is_kingside_castle_castle b Side.Black false hpk] at hleg
      by_cases hchk : (b.apply_move_unchecked (Move.mk
          (kingHome Side.Black) (castleDest Side.Black false)
          none)).is_in_check Side.Black = true
      · rw [if_pos hchk] at hleg
        simp at hleg
      · rw [if_neg hchk, if_pos rfl, if_neg (by simp)] at hleg
        split at hleg
        · simp at hleg
        · split at hleg
          · simp at hleg
          · rename_i hbad
            split at hleg
            · simp at hleg
            · rename_i hE
              split at hleg
              · simp at hleg
              · rename_i hT
                split at hleg
                · simp at hleg
                · rename_i hD
                  have hOk : (match b.piece
                      (rookHome Side.Black false) with
                    | some (r, s) => decide (r = Piece.Rook) &&
                        decide (s = Side.Black)
                    | none => true) = true := by
                    cases hp : b.piece (rookHome Side.Black false) with
                    | none => rfl
                    | some ps =>
                      obtain ⟨r, s⟩ := ps
                      have hp2 : b.piece (Square.from_rank_and_file
                        (8 : Rank) FileV.A) = some (r, s) := hp
                      rw [hp2] at hbad
                      simp at hbad
                      simp [hbad.1, hbad.2]
                  have hattE : b.is_attacked (kingHome Side.Black) Side.Black
                      true = false := Bool.eq_false_iff.mpr hE
                  have hattT : b.is_attacked
                      (rookTransit Side.Black false) Side.Black true =
                      false := Bool.eq_false_iff.mpr hT
                  have hattD : b.is_attacked
                      (castleDest Side.Black false) Side.Black true =
                      false := Bool.eq_false_iff.mpr hD
                  unfold castle_claim_ok
                  refine Bool.and_eq_true _ _ |>.mpr
                    ⟨Bool.and_eq_true _ _ |>.mpr
                      ⟨Bool.and_eq_true _ _ |>.mpr
                        ⟨Bool.and_eq_true _ _ |>.mpr
                          ⟨Bool.and_eq_true _ _ |>.mpr
                            ⟨hright, hOk⟩, ?_⟩,
                          by simp [hattE]⟩,
                        by simp [hattT]⟩,
                      by simp [hattD]⟩
                  rw [← room_eq_path b Side.Black false]
                  exact hroom
    · intro hclaim
      unfold castle_claim_ok at hclaim
      obtain ⟨h12345, h6⟩ := Bool.and_eq_true _ _ |>.mp hclaim
      obtain ⟨h1234, h5⟩ := Bool.and_eq_true _ _ |>.mp h12345
      obtain ⟨h123, h4⟩ := Bool.and_eq_true _ _ |>.mp h1234
      obtain ⟨h12, h3⟩ := Bool.and_eq_true _ _ |>.mp h123
      obtain ⟨h1, h2⟩ := Bool.and_eq_true _ _ |>.mp h12
      have hright : CastleRights.queenside (b.castle_rights Side.Black) = true := h1
      have hroom : b.check_castle_has_room Side.Black false = true := by
        rw [room_eq_path b Side.Black false]
        exact h3
      have hattE : b.is_attacked (Square.from_rank_and_file (8 : Rank)
          FileV.E) Side.Black true = false := by
        have h4b := h4
        rw [Bool.not_eq_true'] at h4b
        exact h4b
      have hattT : b.is_attacked (Square.from_rank_and_file (8 : Rank)
          FileV.D) Side.Black true = false := by
        have h5b := h5
        rw [Bool.not_eq_true'] at h5b
        exact h5b
      have hattD : b.is_attacked (Square.from_rank_and_file (8 : Rank)
          FileV.C) Side.Black true = false := by
        have h6b := h6
        rw [Bool.not_eq_true'] at h6b
        exact h6b
      have hchk : (b.apply_move_unchecked (Move.mk (kingHome Side.Black)
          (castleDest Side.Black false) none)).is_in_check Side.Black =
          false :=
        castle_applied_not_check b Side.Black false hok hking h3
          (by have h6b := h6
              rw [Bool.not_eq_true'] at h6b
              exact h6b)
      refine ⟨?_, ?_⟩
      · unfold Board.moves
        refine List.mem_append.mpr (Or.inr (hcm.mpr ?_))
        exact Bool.and_eq_true _ _ |>.mpr ⟨h1, hroom⟩
      · unfold Board.move_legal
        simp only [hpk]
        rw [if_neg (by simp)]
        simp only [happ]
        rw [is_castling_castle b Side.Black false hpk,
          is_kingside_castle_castle b Side.Black false hpk]
        have h2f : (match b.piece (Square.from_rank_and_file (8 : Rank)
            FileV.A) with
          | some (r, s) => decide (r = Piece.Rook) &&
              decide (s = Side.Black)
          | none => true) = true := h2
        cases hp : b.piece (Square.from_rank_and_file (8 : Rank) FileV.A) with
        | none =>
          simp [hchk, hright, hattE, hattT, hattD]
        | some ps =>
          obtain ⟨r, s⟩ := ps
          rw [hp] at h2f
          simp only [Bool.and_eq_true, decide_eq_true_eq] at h2f
          obtain ⟨hr, hs⟩ := h2f
          subst hr
          subst hs
          simp [hchk, hright, hattE, hattT, hattD]
  · -- Black kingside
    constructor
    · rintro ⟨hmem, hleg⟩
      unfold Board.moves at hmem
      have hcr : ((if true then CastleRights.kingside
          (b.castle_rights Side.Black) else CastleRights.queenside
          (b.castle_rights Side.Black)) &&
          b.check_castle_has_room Side.Black true) = true := by
        rcases List.mem_append.mp hmem with hm | hm
        · exfalso
          rw [List.mem_flatMap] at hm
          obtain ⟨x, hx, hmv⟩ := hm
          obtain ⟨pc, sd, hpx, hst, hdl, _⟩ := mem_msq_imp b x _ hmv
          have hx2 : x = kingHome Side.Black := hst.symm
          subst hx2
          rw [hpk] at hpx
          injection hpx with heq2
          have hpc : Piece.King = pc := congrArg Prod.fst heq2
          have hsd : Side.Black = sd := congrArg Prod.snd heq2
          subst hpc
          subst hsd
          exact king_moves_no_castle Side.Black true _ _ _ hdl
        · exact hcm.mp hm
      obtain ⟨hright, hroom⟩ := Bool.and_eq_true _ _ |>.mp hcr
      unfold Board.move_legal at hleg
      simp only [hpk] at hleg
      rw [if_neg (by simp)] at hleg
      simp only [happ] at hleg
      rw [is_castling_castle b Side.Black true hpk,
        is_kingside_castle_castle b Side.Black true hpk] at hleg
      by_cases hchk : (b.apply_move_unchecked (Move.mk
          (kingHome Side.Black) (castleDest Side.Black true)
          none)).is_in_check Side.Black = true
      · rw [if_pos hchk] at hleg
        simp at hleg
      · rw [if_neg hchk, if_pos rfl, if_pos rfl] at hleg
        split at hleg
        · simp at hleg
        · split at hleg
          · simp at hleg
          · rename_i hbad
            split at hleg
            · simp at hleg
            · rename_i hE
              split at hleg
              · simp at hleg
              · rename_i hT
                split at hleg
                · simp at hleg
                · rename_i hD
                  have hOk : (match b.piece
                      (rookHome Side.Black true) with
                    | some (r, s) => decide (r = Piece.Rook) &&
                        decide (s = Side.Black)
                    | none => true) = true := by
                    cases hp : b.piece (rookHome Side.Black true) with
                    | none => rfl
                    | some ps =>
                      obtain ⟨r, s⟩ := ps
                      have hp2 : b.piece (Square.from_rank_and_file
                        (8 : Rank) FileV.H) = some (r, s) := hp
                      rw [hp2] at hbad
                      simp at hbad
                      simp [hbad.1, hbad.2]
                  have hattE : b.is_attacked (kingHome Side.Black) Side.Black
                      true = false := Bool.eq_false_iff.mpr hE
                  have hattT : b.is_attacked
                      (rookTransit Side.Black true) Side.Black true =
                      false := Bool.eq_false_iff.mpr hT
                  have hattD : b.is_attacked
                      (castleDest Side.Black true) Side.Black true =
                      false := Bool.eq_false_iff.mpr hD
                  unfold castle_claim_ok
                  refine Bool.and_eq_true _ _ |>.mpr
                    ⟨Bool.and_eq_true _ _ |>.mpr
                      ⟨Bool.and_eq_true _ _ |>.mpr
                        ⟨Bool.and_eq_true _ _ |>.mpr
                          ⟨Bool.and_eq_true _ _ |>.mpr
                            ⟨hright, hOk⟩, ?_⟩,
                          by simp [hattE]⟩,
                        by simp [hattT]⟩,
                      by simp [hattD]⟩
                  rw [← room_eq_path b Side.Black true]
                  exact hroom
    · intro hclaim
      unfold castle_claim_ok at hclaim
      obtain ⟨h12345, h6⟩ := Bool.and_eq_true _ _ |>.mp hclaim
      obtain ⟨h1234, h5⟩ := Bool.and_eq_true _ _ |>.mp h12345
      obtain ⟨h123, h4⟩ := Bool.and_eq_true _ _ |>.mp h1234
      obtain ⟨h12, h3⟩ := Bool.and_eq_true _ _ |>.mp h123
      obtain ⟨h1, h2⟩ := Bool.and_eq_true _ _ |>.mp h12
      have hright : CastleRights.kingside (b.castle_rights Side.Black) = true := h1
      have hroom : b.check_castle_has_room Side.Black true = true := by
        rw [room_eq_path b Side.Black true]
        exact h3
      have hattE : b.is_attacked (Square.from_rank_and_file (8 : Rank)
          FileV.E) Side.Black true = false := by
        have h4b := h4
        rw [Bool.not_eq_true'] at h4b
        exact h4b
      have hattT : b.is_attacked (Square.from_rank_and_file (8 : Rank)
          FileV.F) Side.Black true = false := by
        have h5b := h5
        rw [Bool.not_eq_true'] at h5b
        exact h5b
      have hattD : b.is_attacked (Square.from_rank_and_file (8 : Rank)
          FileV.G) Side.Black true = false := by
        have h6b := h6
        rw [Bool.not_eq_true'] at h6b
        exact h6b
      have hchk : (b.apply_move_unchecked (Move.mk (kingHome Side.Black)
          (castleDest Side.Black true) none)).is_in_check Side.Black =
          false :=
        castle_applied_not_check b Side.Black true hok hking h3
          (by have h6b := h6
              rw [Bool.not_eq_true'] at h6b
              exact h6b)
      refine ⟨?_, ?_⟩
      · unfold Board.moves
        refine List.mem_append.mpr (Or.inr (hcm.mpr ?_))
        exact Bool.and_eq_true _ _ |>.mpr ⟨h1, hroom⟩
      · unfold Board.move_legal
        simp only [hpk]
        rw [if_neg (by simp)]
        simp only [happ]
        rw [is_castling_castle b Side.Black true hpk,
          is_kingside_castle_castle b Side.Black true hpk]
        have h2f : (match b.piece (Square.from_rank_and_file (8 : Rank)
            FileV.H) with
          | some (r, s) => decide (r = Piece.Rook) &&
              decide (s = Side.Black)
          | none => true) = true := h2
        cases hp : b.piece (Square.from_rank_and_file (8 : Rank) FileV.H) with
        | none =>
          simp [hchk, hright, hattE, hattT, hattD]
        | some ps =>
          obtain ⟨r, s⟩ := ps
          rw [hp] at h2f
          simp only [Bool.and_eq_true, decide_eq_true_eq] at h2f
          obtain ⟨hr, hs⟩ := h2f
          subst hr
          subst hs
          simp [hchk, hright, hattE, hattT, hattD]

/-- Counterexample to C4 as stated: on `castleFreeBoard` the kingside
castling move e1g1 is in `legal_moves` — the right is held and the
path is empty — although no rook stands on h1 (the square is empty,
and `move_legal`'s rook check passes on an empty home corner). -/
theorem castle_no_rook_cex :
    (Move.mk 4 6 none) ∈ castleFreeBoard.legal_moves ∧
    castleFreeBoard.piece 7 = none ∧
    CastleRights.kingside
      (castleFreeBoard.castle_rights Side.White) = true :=
  ⟨by decide, by decide, by decide⟩

/-- Witness for C4 on `castleFreeBoard` (White kingside). -/
theorem castle_move_iff_witness :
    castleFreeBoard.placement_ok = true ∧
    castleFreeBoard.to_move = Side.White ∧
    (castleFreeBoard.pieces Piece.King &&&
      castleFreeBoard.color_pieces Side.White =
      BitBoard.from_square (kingHome Side.White)) ∧
    ((Move.mk (kingHome Side.White) (castleDest Side.White true)
        none ∈ castleFreeBoard.legal_moves) ↔
      castle_claim_ok castleFreeBoard Side.White true = true) :=
  ⟨by decide, rfl, by decide,
   castle_move_iff castleFreeBoard Side.White true (by decide) rfl
     (by decide)⟩

end Chess
